import Mathlib

/-!
Verification of the SCPI command-schema compiler (`src/t76/scpi/trie_generator.py`).

This file gives a shallow embedding, in Lean, of the data model and the
operations of the trie generator: schema records and their validation
(`SCPIDefinitionParameter.validate`, `SCPIDefinitionCommand.validate`,
`SCPIDefinition.validate`), the abbreviation-aware variation expander
(`SCPITrie._generate_command_variations`), trie construction
(`SCPITrie._insert_command`, `SCPITrieNode.add_child`), the layout and
statistics estimator (`calculate_memory_usage`,
`calculate_average_lookup_depth`) and the static-representation emitter
(`SCPITrie._collect_node_definitions`).

Modelling conventions:
* Python `ValueError`-raising validators become `Except String Unit` with
  errors in the source order; Python truthiness of optional strings and
  lists is modelled explicitly.
* Python scalar values that can appear as a parameter default under YAML
  loading (str, bool, int, float) become the inductive `PyValue`; Python
  `isinstance` checks are modelled on its constructors, with `bool` a
  subtype of `int` exactly as in Python.  Floats are modelled by rationals:
  no claim depends on float rounding.
* Python dicts keyed by characters become association lists in insertion
  order (a Python dict preserves insertion order: a new key is appended at
  the end, an updated key keeps its position).
* In-place mutation of trie nodes becomes functional rebuilding of the
  path from the root.
-/

/-! ## Python scalar values and Python equality -/

/-- A Python scalar value as loaded from YAML (`Any` in the source):
a string, a boolean, an integer or a float (modelled as a rational). -/
inductive PyValue where
  | pyStr (s : String)
  | pyBool (b : Bool)
  | pyInt (n : Int)
  | pyFloat (q : Rat)
deriving DecidableEq

/-- Numeric view of a Python value: Python treats `bool` as a subtype of
`int`, so `True` behaves as `1` and `False` as `0`; strings have no
numeric view. -/
def PyValue.toRatNum : PyValue → Option Rat
  | .pyStr _ => none
  | .pyBool b => some (if b then 1 else 0)
  | .pyInt n => some (n : Rat)
  | .pyFloat q => some q

/-- Python `==` on scalar values: numeric values compare by value across
`bool`/`int`/`float` (so `True == 1`), strings compare as strings, and a
string never equals a number. -/
def pyEq (a b : PyValue) : Bool :=
  match a.toRatNum, b.toRatNum with
  | some x, some y => x == y
  | _, _ =>
    match a, b with
    | .pyStr s, .pyStr t => s == t
    | _, _ => false

/-- `isinstance(v, (int, float))`: true for ints, floats and also booleans
(Python `bool` is a subclass of `int`). -/
def isinstNumber : PyValue → Bool
  | .pyBool _ => true
  | .pyInt _ => true
  | .pyFloat _ => true
  | .pyStr _ => false

/-- `isinstance(v, str)`. -/
def isinstStr : PyValue → Bool
  | .pyStr _ => true
  | _ => false

/-- `isinstance(v, bool)`. -/
def isinstBool : PyValue → Bool
  | .pyBool _ => true
  | _ => false

/-! ## Character classes and lexical checks

The source validates identifiers and command syntaxes with `re.match`.
The regexes involved use only explicit ASCII character classes, so they
are embedded as executable character-by-character matchers. -/

/-- The class `[A-Z_0-9]` (the uppercase stem class of a SCPI segment). -/
def isUpperCls (c : Char) : Bool := c.isUpper || c == '_' || c.isDigit

/-- The class `[a-z_0-9]` (the lowercase suffix class of a SCPI segment). -/
def isLowerCls (c : Char) : Bool := c.isLower || c == '_' || c.isDigit

/-- First character of `[a-zA-Z_][a-zA-Z0-9_]*`. -/
def isIdentStart (c : Char) : Bool := c.isAlpha || c == '_'

/-- Continuation character of `[a-zA-Z_][a-zA-Z0-9_]*`. -/
def isIdentChar (c : Char) : Bool := c.isAlphanum || c == '_'

/-- `re.match(r'^[a-zA-Z_][a-zA-Z0-9_]*$', s)`: a valid identifier. -/
def identOK (s : String) : Bool :=
  match s.data with
  | [] => false
  | c :: cs => isIdentStart c && cs.all isIdentChar

/-- State of the deterministic matcher for the namespace regex
`^[a-zA-Z_][a-zA-Z0-9_]*(::?[a-zA-Z_][a-zA-Z0-9_]*)*$`. -/
inductive NsState where
  | start
  | ident
deriving DecidableEq

/-- Deterministic matcher for the namespace regex: `start` expects the
first character of an identifier, `ident` is inside an identifier.  A `:`
or `::` separator leads back to `start`.  The regex needs no backtracking
because identifier characters, `:` and end-of-string are disjoint. -/
def nsRun : List Char → NsState → Bool
  | [], .start => false
  | [], .ident => true
  | c :: cs, .start => isIdentStart c && nsRun cs .ident
  | ':' :: ':' :: cs, .ident => nsRun cs .start
  | ':' :: cs, .ident => nsRun cs .start
  | c :: cs, .ident => isIdentChar c && nsRun cs .ident

/-- `re.match(r'^[a-zA-Z_][a-zA-Z0-9_]*(::?[a-zA-Z_][a-zA-Z0-9_]*)*$', s)`. -/
def nsOK (s : String) : Bool := nsRun s.data .start

/-- State of the deterministic matcher for the command-syntax regex
`^([\*]?([A-Z_0-9]+[a-z_0-9]*)(:[A-Z_0-9]+[a-z_0-9]*)*)(\?)?$`:
`segStart` expects the first (upper-class) character of a segment,
`inUpper` is inside the `[A-Z_0-9]+` stem, `inLower` inside the
`[a-z_0-9]*` suffix. -/
inductive SynState where
  | segStart
  | inUpper
  | inLower
deriving DecidableEq

/-- Deterministic matcher for the command-syntax regex (after the optional
leading `*`).  The stem and suffix classes overlap on digits and
underscore; staying in `inUpper` on such characters recognises the union
of both continuations because every string accepted from `inLower` is
also accepted from `inUpper`, so the greedy single-pass scan recognises
the same language as the backtracking regex. -/
def synRun : List Char → SynState → Bool
  | [], .segStart => false
  | [], .inUpper => true
  | [], .inLower => true
  | c :: cs, .segStart => isUpperCls c && synRun cs .inUpper
  | c :: cs, .inUpper =>
    if isUpperCls c then synRun cs .inUpper
    else if isLowerCls c then synRun cs .inLower
    else if c == ':' then synRun cs .segStart
    else if c == '?' then cs.isEmpty
    else false
  | c :: cs, .inLower =>
    if isLowerCls c then synRun cs .inLower
    else if c == ':' then synRun cs .segStart
    else if c == '?' then cs.isEmpty
    else false

/-- `re.match(r'^([\*]?([A-Z_0-9]+[a-z_0-9]*)(:[A-Z_0-9]+[a-z_0-9]*)*)(\?)?$', s)`:
the command-syntax validity check of `SCPIDefinitionCommand.validate`. -/
def syntaxOK (s : String) : Bool :=
  match s.data with
  | [] => false
  | c :: cs => if c = '*' then synRun cs .segStart else synRun (c :: cs) .segStart

/-! ## Schema records and validation -/

/-- `SCPIDefinitionParameter`: a parameter of a SCPI command definition. -/
structure SCPIDefinitionParameter where
  name : String
  type : String
  description : String
  default : Option PyValue := none
  choices : Option (List String) := none
deriving DecidableEq

/-- Python truthiness of the `choices` field (`None` and `[]` are falsy). -/
def choicesTruthy : Option (List String) → Bool
  | none => false
  | some cs => !cs.isEmpty

/-- Python truthiness of an optional string (`None` and `""` are falsy). -/
def optStrTruthy : Option String → Bool
  | none => false
  | some s => !(s == "")

/-- `SCPIDefinitionParameter.validate`, with the checks in source order.
The source's `isinstance(self.choices, list)` check is vacuous in this
typed model (the `choices` field is always a list when present). -/
def SCPIDefinitionParameter.validate (p : SCPIDefinitionParameter) : Except String Unit :=
  if !(["string", "number", "boolean", "enum", "arbitrarydata"].contains p.type) then
    .error ("Invalid type for parameter " ++ p.name)
  else if (match p.default with
      | some d => p.type == "number" && !(isinstNumber d)
      | none => false) then
    .error ("Default value for parameter " ++ p.name ++ " must be a number")
  else if (match p.default with
      | some d => p.type == "string" && !(isinstStr d)
      | none => false) then
    .error ("Default value for parameter " ++ p.name ++ " must be a string")
  else if (match p.default with
      | some d => p.type == "boolean" && !(isinstBool d)
      | none => false) then
    .error ("Default value for parameter " ++ p.name ++ " must be a boolean")
  else if (match p.default, p.choices with
      | some d, some cs => p.type == "enum" && !cs.isEmpty && !(cs.any (fun c => pyEq d (.pyStr c)))
      | _, _ => false) then
    .error ("Default value for parameter " ++ p.name ++ " must be one of the choices")
  else if p.type == "enum" && !(choicesTruthy p.choices) then
    .error ("Enum parameter " ++ p.name ++ " must have at least one choice")
  else if p.type == "arbitrarydata" && p.default.isSome then
    .error "Arbitrary data parameters cannot have default values"
  else if p.type == "arbitrarydata" && p.choices.isSome then
    .error "Arbitrary data parameters cannot have choices"
  else if !(identOK p.name) then
    .error ("Invalid parameter name " ++ p.name)
  else
    .ok ()

/-- `SCPIDefinitionCommand`: a SCPI command definition.  The source field
`syntax` is renamed `syntaxStr` (`syntax` is reserved in Lean). -/
structure SCPIDefinitionCommand where
  syntaxStr : String
  description : String
  response : Option String := none
  handler : Option String := none
  parameters : Option (List SCPIDefinitionParameter) := none
deriving DecidableEq

/-- `SCPIDefinitionCommand.validate`, with the checks in source order.
The `isinstance` checks on `syntax`, `response` and `handler` are vacuous
in this typed model. -/
def SCPIDefinitionCommand.validate (c : SCPIDefinitionCommand) : Except String Unit :=
  if c.syntaxStr == "" then
    .error "Command syntax must be a non-empty string"
  else if !(syntaxOK c.syntaxStr) then
    .error "Invalid SCPI command syntax"
  else if (!(optStrTruthy c.handler) && !(optStrTruthy c.response))
      || (optStrTruthy c.handler && optStrTruthy c.response) then
    .error "Command must have either a handler or a response, but not both"
  else
    match c.parameters with
    | some ps => ps.forM (fun p => p.validate)
    | none => .ok ()

/-- `SCPIDefinition`: namespace, class name, output file and command list.
The source fields `namespace` and `class_name` are renamed `namespaceStr`
and `className` (`namespace` and `class` are reserved in Lean). -/
structure SCPIDefinition where
  namespaceStr : String
  className : String
  outputFile : String
  commands : List SCPIDefinitionCommand
deriving DecidableEq

/-- `SCPIDefinition.validate`, with the checks in source order: non-empty
namespace, namespace regex, non-empty class name, non-empty output file,
non-empty command list, then each command is validated in order.  There is
no pairwise comparison between commands. -/
def SCPIDefinition.validate (d : SCPIDefinition) : Except String Unit :=
  if d.namespaceStr == "" then
    .error "Namespace must be a non-empty string"
  else if !(nsOK d.namespaceStr) then
    .error "Invalid namespace"
  else if d.className == "" then
    .error "Class name must be a non-empty string"
  else if d.outputFile == "" then
    .error "Output file must be a non-empty string"
  else if d.commands.isEmpty then
    .error "Commands must be a non-empty list"
  else
    d.commands.forM (fun c => c.validate)

/-! ## The variation expander (`_generate_command_variations`) -/

/-- The characters the expander treats as literal tokens. -/
def isSpecialChar (c : Char) : Bool := c == '*' || c == ':' || c == '?'

/-- Accumulating splitter of a syntax string into segments, mirroring the
source's character loop: non-special characters accumulate into the
current segment (kept reversed), a special character flushes the current
segment and is emitted as a one-character segment, and a trailing segment
is flushed at the end. -/
def tokensAux : List Char → List Char → List (List Char)
  | [], cur => if cur.isEmpty then [] else [cur.reverse]
  | c :: cs, cur =>
    if isSpecialChar c then
      (if cur.isEmpty then [] else [cur.reverse]) ++ [c] :: tokensAux cs []
    else
      tokensAux cs (c :: cur)

/-- Split a syntax into segments, preserving the separators. -/
def tokenize (s : List Char) : List (List Char) := tokensAux s []

/-- Per-segment accepted spellings, mirroring the source: the literal
tokens `*`, `:`, `?` stay as-is; otherwise
`re.match(r'([A-Z_0-9]+)([a-z_0-9]*)', segment)` is taken (greedy, not
required to consume the whole segment): on success with a non-empty
lowercase group the spellings are stem and stem-plus-suffix, with an
empty lowercase group just the stem; on failure (first character not in
the stem class) the segment is kept as-is. -/
def segmentVariations (seg : List Char) : List (List Char) :=
  if seg == ['*'] || seg == [':'] || seg == ['?'] then
    [seg]
  else
    match seg with
    | c :: _ =>
      if isUpperCls c then
        let upperPart := seg.takeWhile isUpperCls
        let lowerPart := (seg.dropWhile isUpperCls).takeWhile isLowerCls
        if !lowerPart.isEmpty then [upperPart, upperPart ++ lowerPart] else [upperPart]
      else [seg]
    | [] => [seg]

/-- `itertools.product` across the per-segment alternative lists, fused
with the `''.join` of each combination; the enumeration order matches
`itertools.product` (the last factor varies fastest). -/
def listProd : List (List (List Char)) → List (List Char)
  | [] => [[]]
  | alts :: rest => alts.flatMap (fun a => (listProd rest).map (fun tail => a ++ tail))

/-- `str.upper()` on a list of characters (ASCII, as in all validated
syntaxes). -/
def upperList (cs : List Char) : List Char := cs.map Char.toUpper

/-- `_generate_command_variations` on a list of characters: tokenize,
expand each segment, take the Cartesian product, and uppercase every
result. -/
def generateVariationsChars (s : List Char) : List (List Char) :=
  (listProd ((tokenize s).map segmentVariations)).map upperList

/-- `SCPITrie._generate_command_variations`. -/
def generateCommandVariations (syntaxStr : String) : List String :=
  (generateVariationsChars syntaxStr.data).map (fun cs => String.mk cs)

example : generateCommandVariations "LED:STATe?" = ["LED:STAT?", "LED:STATE?"] := by decide
example : generateCommandVariations "*IDN?" = ["*IDN?"] := by decide
example : generateCommandVariations "MEAS:VOLTage?" = ["MEAS:VOLT?", "MEAS:VOLTAGE?"] := by decide
example : syntaxOK "LED:STATe?" = true := by decide
example : syntaxOK "LED::STATe?" = false := by decide
example : syntaxOK "*IDN?" = true := by decide
example : syntaxOK "led?" = false := by decide
example : nsOK "T76::Instr" = true := by decide
example : identOK "_foo1" = true := by decide

/-! ## The trie (`SCPITrieNode`, `SCPITrie`) -/

mutual
/-- `SCPITrieNode`: a character, a terminal flag, an optional owning
command index, and the children in dictionary (insertion) order.  The
root's Python character is the empty string; it is modelled by the NUL
character, which the emitter also prints as `'\0'`. -/
inductive SCPITrieNode where
  | mk (character : Char) (terminal : Bool) (commandIndex : Option Nat) (children : ChildList)

/-- The children of a trie node, keyed by each child's own character, in
insertion order (a Python dict preserves insertion order). -/
inductive ChildList where
  | nil
  | cons (child : SCPITrieNode) (rest : ChildList)
end

/-- The stored character of a node. -/
def SCPITrieNode.character : SCPITrieNode → Char
  | .mk c _ _ _ => c

/-- The terminal flag of a node. -/
def SCPITrieNode.terminal : SCPITrieNode → Bool
  | .mk _ t _ _ => t

/-- The owning command index of a node (meaningful when terminal). -/
def SCPITrieNode.commandIndex : SCPITrieNode → Option Nat
  | .mk _ _ i _ => i

/-- The children of a node. -/
def SCPITrieNode.children : SCPITrieNode → ChildList
  | .mk _ _ _ cs => cs

/-- Dictionary lookup `children[char]` (first entry with that character). -/
def ChildList.lookup : ChildList → Char → Option SCPITrieNode
  | .nil, _ => none
  | .cons n rest, c => if n.character == c then some n else rest.lookup c

/-- Membership test `char in children`. -/
def ChildList.containsChar (cs : ChildList) (c : Char) : Bool := (cs.lookup c).isSome

/-- Dictionary insertion of a new key: appended at the end. -/
def ChildList.append : ChildList → SCPITrieNode → ChildList
  | .nil, n => .cons n .nil
  | .cons m rest, n => .cons m (rest.append n)

/-- Dictionary update of an existing key: the first entry with that
character is replaced, keeping its position. -/
def ChildList.replace : ChildList → Char → SCPITrieNode → ChildList
  | .nil, _, _ => .nil
  | .cons m rest, c, n => if m.character == c then .cons n rest else .cons m (rest.replace c n)

/-- `SCPITrieNode.add_child`: raises when a child with the same character
already exists, otherwise adds the node to the children. -/
def SCPITrieNode.addChild (parent : SCPITrieNode) (node : SCPITrieNode) : Except String SCPITrieNode :=
  if parent.children.containsChar node.character then
    .error "Child node with this character already exists"
  else
    match parent with
    | .mk c t i cs => .ok (.mk c t i (cs.append node))

/-- One iteration of the variation-insertion loop of `_insert_command`,
walking the variation character by character: a missing child is created
via `add_child`, then the walk descends; at the end of the variation the
final node is marked terminal and assigned the command index (silently
overwriting any previous assignment).  In-place mutation of the descended
node becomes a functional `replace` on the way back up. -/
def SCPITrieNode.insertVariation : SCPITrieNode → List Char → Nat → Except String SCPITrieNode
  | .mk ch _ _ cs, [], idx => .ok (.mk ch true (some idx) cs)
  | .mk ch term ci cs, c :: rest, idx =>
    match cs.lookup c with
    | some child =>
      match child.insertVariation rest idx with
      | .ok child2 => .ok (.mk ch term ci (cs.replace c child2))
      | .error e => .error e
    | none =>
      match (SCPITrieNode.mk ch term ci cs).addChild (.mk c false none .nil) with
      | .ok parent2 =>
        match (SCPITrieNode.mk c false none .nil).insertVariation rest idx with
        | .ok child2 => .ok (.mk ch term ci (parent2.children.replace c child2))
        | .error e => .error e
      | .error e => .error e

/-- Total version of `insertVariation` (the `add_child` error branch is
dead: `add_child` is only called after the membership check failed). -/
def SCPITrieNode.insertVarT : SCPITrieNode → List Char → Nat → SCPITrieNode
  | .mk ch _ _ cs, [], idx => .mk ch true (some idx) cs
  | .mk ch term ci cs, c :: rest, idx =>
    match cs.lookup c with
    | some child => .mk ch term ci (cs.replace c (child.insertVarT rest idx))
    | none =>
      .mk ch term ci ((cs.append (.mk c false none .nil)).replace c
        ((SCPITrieNode.mk c false none .nil).insertVarT rest idx))

/-- Python `list.index(command)`: the index of the first command equal to
the given one (dataclass equality is field-wise structural equality with
Python `==` on default values). -/
def paramPyEq (a b : SCPIDefinitionParameter) : Bool :=
  a.name == b.name && a.type == b.type && a.description == b.description &&
  (match a.default, b.default with
   | none, none => true
   | some x, some y => pyEq x y
   | _, _ => false) &&
  a.choices == b.choices

/-- Python `==` on commands (dataclass field-wise equality). -/
def cmdPyEq (a b : SCPIDefinitionCommand) : Bool :=
  a.syntaxStr == b.syntaxStr && a.description == b.description &&
  a.response == b.response && a.handler == b.handler &&
  (match a.parameters with
   | none => b.parameters == none
   | some ps =>
     match b.parameters with
     | none => false
     | some qs => ps.length == qs.length && (ps.zip qs).all (fun pq => paramPyEq pq.1 pq.2))

/-- `self.commands.index(command)`: position of the first equal command.
(The call sites always pass a member of the list, so the not-found case
of Python, an exception, cannot occur; `findIdx` then agrees with
`list.index`.) -/
def indexOfCommand (commands : List SCPIDefinitionCommand) (cmd : SCPIDefinitionCommand) : Nat :=
  commands.findIdx (fun c => cmdPyEq c cmd)

/-- The root node created by `SCPITrie.__init__` (Python character `''`,
modelled as NUL). -/
def emptyRoot : SCPITrieNode := .mk (Char.ofNat 0) false none .nil

/-- `SCPITrie._insert_command`: generate all variations of the command's
syntax and insert each one, attaching `commands.index(command)`. -/
def insertCommand (commands : List SCPIDefinitionCommand) (t : SCPITrieNode)
    (cmd : SCPIDefinitionCommand) : Except String SCPITrieNode :=
  (generateCommandVariations cmd.syntaxStr).foldlM
    (fun t v => t.insertVariation v.data (indexOfCommand commands cmd)) t

/-- `SCPITrie.__init__`: insert all commands, in order, into a fresh root. -/
def buildTrie (commands : List SCPIDefinitionCommand) : Except String SCPITrieNode :=
  commands.foldlM (insertCommand commands) emptyRoot

/-- Total version of `insertCommand`. -/
def insertCommandT (commands : List SCPIDefinitionCommand) (t : SCPITrieNode)
    (cmd : SCPIDefinitionCommand) : SCPITrieNode :=
  (generateCommandVariations cmd.syntaxStr).foldl
    (fun t v => t.insertVarT v.data (indexOfCommand commands cmd)) t

/-- Total version of `buildTrie`. -/
def buildTrieT (commands : List SCPIDefinitionCommand) : SCPITrieNode :=
  commands.foldl (insertCommandT commands) emptyRoot

/-! ## Walking the trie (the matching contract)

The runtime matcher is outside this repository; per the spec, a command
string is matched character by character from the root, succeeding when
it ends on a terminal node. -/

/-- Walk from a node along a character list, descending through the
children; `none` when some character has no child. -/
def SCPITrieNode.walk : SCPITrieNode → List Char → Option SCPITrieNode
  | t, [] => some t
  | t, c :: cs =>
    match t.children.lookup c with
    | some child => child.walk cs
    | none => none

/-- The command index reached by a character list: the walked-to node's
index when that node is terminal, otherwise `none`. -/
def lookupCmdChars (t : SCPITrieNode) (v : List Char) : Option Nat :=
  match t.walk v with
  | some n => if n.terminal then n.commandIndex else none
  | none => none

/-- `lookupCmdChars` on a string. -/
def lookupCmd (t : SCPITrieNode) (s : String) : Option Nat := lookupCmdChars t s.data

/-! ## Trie statistics -/

mutual
/-- Total number of nodes of a (sub)trie, root included
(`count_nodes_and_arrays` / `count_nodes` in the source). -/
def SCPITrieNode.countNodes : SCPITrieNode → Nat
  | .mk _ _ _ cs => 1 + cs.countNodesL

/-- Total number of nodes of a child list. -/
def ChildList.countNodesL : ChildList → Nat
  | .nil => 0
  | .cons n rest => n.countNodes + rest.countNodesL
end

/-- Number of entries of a child list (`len(node.children)`). -/
def ChildList.length : ChildList → Nat
  | .nil => 0
  | .cons _ rest => 1 + rest.length

mutual
/-- Number of children arrays (`count_nodes_and_arrays`: one per node
with a non-empty child dictionary). -/
def SCPITrieNode.countArrays : SCPITrieNode → Nat
  | .mk _ _ _ cs => (match cs with | .nil => 0 | .cons _ _ => 1) + cs.countArraysL

/-- Children arrays of a child list. -/
def ChildList.countArraysL : ChildList → Nat
  | .nil => 0
  | .cons n rest => n.countArrays + rest.countArraysL
end

mutual
/-- Total number of child slots (`total_children`). -/
def SCPITrieNode.countChildren : SCPITrieNode → Nat
  | .mk _ _ _ cs => cs.length + cs.countChildrenL

/-- Child slots of a child list. -/
def ChildList.countChildrenL : ChildList → Nat
  | .nil => 0
  | .cons n rest => n.countChildren + rest.countChildrenL
end

mutual
/-- Number of terminal nodes (`count_terminal_nodes`). -/
def SCPITrieNode.countTerminals : SCPITrieNode → Nat
  | .mk _ t _ cs => (if t then 1 else 0) + cs.countTerminalsL

/-- Terminal nodes of a child list. -/
def ChildList.countTerminalsL : ChildList → Nat
  | .nil => 0
  | .cons n rest => n.countTerminals + rest.countTerminalsL
end

mutual
/-- `get_terminal_depths`: the depths of all terminal nodes, the node
itself first, then its children in dictionary order. -/
def SCPITrieNode.terminalDepths : SCPITrieNode → Nat → List Nat
  | .mk _ t _ cs, depth => (if t then [depth] else []) ++ cs.terminalDepthsL (depth + 1)

/-- Terminal depths of a child list. -/
def ChildList.terminalDepthsL : ChildList → Nat → List Nat
  | .nil, _ => []
  | .cons n rest, depth => n.terminalDepths depth ++ rest.terminalDepthsL depth
end

/-- `calculate_average_lookup_depth`: mean of the terminal depths, `0.0`
for an empty list.  The Python float division is modelled by rational
division (exact on every value the claims mention). -/
def calculateAverageLookupDepth (t : SCPITrieNode) : Rat :=
  let depths := t.terminalDepths 0
  if depths.isEmpty then 0 else ((depths.sum : Nat) : Rat) / (depths.length : Rat)

/-- The one-command `*IDN?` definition of the concrete scenario in the
spec (a response, no handler). -/
def idnCmd : SCPIDefinitionCommand :=
  { syntaxStr := "*IDN?", description := "Identification query", response := some "MOCK,1.0" }

/-- The one-command `LED:STATe?` definition of the concrete scenario in
the spec (a handler, no response). -/
def ledCmd : SCPIDefinitionCommand :=
  { syntaxStr := "LED:STATe?", description := "LED state query", handler := some "queryLed" }

example : buildTrieT [idnCmd]
    = .mk (Char.ofNat 0) false none
        (.cons (.mk '*' false none
          (.cons (.mk 'I' false none
            (.cons (.mk 'D' false none
              (.cons (.mk 'N' false none
                (.cons (.mk '?' true (some 0) .nil) .nil)) .nil)) .nil)) .nil)) .nil) := rfl

example : (buildTrieT [idnCmd]).countNodes = 6 := rfl

example : calculateAverageLookupDepth (buildTrieT [idnCmd]) = 5 := by
  have h : (buildTrieT [idnCmd]).terminalDepths 0 = [5] := rfl
  unfold calculateAverageLookupDepth
  rw [h]
  norm_num

example : lookupCmd (buildTrieT [ledCmd]) "LED:STAT?" = some 0 := rfl
example : lookupCmd (buildTrieT [ledCmd]) "LED:STATX?" = none := rfl

/-! ## The layout and statistics estimator (`calculate_memory_usage`) -/

/-- The `trie_stats` part of the memory report. -/
structure TrieStatsR where
  totalNodes : Nat
  totalArrays : Nat
  totalChildren : Nat
  nodeSizeBytes : Nat
deriving DecidableEq

/-- The `memory_breakdown` part of the memory report. -/
structure MemoryBreakdownR where
  trieNodes : Nat
  paramDescriptors : Nat
  commandsMem : Nat
  stringLiterals : Nat
  totalCode : Nat
  runtimeSram : Nat
deriving DecidableEq

/-- The `utilization` part of the memory report (Python float percentages,
modelled by rationals; both divisions are exact in the claims used). -/
structure UtilizationR where
  flashPercent : Rat
  sramPercent : Rat
deriving DecidableEq

/-- The memory report returned by `calculate_memory_usage` (the constant
`rp2350_specs` table is inlined into the computations). -/
structure MemoryUsageR where
  trieStats : TrieStatsR
  memoryBreakdown : MemoryBreakdownR
  utilization : UtilizationR
deriving DecidableEq

/-- Number of parameters of a command (`len(cmd.parameters)` with `None`
counting as zero). -/
def cmdParamCount (c : SCPIDefinitionCommand) : Nat :=
  match c.parameters with
  | some ps => ps.length
  | none => 0

/-- The string-literals footprint: for every enum-choice string of every
parameter of every command, its length plus one (the null terminator). -/
def stringLiteralsMem (commands : List SCPIDefinitionCommand) : Nat :=
  (commands.map (fun c =>
    match c.parameters with
    | some ps => (ps.map (fun p =>
        match p.choices with
        | some cs => (cs.map (fun choice => choice.length + 1)).sum
        | none => 0)).sum
    | none => 0)).sum

/-- `SCPITrie.calculate_memory_usage`: node, array and child counts of the
trie; 8 bytes per packed `TrieNode`; 16 bytes per parameter descriptor;
12 bytes per command record; string literals; their sum as the flash
footprint; a fixed 64-byte runtime state; and utilization percentages
against the RP2350's 4 MB flash and 520 KB SRAM. -/
def calculateMemoryUsage (t : SCPITrieNode) (d : SCPIDefinition) : MemoryUsageR :=
  let totalNodes := t.countNodes
  let totalArrays := t.countArrays
  let totalChildren := t.countChildren
  let trieNodeSize := 8
  let trieNodesMemory := totalNodes * trieNodeSize
  let paramDescriptorSize := 4 + 4 + 4 + 4
  let totalParamDescriptors := (d.commands.map cmdParamCount).sum
  let paramDescriptorsMemory := totalParamDescriptors * paramDescriptorSize
  let commandSize := 12
  let commandsMemory := d.commands.length * commandSize
  let stringMemory := stringLiteralsMem d.commands
  let codeMemory := trieNodesMemory + paramDescriptorsMemory + commandsMemory + stringMemory
  let runtimeMemory := 64
  { trieStats :=
      { totalNodes := totalNodes
        totalArrays := totalArrays
        totalChildren := totalChildren
        nodeSizeBytes := trieNodeSize }
    memoryBreakdown :=
      { trieNodes := trieNodesMemory
        paramDescriptors := paramDescriptorsMemory
        commandsMem := commandsMemory
        stringLiterals := stringMemory
        totalCode := codeMemory
        runtimeSram := runtimeMemory }
    utilization :=
      { flashPercent := ((codeMemory : Rat) / ((4 * 1024 * 1024 : Nat) : Rat)) * 100
        sramPercent := ((runtimeMemory : Rat) / ((520 * 1024 : Nat) : Rat)) * 100 } }

/-! ## Basic lemmas about child lists and insertion -/

/-- Structural induction on `ChildList` alone (the `induction` tactic does
not handle the mutual recursor directly). -/
theorem ChildList.recSimple {motive : ChildList → Prop} (nil : motive .nil)
    (cons : ∀ (n : SCPITrieNode) (rest : ChildList), motive rest → motive (.cons n rest))
    (cs : ChildList) : motive cs :=
  @ChildList.rec (fun _ => True) motive (fun _ _ _ _ _ => trivial) nil
    (fun n rest _ hr => cons n rest hr) cs

/-- Mutual structural induction, stated for a node motive together with a
child-list motive. -/
theorem SCPITrieNode.recTwo (mt : SCPITrieNode → Prop) (ml : ChildList → Prop)
    (hmk : ∀ c t ci cs, ml cs → mt (.mk c t ci cs))
    (hnil : ml .nil)
    (hcons : ∀ n rest, mt n → ml rest → ml (.cons n rest))
    (t : SCPITrieNode) : mt t :=
  @SCPITrieNode.rec mt ml hmk hnil hcons t

/-- The child-list half of `SCPITrieNode.recTwo`. -/
theorem ChildList.recTwoL (mt : SCPITrieNode → Prop) (ml : ChildList → Prop)
    (hmk : ∀ c t ci cs, ml cs → mt (.mk c t ci cs))
    (hnil : ml .nil)
    (hcons : ∀ n rest, mt n → ml rest → ml (.cons n rest))
    (cs : ChildList) : ml cs :=
  @ChildList.rec mt ml hmk hnil hcons cs

theorem ChildList.lookup_replace_self {cs : ChildList} {c : Char} {n : SCPITrieNode}
    (h : (cs.lookup c).isSome) (hc : n.character = c) :
    (cs.replace c n).lookup c = some n := by
  induction cs using ChildList.recSimple with
  | nil => simp [ChildList.lookup] at h
  | cons m rest ih =>
    by_cases hm : m.character == c
    · simp [ChildList.replace, hm, ChildList.lookup, hc]
    · simp [ChildList.lookup, hm] at h
      simp [ChildList.replace, hm, ChildList.lookup, ih h]

theorem ChildList.lookup_replace_ne {cs : ChildList} {c d : Char} {n : SCPITrieNode}
    (h : d ≠ c) (hn : n.character = c) : (cs.replace c n).lookup d = cs.lookup d := by
  induction cs using ChildList.recSimple with
  | nil => simp [ChildList.replace]
  | cons m rest ih =>
    by_cases hm : m.character == c
    · have : ¬(n.character == d) := by simp [hn]; exact fun hh => h hh.symm
      have hmd : ¬(m.character == d) := by
        simp at hm ⊢
        rw [hm]
        exact fun hh => h hh.symm
      simp [ChildList.replace, hm, ChildList.lookup, this, hmd]
    · simp [ChildList.replace, hm, ChildList.lookup, ih]

theorem ChildList.lookup_append_self {cs : ChildList} {n : SCPITrieNode}
    (h : cs.lookup n.character = none) : (cs.append n).lookup n.character = some n := by
  induction cs using ChildList.recSimple with
  | nil => simp [ChildList.append, ChildList.lookup]
  | cons m rest ih =>
    by_cases hm : m.character == n.character
    · simp [ChildList.lookup, hm] at h
    · simp [ChildList.lookup, hm] at h
      simp [ChildList.append, ChildList.lookup, hm, ih h]

theorem ChildList.lookup_append_self_key {cs : ChildList} {n : SCPITrieNode} {c : Char}
    (h : cs.lookup c = none) (hc : n.character = c) : (cs.append n).lookup c = some n := by
  subst hc
  exact ChildList.lookup_append_self h

theorem ChildList.lookup_append_ne {cs : ChildList} {n : SCPITrieNode} {d : Char}
    (h : d ≠ n.character) : (cs.append n).lookup d = cs.lookup d := by
  induction cs using ChildList.recSimple with
  | nil =>
    have : ¬(n.character == d) := by simp; exact fun hh => h hh.symm
    simp [ChildList.append, ChildList.lookup, this]
  | cons m rest ih =>
    by_cases hm : m.character == d
    · simp [ChildList.append, ChildList.lookup, hm]
    · simp [ChildList.append, ChildList.lookup, hm, ih]

theorem ChildList.replace_append_fresh {cs : ChildList} {c : Char} {leaf n : SCPITrieNode}
    (h : cs.lookup c = none) (hc : leaf.character = c) :
    (cs.append leaf).replace c n = cs.append n := by
  induction cs using ChildList.recSimple with
  | nil => simp [ChildList.append, ChildList.replace, hc]
  | cons m rest ih =>
    by_cases hm : m.character == c
    · simp [ChildList.lookup, hm] at h
    · simp [ChildList.lookup, hm] at h
      simp [ChildList.append, ChildList.replace, hm, ih h]

theorem SCPITrieNode.insertVarT_character (t : SCPITrieNode) (v : List Char) (i : Nat) :
    (t.insertVarT v i).character = t.character := by
  cases t with
  | mk ch term ci cs =>
    cases v with
    | nil => rfl
    | cons c rest =>
      simp only [SCPITrieNode.insertVarT]
      cases cs.lookup c <;> rfl

/-- The `add_child` error branch is dead: `insertVariation` always
succeeds, returning exactly the total `insertVarT`. -/
theorem SCPITrieNode.insertVariation_eq_ok (v : List Char) :
    ∀ (t : SCPITrieNode) (i : Nat), t.insertVariation v i = .ok (t.insertVarT v i) := by
  induction v with
  | nil =>
    intro t i
    cases t
    rfl
  | cons c rest ih =>
    intro t i
    cases t with
    | mk ch term ci cs =>
      simp only [SCPITrieNode.insertVariation, SCPITrieNode.insertVarT]
      cases h : cs.lookup c with
      | some child => simp only [ih]
      | none =>
        simp [SCPITrieNode.addChild, ChildList.containsChar, SCPITrieNode.character, h, ih,
          SCPITrieNode.children]

theorem foldlM_except_ok {α β : Type} (f : β → α → β) (l : List α) :
    ∀ b : β, l.foldlM (fun x a => (Except.ok (f x a) : Except String β)) b
      = .ok (l.foldl f b) := by
  induction l with
  | nil => intro b; rfl
  | cons x xs ih =>
    intro b
    simp only [List.foldlM, List.foldl]
    exact ih (f b x)

theorem insertCommand_eq_ok (commands : List SCPIDefinitionCommand)
    (t : SCPITrieNode) (cmd : SCPIDefinitionCommand) :
    insertCommand commands t cmd = .ok (insertCommandT commands t cmd) := by
  unfold insertCommand insertCommandT
  have hf : (fun (t : SCPITrieNode) (v : String) =>
      t.insertVariation v.data (indexOfCommand commands cmd))
      = (fun (t : SCPITrieNode) (v : String) =>
        Except.ok (t.insertVarT v.data (indexOfCommand commands cmd))) := by
    funext t v
    exact SCPITrieNode.insertVariation_eq_ok _ _ _
  rw [hf]
  exact foldlM_except_ok _ _ _

/-- Trie construction never raises: `buildTrie` always succeeds and
returns exactly the total `buildTrieT`. -/
theorem buildTrie_eq_ok (commands : List SCPIDefinitionCommand) :
    buildTrie commands = .ok (buildTrieT commands) := by
  unfold buildTrie buildTrieT
  have hf : insertCommand commands = (fun t cmd => Except.ok (insertCommandT commands t cmd)) := by
    funext t cmd
    exact insertCommand_eq_ok _ _ _
  rw [hf]
  exact foldlM_except_ok _ _ _

theorem ChildList.lookup_character {cs : ChildList} {c : Char} {n : SCPITrieNode}
    (h : cs.lookup c = some n) : n.character = c := by
  induction cs using ChildList.recSimple with
  | nil => simp [ChildList.lookup] at h
  | cons m rest ih =>
    by_cases hm : m.character == c
    · simp [ChildList.lookup, hm] at h
      simp at hm
      rw [← h]
      exact hm
    · simp [ChildList.lookup, hm] at h
      exact ih h

theorem lookupCmdChars_cons (t : SCPITrieNode) (c : Char) (cs : List Char) :
    lookupCmdChars t (c :: cs) =
      match t.children.lookup c with
      | some n => lookupCmdChars n cs
      | none => none := by
  unfold lookupCmdChars
  simp only [SCPITrieNode.walk]
  cases t.children.lookup c <;> rfl

theorem lookupCmdChars_nil (t : SCPITrieNode) :
    lookupCmdChars t [] = if t.terminal then t.commandIndex else none := rfl

theorem lookupCmdChars_fresh_leaf (c : Char) (vs : List Char) :
    lookupCmdChars (.mk c false none .nil) vs = none := by
  cases vs with
  | nil => rfl
  | cons d rest => simp [lookupCmdChars_cons, ChildList.lookup]

/-- Children of the node produced by `insertVarT` on a non-empty string:
the descended-into child, keyed by the first character, holds the
recursive insertion; other keys are untouched. -/
theorem SCPITrieNode.insertVarT_cons (ch : Char) (term : Bool) (ci : Option Nat)
    (cs : ChildList) (c : Char) (rest : List Char) (i : Nat) :
    (SCPITrieNode.mk ch term ci cs).insertVarT (c :: rest) i =
      .mk ch term ci
        (match cs.lookup c with
         | some child => cs.replace c (child.insertVarT rest i)
         | none => cs.append ((SCPITrieNode.mk c false none .nil).insertVarT rest i)) := by
  simp only [SCPITrieNode.insertVarT]
  cases h : cs.lookup c with
  | some child => rfl
  | none =>
    rw [ChildList.replace_append_fresh h]
    rfl

/-- After inserting a variation, walking that same variation reaches a
terminal node carrying the inserted command index. -/
theorem lookupCmdChars_insert_self (v : List Char) :
    ∀ (t : SCPITrieNode) (i : Nat), lookupCmdChars (t.insertVarT v i) v = some i := by
  induction v with
  | nil =>
    intro t i
    cases t
    rfl
  | cons c rest ih =>
    intro t i
    cases t with
    | mk ch term ci cs =>
      rw [SCPITrieNode.insertVarT_cons, lookupCmdChars_cons]
      cases h : cs.lookup c with
      | some child =>
        have hchar : (child.insertVarT rest i).character = c := by
          rw [SCPITrieNode.insertVarT_character]
          exact ChildList.lookup_character h
        simp only [SCPITrieNode.children]
        rw [ChildList.lookup_replace_self (by simp [h]) hchar]
        exact ih child i
      | none =>
        have hchar : ((SCPITrieNode.mk c false none ChildList.nil).insertVarT rest i).character = c := by
          rw [SCPITrieNode.insertVarT_character]
          rfl
        simp only [SCPITrieNode.children]
        rw [ChildList.lookup_append_self_key h hchar]
        exact ih _ i

/-- Inserting one variation does not change the walk result of any other
string. -/
theorem lookupCmdChars_insert_other (w : List Char) :
    ∀ (t : SCPITrieNode) (v : List Char) (j : Nat), v ≠ w →
      lookupCmdChars (t.insertVarT w j) v = lookupCmdChars t v := by
  induction w with
  | nil =>
    intro t v j hv
    cases t with
    | mk ch term ci cs =>
      cases v with
      | nil => exact absurd rfl hv
      | cons d vs => simp [SCPITrieNode.insertVarT, lookupCmdChars_cons, SCPITrieNode.children]
  | cons c ws ih =>
    intro t v j hv
    cases t with
    | mk ch term ci cs =>
      rw [SCPITrieNode.insertVarT_cons]
      cases v with
      | nil => rfl
      | cons d vs =>
        rw [lookupCmdChars_cons, lookupCmdChars_cons]
        simp only [SCPITrieNode.children]
        cases h : cs.lookup c with
        | some child =>
          have hchar : (child.insertVarT ws j).character = c := by
            rw [SCPITrieNode.insertVarT_character]
            exact ChildList.lookup_character h
          by_cases hdc : d = c
          · subst hdc
            rw [ChildList.lookup_replace_self (by simp [h]) hchar, h]
            have hvs : vs ≠ ws := by
              intro hh
              exact hv (by rw [hh])
            exact ih child vs j hvs
          · rw [ChildList.lookup_replace_ne hdc hchar]
        | none =>
          have hchar : ((SCPITrieNode.mk c false none ChildList.nil).insertVarT ws j).character = c := by
            rw [SCPITrieNode.insertVarT_character]
            rfl
          by_cases hdc : d = c
          · subst hdc
            rw [ChildList.lookup_append_self_key h hchar, h]
            have hvs : vs ≠ ws := by
              intro hh
              exact hv (by rw [hh])
            simp only [ih _ vs j hvs, lookupCmdChars_fresh_leaf]
          · rw [ChildList.lookup_append_ne (by rw [hchar]; exact hdc)]

/-! ## The trie as a fold over (variation, index) pairs -/

/-- Insert a list of (variation, command index) pairs in order. -/
def insertPairsT (t : SCPITrieNode) (pairs : List (List Char × Nat)) : SCPITrieNode :=
  pairs.foldl (fun t p => t.insertVarT p.1 p.2) t

/-- All (variation, index) pairs inserted by `SCPITrie.__init__`, in
insertion order. -/
def allPairs (commands : List SCPIDefinitionCommand) : List (List Char × Nat) :=
  commands.flatMap (fun cmd =>
    (generateCommandVariations cmd.syntaxStr).map
      (fun v => (v.data, indexOfCommand commands cmd)))

theorem insertPairsT_append (r : SCPITrieNode) (l1 l2 : List (List Char × Nat)) :
    insertPairsT r (l1 ++ l2) = insertPairsT (insertPairsT r l1) l2 := by
  unfold insertPairsT
  rw [List.foldl_append]

theorem insertCommandT_eq_insertPairs (full : List SCPIDefinitionCommand)
    (r : SCPITrieNode) (cmd : SCPIDefinitionCommand) :
    insertCommandT full r cmd
      = insertPairsT r ((generateCommandVariations cmd.syntaxStr).map
          (fun v => (v.data, indexOfCommand full cmd))) := by
  unfold insertCommandT insertPairsT
  rw [List.foldl_map]

theorem foldl_insertCommandT_pairs (full : List SCPIDefinitionCommand)
    (cmds : List SCPIDefinitionCommand) :
    ∀ r : SCPITrieNode,
      cmds.foldl (insertCommandT full) r
        = insertPairsT r (cmds.flatMap (fun cmd =>
            (generateCommandVariations cmd.syntaxStr).map
              (fun v => (v.data, indexOfCommand full cmd)))) := by
  induction cmds with
  | nil => intro r; rfl
  | cons cmd rest ih =>
    intro r
    simp only [List.foldl, List.flatMap_cons]
    rw [ih, insertCommandT_eq_insertPairs, insertPairsT_append]

theorem buildTrieT_eq_insertPairs (commands : List SCPIDefinitionCommand) :
    buildTrieT commands = insertPairsT emptyRoot (allPairs commands) := by
  unfold buildTrieT allPairs
  exact foldl_insertCommandT_pairs commands commands emptyRoot

/-- The last assignment to a variation in a pair list (`none` when the
variation never occurs). -/
def lastAssign (pairs : List (List Char × Nat)) (v : List Char) : Option Nat :=
  pairs.foldl (fun acc p => if p.1 = v then some p.2 else acc) none

theorem lastAssign_aux (pairs : List (List Char × Nat)) (v : List Char) :
    ∀ acc : Option Nat,
      pairs.foldl (fun acc p => if p.1 = v then some p.2 else acc) acc
        = match lastAssign pairs v with
          | some i => some i
          | none => acc := by
  induction pairs with
  | nil => intro acc; rfl
  | cons p rest ih =>
    intro acc
    have h2 : lastAssign (p :: rest) v
        = match lastAssign rest v with
          | some i => some i
          | none => if p.1 = v then some p.2 else none := by
      rw [show lastAssign (p :: rest) v
          = List.foldl (fun acc q => if q.1 = v then some q.2 else acc)
            (if p.1 = v then some p.2 else none) rest from rfl, ih]
    simp only [List.foldl]
    rw [ih, h2]
    cases lastAssign rest v with
    | some i => rfl
    | none =>
      by_cases hp : p.1 = v
      · simp [hp]
      · simp [hp]

/-- Master last-wins lemma: after inserting a pair list, the walk result
of a string is its last assignment in the list, falling back to the
original trie. -/
theorem lookupCmdChars_insertPairs (pairs : List (List Char × Nat)) (v : List Char) :
    ∀ t : SCPITrieNode,
      lookupCmdChars (insertPairsT t pairs) v
        = match lastAssign pairs v with
          | some i => some i
          | none => lookupCmdChars t v := by
  induction pairs with
  | nil => intro t; rfl
  | cons p rest ih =>
    intro t
    have hstep : lastAssign (p :: rest) v
        = match lastAssign rest v with
          | some i => some i
          | none => if p.1 = v then some p.2 else none := by
      rw [show lastAssign (p :: rest) v
          = List.foldl (fun acc q => if q.1 = v then some q.2 else acc)
            (if p.1 = v then some p.2 else none) rest from rfl, lastAssign_aux]
    simp only [insertPairsT, List.foldl] at *
    rw [ih (t.insertVarT p.1 p.2), hstep]
    by_cases hp : p.1 = v
    · subst hp
      rw [lookupCmdChars_insert_self]
      cases lastAssign rest p.1 <;> simp
    · rw [lookupCmdChars_insert_other p.1 t v p.2 (fun hh => hp hh.symm)]
      cases lastAssign rest v <;> simp [hp]

theorem lookupCmdChars_emptyRoot (v : List Char) : lookupCmdChars emptyRoot v = none := by
  cases v with
  | nil => rfl
  | cons c cs => simp [lookupCmdChars_cons, emptyRoot, SCPITrieNode.children, ChildList.lookup]

/-! ## Distinctness of child keys -/

/-- No two entries of a child list share a character. -/
def keysNodup : ChildList → Bool
  | .nil => true
  | .cons n rest => !(rest.containsChar n.character) && keysNodup rest

mutual
/-- Every node of the (sub)trie has children keyed by distinct characters. -/
def wellKeysT : SCPITrieNode → Bool
  | .mk _ _ _ cs => keysNodup cs && wellKeysL cs

/-- `wellKeysT` for every node of a child list. -/
def wellKeysL : ChildList → Bool
  | .nil => true
  | .cons n rest => wellKeysT n && wellKeysL rest
end

theorem ChildList.replace_not_found {cs : ChildList} {c : Char} {n : SCPITrieNode}
    (h : cs.lookup c = none) : cs.replace c n = cs := by
  induction cs using ChildList.recSimple with
  | nil => rfl
  | cons m rest ih =>
    by_cases hm : m.character == c
    · simp [ChildList.lookup, hm] at h
    · simp [ChildList.lookup, hm] at h
      simp [ChildList.replace, hm, ih h]

theorem ChildList.containsChar_replace {cs : ChildList} {c : Char} {n : SCPITrieNode}
    (hc : n.character = c) (d : Char) :
    (cs.replace c n).containsChar d = cs.containsChar d := by
  by_cases hd : d = c
  · subst hd
    cases h : cs.lookup d with
    | none => rw [ChildList.replace_not_found h]
    | some m =>
      unfold ChildList.containsChar
      rw [ChildList.lookup_replace_self (by simp [h]) hc, h]
      rfl
  · unfold ChildList.containsChar
    rw [ChildList.lookup_replace_ne hd hc]

theorem ChildList.containsChar_append (cs : ChildList) (n : SCPITrieNode) (d : Char) :
    (cs.append n).containsChar d = (cs.containsChar d || (n.character == d)) := by
  induction cs using ChildList.recSimple with
  | nil =>
    cases hh : n.character == d <;>
      simp [ChildList.append, ChildList.containsChar, ChildList.lookup, hh]
  | cons m rest ih =>
    unfold ChildList.containsChar at ih ⊢
    by_cases hm : m.character == d
    · simp [ChildList.append, ChildList.lookup, hm]
    · simp [ChildList.append, ChildList.lookup, hm, ih]

theorem keysNodup_replace {cs : ChildList} {c : Char} {n : SCPITrieNode}
    (hc : n.character = c) (h : keysNodup cs = true) : keysNodup (cs.replace c n) = true := by
  induction cs using ChildList.recSimple with
  | nil => rfl
  | cons m rest ih =>
    simp only [keysNodup, Bool.and_eq_true, Bool.not_eq_true'] at h
    by_cases hm : m.character == c
    · simp only [ChildList.replace, hm, ite_true, keysNodup, Bool.and_eq_true,
        Bool.not_eq_true']
      constructor
      · rw [hc]
        simp at hm
        rw [← hm]
        exact h.1
      · exact h.2
    · simp only [ChildList.replace, hm, ite_false, keysNodup, Bool.and_eq_true,
        Bool.not_eq_true']
      constructor
      · rw [ChildList.containsChar_replace hc]
        exact h.1
      · exact ih h.2

theorem keysNodup_append {cs : ChildList} {n : SCPITrieNode}
    (hfresh : cs.containsChar n.character = false) (h : keysNodup cs = true) :
    keysNodup (cs.append n) = true := by
  induction cs using ChildList.recSimple with
  | nil =>
    simp [ChildList.append, keysNodup, ChildList.containsChar, ChildList.lookup]
  | cons m rest ih =>
    simp only [keysNodup, Bool.and_eq_true, Bool.not_eq_true'] at h
    simp only [ChildList.containsChar, ChildList.lookup] at hfresh
    by_cases hm : m.character == n.character
    · simp [hm] at hfresh
    · simp only [hm, ite_false] at hfresh
      simp only [ChildList.append, keysNodup, Bool.and_eq_true, Bool.not_eq_true']
      constructor
      · rw [ChildList.containsChar_append]
        simp only [Bool.or_eq_false_iff]
        refine ⟨h.1, ?_⟩
        simp at hm ⊢
        exact fun hh => hm hh.symm
      · exact ih hfresh h.2

theorem wellKeysL_lookup {cs : ChildList} {c : Char} {n : SCPITrieNode}
    (h : wellKeysL cs = true) (hl : cs.lookup c = some n) : wellKeysT n = true := by
  induction cs using ChildList.recSimple with
  | nil => simp [ChildList.lookup] at hl
  | cons m rest ih =>
    simp only [wellKeysL, Bool.and_eq_true] at h
    by_cases hm : m.character == c
    · simp [ChildList.lookup, hm] at hl
      rw [← hl]
      exact h.1
    · simp [ChildList.lookup, hm] at hl
      exact ih h.2 hl

theorem wellKeysL_replace {cs : ChildList} {c : Char} {n : SCPITrieNode}
    (h : wellKeysL cs = true) (hn : wellKeysT n = true) :
    wellKeysL (cs.replace c n) = true := by
  induction cs using ChildList.recSimple with
  | nil => rfl
  | cons m rest ih =>
    simp only [wellKeysL, Bool.and_eq_true] at h
    by_cases hm : m.character == c
    · simp only [ChildList.replace, hm, ite_true, wellKeysL, Bool.and_eq_true]
      exact ⟨hn, h.2⟩
    · simp only [ChildList.replace, hm, ite_false, wellKeysL, Bool.and_eq_true]
      exact ⟨h.1, ih h.2⟩

theorem wellKeysL_append {cs : ChildList} {n : SCPITrieNode}
    (h : wellKeysL cs = true) (hn : wellKeysT n = true) :
    wellKeysL (cs.append n) = true := by
  induction cs using ChildList.recSimple with
  | nil => simp [ChildList.append, wellKeysL, hn]
  | cons m rest ih =>
    simp only [wellKeysL, Bool.and_eq_true] at h
    simp only [ChildList.append, wellKeysL, Bool.and_eq_true]
    exact ⟨h.1, ih h.2⟩

/-- Insertion preserves distinctness of every node's child keys. -/
theorem wellKeysT_insertVarT (v : List Char) :
    ∀ (t : SCPITrieNode) (i : Nat), wellKeysT t = true → wellKeysT (t.insertVarT v i) = true := by
  induction v with
  | nil =>
    intro t i h
    cases t with
    | mk ch term ci cs => exact h
  | cons c rest ih =>
    intro t i h
    cases t with
    | mk ch term ci cs =>
      rw [SCPITrieNode.insertVarT_cons]
      simp only [wellKeysT, Bool.and_eq_true] at h ⊢
      cases hl : cs.lookup c with
      | some child =>
        have hchar : (child.insertVarT rest i).character = c := by
          rw [SCPITrieNode.insertVarT_character]
          exact ChildList.lookup_character hl
        refine ⟨keysNodup_replace hchar h.1, ?_⟩
        exact wellKeysL_replace h.2 (ih child i (wellKeysL_lookup h.2 hl))
      | none =>
        have hchar : ((SCPITrieNode.mk c false none ChildList.nil).insertVarT rest i).character = c := by
          rw [SCPITrieNode.insertVarT_character]
          rfl
        have hfresh : cs.containsChar
            ((SCPITrieNode.mk c false none ChildList.nil).insertVarT rest i).character = false := by
          rw [hchar]
          simp [ChildList.containsChar, hl]
        refine ⟨keysNodup_append hfresh h.1, ?_⟩
        exact wellKeysL_append h.2 (ih _ i (by rfl))

/-- `wellKeysT` holds for every built trie. -/
theorem wellKeysT_insertPairs (pairs : List (List Char × Nat)) :
    ∀ t : SCPITrieNode, wellKeysT t = true → wellKeysT (insertPairsT t pairs) = true := by
  induction pairs with
  | nil => intro t h; exact h
  | cons p rest ih =>
    intro t h
    simp only [insertPairsT, List.foldl] at *
    exact ih _ (wellKeysT_insertVarT p.1 t p.2 h)

theorem wellKeysT_buildTrieT (commands : List SCPIDefinitionCommand) :
    wellKeysT (buildTrieT commands) = true := by
  rw [buildTrieT_eq_insertPairs]
  exact wellKeysT_insertPairs _ _ (by rfl)

/-! ## Claim C10 -/

/-- C10: the error branch of `SCPITrieNode.add_child` is unreachable
during trie construction: `add_child` is only called by `_insert_command`
after the membership check on the current node's children failed, so for
every command list the build never fails (it returns exactly the total
`buildTrieT`), and every node's children remain keyed by pairwise
distinct characters. -/
theorem c10_addChild_unreachable (commands : List SCPIDefinitionCommand) :
    buildTrie commands = .ok (buildTrieT commands)
      ∧ wellKeysT (buildTrieT commands) = true :=
  ⟨buildTrie_eq_ok commands, wellKeysT_buildTrieT commands⟩

/-! ## Claim C1 -/

/-- A command whose full form is `MEAS:VOLTAGE?` and whose abbreviated
form `MEAS:VOLT?` collides with the next command. -/
def cmdVoltLong : SCPIDefinitionCommand :=
  { syntaxStr := "MEAS:VOLTage?", description := "Measure voltage", handler := some "measVoltage" }

/-- A command whose only form is `MEAS:VOLT?`. -/
def cmdVoltShort : SCPIDefinitionCommand :=
  { syntaxStr := "MEAS:VOLT?", description := "Measure voltage fast", handler := some "measVolt" }

/-- A definition holding two distinct commands whose expanded variation
sets share the variation `MEAS:VOLT?`. -/
def defnColliding : SCPIDefinition :=
  { namespaceStr := "T76", className := "Meter", outputFile := "meter.cpp",
    commands := [cmdVoltLong, cmdVoltShort] }

/-- C1 counterexample: two distinct commands of one (validating)
definition share the variation string `MEAS:VOLT?`, yet building the trie
raises no error at all — there is no `AmbiguousCommandError` anywhere in
the builder — and the shared terminal node ends up claimed by the later
command (index 1), i.e. the conflict is silently resolved last-wins. -/
theorem c1_counterexample :
    defnColliding.validate = .ok ()
    ∧ "MEAS:VOLT?" ∈ generateCommandVariations cmdVoltLong.syntaxStr
    ∧ "MEAS:VOLT?" ∈ generateCommandVariations cmdVoltShort.syntaxStr
    ∧ buildTrie defnColliding.commands = .ok (buildTrieT defnColliding.commands)
    ∧ lookupCmd (buildTrieT defnColliding.commands) "MEAS:VOLT?" = some 1 :=
  ⟨rfl, by decide, by decide, buildTrie_eq_ok _, rfl⟩

/-- C1 amended: trie construction never raises on cross-command variation
collisions; instead, the command index stored at the terminal node of a
variation string is the one attached by the chronologically last
insertion of that string (last-wins), and a string never inserted
resolves to nothing. -/
theorem c1_amended (commands : List SCPIDefinitionCommand) (v : List Char) :
    buildTrie commands = .ok (buildTrieT commands)
    ∧ lookupCmdChars (buildTrieT commands) v
        = (match lastAssign (allPairs commands) v with
           | some i => some i
           | none => none) := by
  refine ⟨buildTrie_eq_ok commands, ?_⟩
  rw [buildTrieT_eq_insertPairs, lookupCmdChars_insertPairs]
  cases lastAssign (allPairs commands) v with
  | some i => rfl
  | none => exact lookupCmdChars_emptyRoot v

/-! ## Claim C2 -/

theorem forM_except_ok {α : Type} (f : α → Except String Unit) (l : List α) :
    l.forM f = .ok () ↔ ∀ x ∈ l, f x = .ok () := by
  induction l with
  | nil =>
    constructor
    · intro _ x hx
      cases hx
    · intro _
      rfl
  | cons x xs ih =>
    simp only [List.forM]
    cases h : f x with
    | error e =>
      show (Except.error e : Except String Unit) = Except.ok () ↔ _
      constructor
      · intro hh
        cases hh
      · intro hh
        have := hh x (by simp)
        rw [h] at this
        cases this
    | ok u =>
      cases u
      show xs.forM f = Except.ok () ↔ _
      rw [ih]
      constructor
      · intro hh y hy
        rcases List.mem_cons.mp hy with hy | hy
        · rw [hy]
          exact h
        · exact hh y hy
      · intro hh y hy
        exact hh y (List.mem_cons_of_mem x hy)

/-- A command answering `*IDN?` with one response. -/
def cmdIdnA : SCPIDefinitionCommand :=
  { syntaxStr := "*IDN?", description := "Identification", response := some "A,1.0" }

/-- A second, distinct command with the identical canonical syntax
`*IDN?`. -/
def cmdIdnB : SCPIDefinitionCommand :=
  { syntaxStr := "*IDN?", description := "Identification duplicate", response := some "B,2.0" }

/-- A definition whose two commands share one canonical syntax string. -/
def defnDupSyntax : SCPIDefinition :=
  { namespaceStr := "T76", className := "Dup", outputFile := "dup.cpp",
    commands := [cmdIdnA, cmdIdnB] }

/-- C2 counterexample: a definition whose two commands carry the
identical canonical syntax `*IDN?` passes `SCPIDefinition.validate` — the
validator performs no duplicate-syntax rejection at all. -/
theorem c2_counterexample :
    defnDupSyntax.commands.map SCPIDefinitionCommand.syntaxStr = ["*IDN?", "*IDN?"]
    ∧ defnDupSyntax.validate = .ok () :=
  ⟨rfl, rfl⟩

/-- C2 amended: `SCPIDefinition.validate` succeeds exactly when the
top-level fields pass their individual checks and every command passes
its own validation — commands are never compared pairwise, so duplicate
canonical syntax strings are accepted. -/
theorem c2_amended (d : SCPIDefinition) :
    d.validate = .ok ()
      ↔ ((d.namespaceStr == "") = false ∧ nsOK d.namespaceStr = true
         ∧ (d.className == "") = false ∧ (d.outputFile == "") = false
         ∧ d.commands.isEmpty = false
         ∧ ∀ c ∈ d.commands, c.validate = .ok ()) := by
  unfold SCPIDefinition.validate
  by_cases h1 : d.namespaceStr == ""
  · simp [h1]
  · by_cases h2 : nsOK d.namespaceStr
    · by_cases h3 : d.className == ""
      · simp [h1, h2, h3]
      · by_cases h4 : d.outputFile == ""
        · simp [h1, h2, h3, h4]
        · by_cases h5 : d.commands.isEmpty
          · simp [h1, h2, h3, h4, h5]
          · simp [h1, h2, h3, h4, h5, forM_except_ok]
    · simp [h1, h2]

/-- C2 witness: the duplicate-syntax definition instantiates the amended
characterization. -/
theorem c2_amended_witness :
    (defnDupSyntax.namespaceStr == "") = false ∧ nsOK defnDupSyntax.namespaceStr = true
    ∧ (defnDupSyntax.className == "") = false ∧ (defnDupSyntax.outputFile == "") = false
    ∧ defnDupSyntax.commands.isEmpty = false
    ∧ ∀ c ∈ defnDupSyntax.commands, c.validate = .ok () :=
  (c2_amended defnDupSyntax).mp (by rfl)

/-! ## Claim C3: machinery for the round-trip property -/

theorem lastAssign_cons (p : List Char × Nat) (rest : List (List Char × Nat)) (v : List Char) :
    lastAssign (p :: rest) v
      = match lastAssign rest v with
        | some i => some i
        | none => if p.1 = v then some p.2 else none := by
  rw [show lastAssign (p :: rest) v
      = List.foldl (fun acc q => if q.1 = v then some q.2 else acc)
        (if p.1 = v then some p.2 else none) rest from rfl, lastAssign_aux]

theorem lastAssign_append (l1 l2 : List (List Char × Nat)) (v : List Char) :
    lastAssign (l1 ++ l2) v
      = match lastAssign l2 v with
        | some i => some i
        | none => lastAssign l1 v := by
  rw [show lastAssign (l1 ++ l2) v
      = List.foldl (fun acc q => if q.1 = v then some q.2 else acc) (lastAssign l1 v) l2 from by
        unfold lastAssign
        rw [List.foldl_append], lastAssign_aux]

/-- The last assignment inside one command's chunk of pairs: the constant
index when the variation occurs in the chunk, nothing otherwise. -/
theorem lastAssign_const_chunk (l : List String) (k : Nat) (v : List Char) :
    lastAssign (l.map (fun s => (s.data, k))) v
      = if v ∈ l.map String.data then some k else none := by
  induction l with
  | nil => rfl
  | cons s rest ih =>
    rw [List.map_cons, lastAssign_cons, ih]
    by_cases hmem : v ∈ rest.map String.data
    · simp [hmem]
    · by_cases hv : s.data = v
      · simp [hmem, hv]
      · have hv2 : ¬(v = s.data) := fun hh => hv hh.symm
        have : ¬(v ∈ (s :: rest).map String.data) := by
          intro hh
          rw [List.map_cons] at hh
          rcases List.mem_cons.mp hh with hh | hh
          · exact hv hh.symm
          · exact hmem hh
        simp [hmem, hv, hv2, this]

theorem lastAssign_flatMap_none {f : SCPIDefinitionCommand → List (List Char × Nat)} {v : List Char} :
    ∀ cmds : List SCPIDefinitionCommand,
      (∀ (j : Nat) (hj : j < cmds.length), lastAssign (f (cmds.get ⟨j, hj⟩)) v = none) →
      lastAssign (cmds.flatMap f) v = none := by
  intro cmds
  induction cmds with
  | nil => intro _; rfl
  | cons c rest ih =>
    intro h
    rw [List.flatMap_cons, lastAssign_append]
    have hrest : lastAssign (rest.flatMap f) v = none := by
      apply ih
      intro j hj
      exact h (j + 1) (by simpa using Nat.succ_lt_succ hj)
    rw [hrest]
    exact h 0 (by simp)

theorem lastAssign_flatMap_of_unique {f : SCPIDefinitionCommand → List (List Char × Nat)}
    {v : List Char} {k : Nat} :
    ∀ (cmds : List SCPIDefinitionCommand) (i : Nat) (hi : i < cmds.length),
      (∀ (j : Nat) (hj : j < cmds.length), j ≠ i → lastAssign (f (cmds.get ⟨j, hj⟩)) v = none) →
      lastAssign (f (cmds.get ⟨i, hi⟩)) v = some k →
      lastAssign (cmds.flatMap f) v = some k := by
  intro cmds
  induction cmds with
  | nil =>
    intro i hi
    cases hi
  | cons c rest ih =>
    intro i hi hothers hin
    rw [List.flatMap_cons, lastAssign_append]
    cases i with
    | zero =>
      have hrest : lastAssign (rest.flatMap f) v = none := by
        apply lastAssign_flatMap_none
        intro j hj
        exact hothers (j + 1) (by simpa using Nat.succ_lt_succ hj) (by simp)
      rw [hrest]
      exact hin
    | succ i' =>
      have hi' : i' < rest.length := Nat.lt_of_succ_lt_succ hi
      have hrest : lastAssign (rest.flatMap f) v = some k := by
        apply ih i' hi'
        · intro j hj hne
          exact hothers (j + 1) (by simpa using Nat.succ_lt_succ hj)
            (fun hh => hne (Nat.succ_injective hh))
        · exact hin
      rw [hrest]

theorem findIdx_of_first {α : Type} (p : α → Bool) :
    ∀ (l : List α) (i : Nat) (hi : i < l.length),
      (∀ (j : Nat) (hj : j < l.length), j < i → p (l.get ⟨j, hj⟩) = false) →
      p (l.get ⟨i, hi⟩) = true → l.findIdx p = i := by
  intro l
  induction l with
  | nil =>
    intro i hi
    cases hi
  | cons x xs ih =>
    intro i hi hbefore hp
    cases i with
    | zero =>
      simp only [List.get] at hp
      rw [List.findIdx_cons, hp]
      rfl
    | succ i' =>
      have hx : p x = false := hbefore 0 (by simp) (Nat.succ_pos i')
      rw [List.findIdx_cons, hx]
      have hi' : i' < xs.length := Nat.lt_of_succ_lt_succ hi
      have := ih i' hi'
        (fun j hj hji => hbefore (j + 1) (by simpa using Nat.succ_lt_succ hj)
          (Nat.succ_lt_succ hji))
        hp
      simp [this]

theorem pyEq_refl (a : PyValue) : pyEq a a = true := by
  unfold pyEq
  cases a <;> simp [PyValue.toRatNum]

theorem paramPyEq_refl (p : SCPIDefinitionParameter) : paramPyEq p p = true := by
  unfold paramPyEq
  cases hd : p.default with
  | none => simp
  | some v => simp [pyEq_refl]

theorem cmdPyEq_refl (c : SCPIDefinitionCommand) : cmdPyEq c c = true := by
  have hzip : ∀ qs : List SCPIDefinitionParameter,
      (qs.zip qs).all (fun pq => paramPyEq pq.1 pq.2) = true := by
    intro qs
    induction qs with
    | nil => rfl
    | cons q rest ihq =>
      rw [List.zip_cons_cons]
      simp [paramPyEq_refl q, ihq]
  unfold cmdPyEq
  cases hp : c.parameters with
  | none => simp
  | some ps => simp [hzip ps]

theorem cmdPyEq_syntaxStr {a b : SCPIDefinitionCommand} (h : cmdPyEq a b = true) :
    a.syntaxStr = b.syntaxStr := by
  unfold cmdPyEq at h
  simp only [Bool.and_eq_true, beq_iff_eq] at h
  exact h.1.1.1.1

theorem stringData_inj {a b : String} (h : a.data = b.data) : a = b := by
  cases a
  cases b
  exact congrArg String.mk h

theorem segmentVariations_ne_nil (seg : List Char) : segmentVariations seg ≠ [] := by
  unfold segmentVariations
  by_cases h : (seg == ['*'] || seg == [':'] || seg == ['?']) = true
  · simp [h]
  · simp only [h, if_false, Bool.false_eq_true]
    cases seg with
    | nil => simp
    | cons c rest =>
      by_cases hc : isUpperCls c
      · simp only [hc, if_true]
        by_cases hl : (((c :: rest).dropWhile isUpperCls).takeWhile isLowerCls).isEmpty
        · simp [hl]
        · simp [hl]
      · simp [hc]

theorem listProd_ne_nil (ls : List (List (List Char))) (h : ∀ l ∈ ls, l ≠ []) :
    listProd ls ≠ [] := by
  induction ls with
  | nil => simp [listProd]
  | cons alts rest ih =>
    have halts : alts ≠ [] := h alts (by simp)
    have hrest : listProd rest ≠ [] := ih (fun l hl => h l (by simp [hl]))
    rcases List.exists_cons_of_ne_nil halts with ⟨a, alts', ha⟩
    rcases List.exists_cons_of_ne_nil hrest with ⟨t, ts, ht⟩
    have : (a ++ t) ∈ listProd (alts :: rest) := by
      unfold listProd
      rw [List.mem_flatMap]
      exact ⟨a, by simp [ha], by rw [ht]; simp⟩
    exact List.ne_nil_of_mem this

theorem generateCommandVariations_ne_nil (s : String) : generateCommandVariations s ≠ [] := by
  unfold generateCommandVariations generateVariationsChars
  intro hh
  have h1 : listProd ((tokenize s.data).map segmentVariations) ≠ [] := by
    apply listProd_ne_nil
    intro l hl
    rcases List.mem_map.mp hl with ⟨seg, _, hseg⟩
    rw [← hseg]
    exact segmentVariations_ne_nil seg
  rw [List.map_eq_nil_iff, List.map_eq_nil_iff] at hh
  exact h1 hh

/-! ## Claim C3 -/

/-- C3 counterexample: a definition with two commands of identical
syntax `*IDN?` passes validation, yet the variation `*IDN?` generated
for the command at index 0 walks to a terminal node whose attached index
is 1, not 0 — the second insertion overwrote it. -/
theorem c3_counterexample :
    defnDupSyntax.validate = .ok ()
    ∧ defnDupSyntax.commands.get? 0 = some cmdIdnA
    ∧ "*IDN?" ∈ generateCommandVariations cmdIdnA.syntaxStr
    ∧ lookupCmd (buildTrieT defnDupSyntax.commands) "*IDN?" = some 1
    ∧ (1 : Nat) ≠ 0 :=
  ⟨rfl, rfl, by decide, by decide, by decide⟩

/-- C3 amended: for every definition that passes validation and whose
commands have pairwise disjoint variation sets across distinct positions,
every variation string of every command walks from the root to a terminal
node carrying exactly the originating command's index. -/
theorem c3_roundtrip (d : SCPIDefinition) (hval : d.validate = .ok ())
    (hdisj : ∀ (i j : Fin d.commands.length), i ≠ j →
      ∀ v : String, v ∈ generateCommandVariations (d.commands.get i).syntaxStr →
        v ∉ generateCommandVariations (d.commands.get j).syntaxStr) :
    ∀ (i : Fin d.commands.length) (v : String),
      v ∈ generateCommandVariations (d.commands.get i).syntaxStr →
      ∃ n : SCPITrieNode, (buildTrieT d.commands).walk v.data = some n
        ∧ n.terminal = true ∧ n.commandIndex = some i.val := by
  intro i v hv
  have hidx : indexOfCommand d.commands (d.commands.get i) = i.val := by
    unfold indexOfCommand
    apply findIdx_of_first _ d.commands i.val i.isLt
    · intro j hj hji
      by_contra hcmd
      rw [Bool.not_eq_false] at hcmd
      have hsyn : (d.commands.get ⟨j, hj⟩).syntaxStr = (d.commands.get i).syntaxStr :=
        cmdPyEq_syntaxStr hcmd
      have hvj : v ∈ generateCommandVariations (d.commands.get ⟨j, hj⟩).syntaxStr := by
        rw [hsyn]
        exact hv
      have hne : (⟨j, hj⟩ : Fin d.commands.length) ≠ i := by
        intro hh
        rw [Fin.ext_iff] at hh
        exact Nat.ne_of_lt hji hh
      exact (hdisj i ⟨j, hj⟩ (fun hh => hne hh.symm) v hv) hvj
    · have : d.commands.get ⟨i.val, i.isLt⟩ = d.commands.get i := by
        congr
      rw [this]
      exact cmdPyEq_refl _
  have hlast : lastAssign (allPairs d.commands) v.data = some i.val := by
    unfold allPairs
    apply lastAssign_flatMap_of_unique d.commands i.val i.isLt
    · intro j hj hne
      rw [lastAssign_const_chunk]
      have hnot : v.data ∉ (generateCommandVariations
          (d.commands.get ⟨j, hj⟩).syntaxStr).map String.data := by
        intro hh
        rcases List.mem_map.mp hh with ⟨s, hs, hsd⟩
        have : s = v := stringData_inj hsd
        rw [this] at hs
        have hne2 : i ≠ (⟨j, hj⟩ : Fin d.commands.length) := by
          intro hh2
          rw [Fin.ext_iff] at hh2
          exact hne hh2.symm
        exact (hdisj i ⟨j, hj⟩ hne2 v hv) hs
      rw [if_neg hnot]
    · rw [lastAssign_const_chunk]
      have hget : d.commands.get ⟨i.val, i.isLt⟩ = d.commands.get i := by
        congr
      rw [hget]
      have hmem : v.data ∈ (generateCommandVariations
          (d.commands.get i).syntaxStr).map String.data :=
        List.mem_map_of_mem String.data hv
      rw [if_pos hmem, hidx]
  have hcmd : lookupCmdChars (buildTrieT d.commands) v.data = some i.val := by
    rw [buildTrieT_eq_insertPairs, lookupCmdChars_insertPairs, hlast]
  unfold lookupCmdChars at hcmd
  cases hwalk : (buildTrieT d.commands).walk v.data with
  | none => simp [hwalk] at hcmd
  | some n =>
    simp only [hwalk] at hcmd
    cases hterm : n.terminal with
    | false => simp [hterm] at hcmd
    | true =>
      simp only [hterm, if_true] at hcmd
      exact ⟨n, rfl, hterm, hcmd⟩

/-- A two-command definition with disjoint variation sets. -/
def defnTwo : SCPIDefinition :=
  { namespaceStr := "T76", className := "Blinky", outputFile := "blinky.cpp",
    commands := [ledCmd, idnCmd] }

/-- C3 witness: the round-trip theorem instantiated on a concrete
two-command definition and the variation `LED:STAT?` of command 0. -/
theorem c3_roundtrip_witness :
    defnTwo.validate = .ok ()
    ∧ ∃ n : SCPITrieNode, (buildTrieT defnTwo.commands).walk "LED:STAT?".data = some n
        ∧ n.terminal = true ∧ n.commandIndex = some 0 :=
  ⟨rfl, c3_roundtrip defnTwo rfl (by decide) ⟨0, by decide⟩ "LED:STAT?" (by decide)⟩

/-! ## Claims C6 and C7: parameter validation -/

/-- `SCPIDefinitionParameter.validate` succeeds exactly when every guard
of its check chain is false (listed here in source order) and the name is
a valid identifier. -/
theorem paramValidate_ok_iff (p : SCPIDefinitionParameter) :
    p.validate = .ok () ↔
      ((["string", "number", "boolean", "enum", "arbitrarydata"].contains p.type) = true
      ∧ (match p.default with
         | some d => p.type == "number" && !(isinstNumber d)
         | none => false) = false
      ∧ (match p.default with
         | some d => p.type == "string" && !(isinstStr d)
         | none => false) = false
      ∧ (match p.default with
         | some d => p.type == "boolean" && !(isinstBool d)
         | none => false) = false
      ∧ (match p.default, p.choices with
         | some d, some cs =>
             p.type == "enum" && !cs.isEmpty && !(cs.any (fun c => pyEq d (.pyStr c)))
         | _, _ => false) = false
      ∧ (p.type == "enum" && !(choicesTruthy p.choices)) = false
      ∧ (p.type == "arbitrarydata" && p.default.isSome) = false
      ∧ (p.type == "arbitrarydata" && p.choices.isSome) = false
      ∧ identOK p.name = true) := by
  unfold SCPIDefinitionParameter.validate
  by_cases g1 : (["string", "number", "boolean", "enum", "arbitrarydata"].contains p.type) = true
  · simp only [g1, Bool.not_true, Bool.false_eq_true, if_false]
    by_cases g2 : (match p.default with
        | some d => p.type == "number" && !(isinstNumber d)
        | none => false) = true
    · simp [g2]
    · rw [Bool.not_eq_true] at g2
      simp only [g2, Bool.false_eq_true, if_false]
      by_cases g3 : (match p.default with
          | some d => p.type == "string" && !(isinstStr d)
          | none => false) = true
      · simp [g3]
      · rw [Bool.not_eq_true] at g3
        simp only [g3, Bool.false_eq_true, if_false]
        by_cases g4 : (match p.default with
            | some d => p.type == "boolean" && !(isinstBool d)
            | none => false) = true
        · simp [g4]
        · rw [Bool.not_eq_true] at g4
          simp only [g4, Bool.false_eq_true, if_false]
          by_cases g5 : (match p.default, p.choices with
              | some d, some cs =>
                  p.type == "enum" && !cs.isEmpty && !(cs.any (fun c => pyEq d (.pyStr c)))
              | _, _ => false) = true
          · simp [g5]
          · rw [Bool.not_eq_true] at g5
            simp only [g5, Bool.false_eq_true, if_false]
            by_cases g6 : (p.type == "enum" && !(choicesTruthy p.choices)) = true
            · simp [g6]
            · rw [Bool.not_eq_true] at g6
              simp only [g6, Bool.false_eq_true, if_false]
              by_cases g7 : (p.type == "arbitrarydata" && p.default.isSome) = true
              · simp [g7]
              · rw [Bool.not_eq_true] at g7
                simp only [g7, Bool.false_eq_true, if_false]
                by_cases g8 : (p.type == "arbitrarydata" && p.choices.isSome) = true
                · simp [g8]
                · rw [Bool.not_eq_true] at g8
                  simp only [g8, Bool.false_eq_true, if_false]
                  by_cases g9 : identOK p.name = true
                  · simp [g1, g2, g3, g4, g5, g6, g7, g8, g9]
                  · rw [Bool.not_eq_true] at g9
                    simp [g1, g2, g3, g4, g5, g6, g7, g8, g9]
  · rw [Bool.not_eq_true] at g1
    rw [if_pos (show (!(["string", "number", "boolean", "enum",
      "arbitrarydata"].contains p.type)) = true by rw [g1]; rfl)]
    constructor
    · intro hh
      cases hh
    · intro hh
      rw [g1] at hh
      exact absurd hh.1 (by decide)

/-- Modelled from the spec: a "number" default in the data model's sense
is a numeric scalar (int or float), not a boolean. -/
def isSpecNumber : PyValue → Bool
  | .pyInt _ => true
  | .pyFloat _ => true
  | _ => false

/-- A `number` parameter whose default is the boolean `true`. -/
def boolDefaultNumberParam : SCPIDefinitionParameter :=
  { name := "level", type := "number", description := "Output level",
    default := some (.pyBool true) }

/-- C6 counterexample: a `number` parameter with the boolean default
`true` passes validation (Python `isinstance(True, (int, float))` holds
because `bool` subclasses `int`), although the default is a boolean, not
a number — so a type-inconsistent default is not rejected. -/
theorem c6_counterexample :
    boolDefaultNumberParam.validate = .ok ()
    ∧ boolDefaultNumberParam.default = some (.pyBool true)
    ∧ isSpecNumber (.pyBool true) = false
    ∧ isinstBool (.pyBool true) = true :=
  ⟨rfl, rfl, rfl, rfl⟩

/-- C6 amended: when validation succeeds for a parameter carrying a
default, the default satisfies Python's isinstance discipline — a string
for `string`, a bool for `boolean`, an int, float or bool for `number`
(Python's `bool` is an `int` subclass, so a boolean default is accepted
for a `number` parameter) — and for `enum` the default is a member of the
(present, non-empty) choices; an `arbitrarydata` parameter never
validates with a default. -/
theorem c6_default_type_rules (p : SCPIDefinitionParameter) (v : PyValue)
    (hok : p.validate = .ok ()) (hd : p.default = some v) :
    (p.type = "string" → isinstStr v = true)
    ∧ (p.type = "number" → isinstNumber v = true)
    ∧ (p.type = "boolean" → isinstBool v = true)
    ∧ (p.type = "enum" → ∃ cs : List String, p.choices = some cs ∧ cs ≠ []
        ∧ cs.any (fun c => pyEq v (.pyStr c)) = true)
    ∧ p.type ≠ "arbitrarydata" := by
  rw [paramValidate_ok_iff] at hok
  obtain ⟨_, g2, g3, g4, g5, g6, g7, _, _⟩ := hok
  rw [hd] at g2 g3 g4 g5 g7
  refine ⟨?_, ?_, ?_, ?_, ?_⟩
  · intro ht
    simp only [ht] at g3
    simp at g3
    exact g3
  · intro ht
    simp only [ht] at g2
    simp at g2
    exact g2
  · intro ht
    simp only [ht] at g4
    simp at g4
    exact g4
  · intro ht
    simp only [ht] at g5 g6
    simp at g6
    cases hc : p.choices with
    | none => rw [hc] at g6; simp [choicesTruthy] at g6
    | some cs =>
      rw [hc] at g5 g6
      simp [choicesTruthy] at g6
      have hne : cs ≠ [] := by
        intro hh
        rw [hh] at g6
        simp at g6
      refine ⟨cs, rfl, hne, ?_⟩
      simp at g5
      rw [List.any_eq_true]
      simpa using g5 hne
  · intro ht
    simp only [ht] at g7
    simp [hd] at g7

/-- C6 witness: the amended rules instantiated on a valid `string`
parameter with a string default. -/
def stringDefaultParam : SCPIDefinitionParameter :=
  { name := "label", type := "string", description := "Display label",
    default := some (.pyStr "OFF") }

theorem c6_default_type_rules_witness :
    stringDefaultParam.validate = .ok ()
    ∧ ((stringDefaultParam.type = "string" → isinstStr (.pyStr "OFF") = true)
      ∧ (stringDefaultParam.type = "number" → isinstNumber (.pyStr "OFF") = true)
      ∧ (stringDefaultParam.type = "boolean" → isinstBool (.pyStr "OFF") = true)
      ∧ (stringDefaultParam.type = "enum" → ∃ cs : List String,
          stringDefaultParam.choices = some cs ∧ cs ≠ []
          ∧ cs.any (fun c => pyEq (.pyStr "OFF") (.pyStr c)) = true)
      ∧ stringDefaultParam.type ≠ "arbitrarydata") :=
  ⟨rfl, c6_default_type_rules stringDefaultParam (.pyStr "OFF") rfl rfl⟩

/-! ## Claim C7 -/

/-- A `string` parameter carrying choices. -/
def stringChoicesParam : SCPIDefinitionParameter :=
  { name := "mode", type := "string", description := "Operating mode",
    choices := some ["FAST", "SLOW"] }

/-- C7 counterexample: a non-enum (`string`) parameter carrying choices
passes validation — nothing forbids choices on `string`, `number` or
`boolean` parameters. -/
theorem c7_counterexample :
    stringChoicesParam.validate = .ok ()
    ∧ stringChoicesParam.type ≠ "enum"
    ∧ stringChoicesParam.choices ≠ none :=
  ⟨rfl, by decide, by decide⟩

/-- C7 amended: parameter validation requires non-empty choices for
`enum` and forbids both choices and default for `arbitrarydata`, but it
does not reject choices on `string`, `number` or `boolean` parameters
(witnessed by the accepted `string` parameter with choices). -/
theorem c7_choices_rules :
    (∀ p : SCPIDefinitionParameter, p.validate = .ok () → p.type = "enum" →
      ∃ cs : List String, p.choices = some cs ∧ cs ≠ [])
    ∧ (∀ p : SCPIDefinitionParameter, p.validate = .ok () → p.type = "arbitrarydata" →
      p.choices = none ∧ p.default = none)
    ∧ stringChoicesParam.validate = .ok ()
    ∧ stringChoicesParam.type = "string"
    ∧ stringChoicesParam.choices = some ["FAST", "SLOW"] := by
  refine ⟨?_, ?_, rfl, rfl, rfl⟩
  · intro p hok ht
    rw [paramValidate_ok_iff] at hok
    obtain ⟨_, _, _, _, _, g6, _, _, _⟩ := hok
    simp only [ht] at g6
    simp at g6
    cases hc : p.choices with
    | none => rw [hc] at g6; simp [choicesTruthy] at g6
    | some cs =>
      rw [hc] at g6
      simp [choicesTruthy] at g6
      refine ⟨cs, rfl, ?_⟩
      intro hh
      rw [hh] at g6
      simp at g6
  · intro p hok ht
    rw [paramValidate_ok_iff] at hok
    obtain ⟨_, _, _, _, _, _, g7, g8, _⟩ := hok
    simp only [ht] at g7 g8
    simp at g7 g8
    constructor
    · cases hc : p.choices with
      | none => rfl
      | some cs =>
        rw [hc] at g8
        simp at g8
    · cases hd2 : p.default with
      | none => rfl
      | some v =>
        rw [hd2] at g7
        simp at g7

/-- An `enum` parameter with non-empty choices. -/
def enumRangeParam : SCPIDefinitionParameter :=
  { name := "range", type := "enum", description := "Input range",
    default := some (.pyStr "LOW"), choices := some ["LOW", "HIGH"] }

/-- C7 witness: the amended rules instantiated on a valid enum parameter
and on an `arbitrarydata` parameter. -/
def abdParam : SCPIDefinitionParameter :=
  { name := "payload", type := "arbitrarydata", description := "Raw block" }

theorem c7_choices_rules_witness :
    enumRangeParam.validate = .ok ()
    ∧ (∃ cs : List String, enumRangeParam.choices = some cs ∧ cs ≠ [])
    ∧ abdParam.validate = .ok ()
    ∧ (abdParam.choices = none ∧ abdParam.default = none) :=
  ⟨rfl, c7_choices_rules.1 enumRangeParam rfl rfl, rfl,
    c7_choices_rules.2.1 abdParam rfl rfl⟩

/-! ## Claim C5 -/

/-- C5: for the one-command `*IDN?` definition (response, no handler) the
expander yields exactly the single variation `*IDN?`; the built trie is
literally one root plus a single 5-node chain whose last node is the only
terminal and owns command index 0; the reported total command count is 1;
and the average terminal-node depth is exactly 5 (the Python float
division `5 / 1` is exact). -/
theorem c5_idn_scenario :
    generateCommandVariations "*IDN?" = ["*IDN?"]
    ∧ buildTrieT [idnCmd]
        = .mk (Char.ofNat 0) false none
            (.cons (.mk '*' false none
              (.cons (.mk 'I' false none
                (.cons (.mk 'D' false none
                  (.cons (.mk 'N' false none
                    (.cons (.mk '?' true (some 0) .nil) .nil)) .nil)) .nil)) .nil)) .nil)
    ∧ (buildTrieT [idnCmd]).countNodes = 6
    ∧ (buildTrieT [idnCmd]).countTerminals = 1
    ∧ ([idnCmd] : List SCPIDefinitionCommand).length = 1
    ∧ calculateAverageLookupDepth (buildTrieT [idnCmd]) = 5 := by
  refine ⟨rfl, rfl, rfl, rfl, rfl, ?_⟩
  have h : (buildTrieT [idnCmd]).terminalDepths 0 = [5] := rfl
  unfold calculateAverageLookupDepth
  rw [h]
  norm_num

/-! ## Claim C8: the trie shape is a function of the syntax list alone -/

mutual
/-- Erase every command index of a trie (the shape relevant to all node,
array and child counts). -/
def shapeT : SCPITrieNode → SCPITrieNode
  | .mk c t _ cs => .mk c t none (shapeL cs)

/-- `shapeT` on a child list. -/
def shapeL : ChildList → ChildList
  | .nil => .nil
  | .cons n rest => .cons (shapeT n) (shapeL rest)
end

/-- Index-less insertion: create the path of a variation and mark its end
terminal, without attaching a command index. -/
def insertMark : SCPITrieNode → List Char → SCPITrieNode
  | .mk ch _ ci cs, [] => .mk ch true ci cs
  | .mk ch term ci cs, c :: rest =>
    match cs.lookup c with
    | some child => .mk ch term ci (cs.replace c (insertMark child rest))
    | none =>
      .mk ch term ci ((cs.append (.mk c false none .nil)).replace c
        (insertMark (.mk c false none .nil) rest))

theorem shapeT_character (n : SCPITrieNode) : (shapeT n).character = n.character := by
  cases n
  rfl

theorem shapeL_lookup (cs : ChildList) (c : Char) :
    (shapeL cs).lookup c = (cs.lookup c).map shapeT := by
  induction cs using ChildList.recSimple with
  | nil => rfl
  | cons m rest ih =>
    by_cases hm : m.character == c
    · have : (shapeT m).character == c := by
        rw [shapeT_character]
        exact hm
      simp [shapeL, ChildList.lookup, hm, this]
    · have : ¬((shapeT m).character == c) := by
        rw [shapeT_character]
        exact fun hh => hm hh
      simp [shapeL, ChildList.lookup, hm, this, ih]

theorem shapeL_replace (cs : ChildList) (c : Char) (n : SCPITrieNode) :
    shapeL (cs.replace c n) = (shapeL cs).replace c (shapeT n) := by
  induction cs using ChildList.recSimple with
  | nil => rfl
  | cons m rest ih =>
    by_cases hm : m.character == c
    · have : (shapeT m).character == c := by
        rw [shapeT_character]
        exact hm
      simp [shapeL, ChildList.replace, hm, this]
    · have : ¬((shapeT m).character == c) := by
        rw [shapeT_character]
        exact fun hh => hm hh
      simp [shapeL, ChildList.replace, hm, this, ih]

theorem shapeL_append (cs : ChildList) (n : SCPITrieNode) :
    shapeL (cs.append n) = (shapeL cs).append (shapeT n) := by
  induction cs using ChildList.recSimple with
  | nil => rfl
  | cons m rest ih => simp [shapeL, ChildList.append, ih]

/-- Erasing indices commutes with insertion: the shape of a trie after an
insertion does not depend on the inserted index. -/
theorem shapeT_insertVarT (v : List Char) :
    ∀ (t : SCPITrieNode) (i : Nat), shapeT (t.insertVarT v i) = insertMark (shapeT t) v := by
  induction v with
  | nil =>
    intro t i
    cases t
    rfl
  | cons c rest ih =>
    intro t i
    cases t with
    | mk ch term ci cs =>
      rw [SCPITrieNode.insertVarT_cons]
      show shapeT _ = insertMark (.mk ch term none (shapeL cs)) (c :: rest)
      cases h : cs.lookup c with
      | some child =>
        have h2 : (shapeL cs).lookup c = some (shapeT child) := by
          rw [shapeL_lookup, h]
          rfl
        simp only [insertMark, h2, shapeT, shapeL_replace, ih]
      | none =>
        have h2 : (shapeL cs).lookup c = none := by
          rw [shapeL_lookup, h]
          rfl
        simp only [insertMark, h2, shapeT, shapeL_replace, shapeL_append, ih]
        rw [ChildList.replace_append_fresh h2
          (show (SCPITrieNode.mk c false none ChildList.nil).character = c from rfl)]
        rfl

/-- Fold `insertMark` over a list of variations. -/
def markAll (t : SCPITrieNode) (vs : List (List Char)) : SCPITrieNode :=
  vs.foldl insertMark t

theorem shapeT_insertPairs (pairs : List (List Char × Nat)) :
    ∀ t : SCPITrieNode,
      shapeT (insertPairsT t pairs) = markAll (shapeT t) (pairs.map Prod.fst) := by
  induction pairs with
  | nil => intro t; rfl
  | cons p rest ih =>
    intro t
    simp only [insertPairsT, List.foldl, List.map_cons, markAll] at *
    rw [ih, shapeT_insertVarT]

/-- The syntax strings of the command list fully determine the inserted
variation strings. -/
theorem allPairs_fsts (commands : List SCPIDefinitionCommand) :
    (allPairs commands).map Prod.fst
      = (commands.map SCPIDefinitionCommand.syntaxStr).flatMap
          (fun s => (generateCommandVariations s).map String.data) := by
  unfold allPairs
  rw [List.map_flatMap, List.flatMap_map]
  congr 1
  funext cmd
  rw [List.map_map]
  rfl

/-- The index-erased shape of a built trie is a function of the list of
command syntax strings alone. -/
theorem shapeT_buildTrieT (commands : List SCPIDefinitionCommand) :
    shapeT (buildTrieT commands)
      = markAll (shapeT emptyRoot)
          ((commands.map SCPIDefinitionCommand.syntaxStr).flatMap
            (fun s => (generateCommandVariations s).map String.data)) := by
  rw [buildTrieT_eq_insertPairs, shapeT_insertPairs, allPairs_fsts]

theorem countNodes_shapeT (t : SCPITrieNode) :
    (shapeT t).countNodes = t.countNodes := by
  refine SCPITrieNode.recTwo
    (fun n => (shapeT n).countNodes = n.countNodes)
    (fun cs => (shapeL cs).countNodesL = cs.countNodesL) ?_ ?_ ?_ t
  · intro c tb ci cs hcs
    simp [shapeT, SCPITrieNode.countNodes, hcs]
  · rfl
  · intro n rest hn hrest
    simp [shapeL, ChildList.countNodesL, hn, hrest]

theorem countArrays_shapeT (t : SCPITrieNode) :
    (shapeT t).countArrays = t.countArrays := by
  refine SCPITrieNode.recTwo
    (fun n => (shapeT n).countArrays = n.countArrays)
    (fun cs => (shapeL cs).countArraysL = cs.countArraysL) ?_ ?_ ?_ t
  · intro c tb ci cs hcs
    cases cs with
    | nil => rfl
    | cons n rest =>
      show 1 + (shapeL (ChildList.cons n rest)).countArraysL
          = 1 + (ChildList.cons n rest).countArraysL
      rw [hcs]
  · rfl
  · intro n rest hn hrest
    simp [shapeL, ChildList.countArraysL, hn, hrest]

theorem countChildren_shapeT (t : SCPITrieNode) :
    (shapeT t).countChildren = t.countChildren := by
  have hlen : ∀ cs : ChildList, (shapeL cs).length = cs.length := by
    intro cs
    induction cs using ChildList.recSimple with
    | nil => rfl
    | cons n rest ih => simp [shapeL, ChildList.length, ih]
  refine SCPITrieNode.recTwo
    (fun n => (shapeT n).countChildren = n.countChildren)
    (fun cs => (shapeL cs).countChildrenL = cs.countChildrenL) ?_ ?_ ?_ t
  · intro c tb ci cs hcs
    simp [shapeT, SCPITrieNode.countChildren, hcs, hlen]
  · rfl
  · intro n rest hn hrest
    simp [shapeL, ChildList.countChildrenL, hn, hrest]

/-- Node, array and child counts of built tries agree whenever the two
command lists carry the same syntax strings. -/
theorem counts_eq_of_syntaxes_eq {cs1 cs2 : List SCPIDefinitionCommand}
    (h : cs1.map SCPIDefinitionCommand.syntaxStr = cs2.map SCPIDefinitionCommand.syntaxStr) :
    (buildTrieT cs1).countNodes = (buildTrieT cs2).countNodes
    ∧ (buildTrieT cs1).countArrays = (buildTrieT cs2).countArrays
    ∧ (buildTrieT cs1).countChildren = (buildTrieT cs2).countChildren := by
  have hshape : shapeT (buildTrieT cs1) = shapeT (buildTrieT cs2) := by
    rw [shapeT_buildTrieT, shapeT_buildTrieT, h]
  refine ⟨?_, ?_, ?_⟩
  · rw [← countNodes_shapeT, hshape, countNodes_shapeT]
  · rw [← countArrays_shapeT, hshape, countArrays_shapeT]
  · rw [← countChildren_shapeT, hshape, countChildren_shapeT]

/-- Replace the element at one position of a list (identity when out of
range). -/
def listModify {α : Type} (f : α → α) : Nat → List α → List α
  | _, [] => []
  | 0, a :: as => f a :: as
  | n + 1, a :: as => a :: listModify f n as

theorem listModify_length {α : Type} (f : α → α) :
    ∀ (i : Nat) (l : List α), (listModify f i l).length = l.length := by
  intro i l
  induction l generalizing i with
  | nil => cases i <;> rfl
  | cons a as ih =>
    cases i with
    | zero => rfl
    | succ i' => simp [listModify, ih]

theorem listModify_map_invariant {α β : Type} (f : α → α) (g : α → β)
    (h : ∀ a, g (f a) = g a) :
    ∀ (i : Nat) (l : List α), (listModify f i l).map g = l.map g := by
  intro i l
  induction l generalizing i with
  | nil => cases i <;> rfl
  | cons a as ih =>
    cases i with
    | zero => simp [listModify, h]
    | succ i' => simp [listModify, ih]

theorem sum_listModify {α : Type} (w : α → Nat) (f : α → α) :
    ∀ (l : List α) (i : Nat) (a : α), l.get? i = some a →
      ((listModify f i l).map w).sum + w a = (l.map w).sum + w (f a) := by
  intro l
  induction l with
  | nil =>
    intro i a ha
    cases i <;> cases ha
  | cons x xs ih =>
    intro i a ha
    cases i with
    | zero =>
      simp only [List.get?] at ha
      cases ha
      simp [listModify]
      omega
    | succ i' =>
      simp only [List.get?] at ha
      simp only [listModify, List.map_cons, List.sum_cons]
      have := ih i' a ha
      omega

/-- The per-parameter choice-string footprint. -/
def paramChoicesW (p : SCPIDefinitionParameter) : Nat :=
  match p.choices with
  | some cs => (cs.map (fun choice => choice.length + 1)).sum
  | none => 0

/-- The per-command choice-string footprint. -/
def cmdChoicesW (c : SCPIDefinitionCommand) : Nat :=
  match c.parameters with
  | some ps => (ps.map paramChoicesW).sum
  | none => 0

theorem stringLiteralsMem_eq_sum (commands : List SCPIDefinitionCommand) :
    stringLiteralsMem commands = (commands.map cmdChoicesW).sum := rfl

/-- Replace choice `k` of a parameter by the string `s`. -/
def modifyParamChoice (k : Nat) (s : String) (p : SCPIDefinitionParameter) :
    SCPIDefinitionParameter :=
  { p with choices := p.choices.map (listModify (fun _ => s) k) }

/-- Replace choice `k` of parameter `j` of a command by the string `s`. -/
def modifyCmdChoice (j k : Nat) (s : String) (c : SCPIDefinitionCommand) :
    SCPIDefinitionCommand :=
  { c with parameters := c.parameters.map (listModify (modifyParamChoice k s) j) }

/-- Replace choice `k` of parameter `j` of command `i` by the string `s`
(identity when any index is out of range). -/
def updateChoice (d : SCPIDefinition) (i j k : Nat) (s : String) : SCPIDefinition :=
  { d with commands := listModify (modifyCmdChoice j k s) i d.commands }

/-- Choice `k` of parameter `j` of command `i`, when all indices exist. -/
def getChoice (d : SCPIDefinition) (i j k : Nat) : Option String :=
  (d.commands.get? i).bind (fun c =>
    c.parameters.bind (fun ps =>
      (ps.get? j).bind (fun p =>
        p.choices.bind (fun cs => cs.get? k))))

theorem paramChoicesW_modify {p : SCPIDefinitionParameter} {cs : List String}
    {k : Nat} {cold : String} (s : String)
    (hc : p.choices = some cs) (hk : cs.get? k = some cold) :
    paramChoicesW (modifyParamChoice k s p) + cold.length
      = paramChoicesW p + s.length := by
  unfold modifyParamChoice paramChoicesW
  rw [hc]
  simp only [Option.map_some']
  have h3 := sum_listModify (fun choice => choice.length + 1) (fun _ => s) cs k cold hk
  simp only at h3
  omega

theorem cmdChoicesW_modify {c : SCPIDefinitionCommand} {ps : List SCPIDefinitionParameter}
    {p : SCPIDefinitionParameter} {cs : List String} {j k : Nat} {cold : String} (s : String)
    (hps : c.parameters = some ps) (hj : ps.get? j = some p)
    (hc : p.choices = some cs) (hk : cs.get? k = some cold) :
    cmdChoicesW (modifyCmdChoice j k s c) + cold.length
      = cmdChoicesW c + s.length := by
  unfold modifyCmdChoice cmdChoicesW
  rw [hps]
  simp only [Option.map_some']
  have h1 := sum_listModify paramChoicesW (modifyParamChoice k s) ps j p hj
  have h2 := paramChoicesW_modify s hc hk
  omega

theorem stringLiteralsMem_updateChoice {d : SCPIDefinition} {i j k : Nat}
    {cold : String} (s : String) (h : getChoice d i j k = some cold) :
    stringLiteralsMem (updateChoice d i j k s).commands + cold.length
      = stringLiteralsMem d.commands + s.length := by
  unfold getChoice at h
  simp only [Option.bind_eq_some] at h
  obtain ⟨c, hcmd, ps, hps, p, hj, cs, hc, hk⟩ := h
  rw [stringLiteralsMem_eq_sum, stringLiteralsMem_eq_sum]
  unfold updateChoice
  simp only
  have h1 := sum_listModify cmdChoicesW (modifyCmdChoice j k s) d.commands i c hcmd
  have h2 := cmdChoicesW_modify s hps hj hc hk
  omega

theorem syntaxes_updateChoice (d : SCPIDefinition) (i j k : Nat) (s : String) :
    (updateChoice d i j k s).commands.map SCPIDefinitionCommand.syntaxStr
      = d.commands.map SCPIDefinitionCommand.syntaxStr := by
  unfold updateChoice
  exact listModify_map_invariant (modifyCmdChoice j k s)
    SCPIDefinitionCommand.syntaxStr (fun c => rfl) i d.commands

theorem paramCounts_updateChoice (d : SCPIDefinition) (i j k : Nat) (s : String) :
    (updateChoice d i j k s).commands.map cmdParamCount
      = d.commands.map cmdParamCount := by
  unfold updateChoice
  apply listModify_map_invariant
  intro c
  unfold cmdParamCount modifyCmdChoice
  cases hps : c.parameters with
  | none => rfl
  | some ps => simp [hps, listModify_length]

theorem length_updateChoice (d : SCPIDefinition) (i j k : Nat) (s : String) :
    (updateChoice d i j k s).commands.length = d.commands.length := by
  unfold updateChoice
  exact listModify_length _ i d.commands

/-- C8: in the memory report, the trie-node byte footprint is the node
count times the fixed 8-byte node record and the command footprint is the
command count times the 12-byte command record; and replacing one enum
choice string changes only the string-literal footprint (and the total
derived from it): trie stats, command and parameter-descriptor
footprints, runtime SRAM and its utilization stay identical, while the
string-literal and total-code footprints shift exactly by the difference
of the two string lengths. -/
theorem c8_memory_arithmetic :
    (∀ (t : SCPITrieNode) (d : SCPIDefinition),
      (calculateMemoryUsage t d).memoryBreakdown.trieNodes
        = (calculateMemoryUsage t d).trieStats.totalNodes
          * (calculateMemoryUsage t d).trieStats.nodeSizeBytes
      ∧ (calculateMemoryUsage t d).memoryBreakdown.commandsMem = d.commands.length * 12)
    ∧ ∀ (d : SCPIDefinition) (i j k : Nat) (s cold : String),
        getChoice d i j k = some cold →
        (calculateMemoryUsage (buildTrieT (updateChoice d i j k s).commands)
            (updateChoice d i j k s)).trieStats
          = (calculateMemoryUsage (buildTrieT d.commands) d).trieStats
        ∧ (calculateMemoryUsage (buildTrieT (updateChoice d i j k s).commands)
            (updateChoice d i j k s)).memoryBreakdown.commandsMem
          = (calculateMemoryUsage (buildTrieT d.commands) d).memoryBreakdown.commandsMem
        ∧ (calculateMemoryUsage (buildTrieT (updateChoice d i j k s).commands)
            (updateChoice d i j k s)).memoryBreakdown.paramDescriptors
          = (calculateMemoryUsage (buildTrieT d.commands) d).memoryBreakdown.paramDescriptors
        ∧ (calculateMemoryUsage (buildTrieT (updateChoice d i j k s).commands)
            (updateChoice d i j k s)).memoryBreakdown.runtimeSram
          = (calculateMemoryUsage (buildTrieT d.commands) d).memoryBreakdown.runtimeSram
        ∧ (calculateMemoryUsage (buildTrieT (updateChoice d i j k s).commands)
            (updateChoice d i j k s)).utilization.sramPercent
          = (calculateMemoryUsage (buildTrieT d.commands) d).utilization.sramPercent
        ∧ (calculateMemoryUsage (buildTrieT (updateChoice d i j k s).commands)
            (updateChoice d i j k s)).memoryBreakdown.stringLiterals + cold.length
          = (calculateMemoryUsage (buildTrieT d.commands) d).memoryBreakdown.stringLiterals
            + s.length
        ∧ (calculateMemoryUsage (buildTrieT (updateChoice d i j k s).commands)
            (updateChoice d i j k s)).memoryBreakdown.totalCode + cold.length
          = (calculateMemoryUsage (buildTrieT d.commands) d).memoryBreakdown.totalCode
            + s.length := by
  constructor
  · intro t d
    exact ⟨rfl, rfl⟩
  · intro d i j k s cold h
    obtain ⟨hN, hA, hC⟩ := counts_eq_of_syntaxes_eq (syntaxes_updateChoice d i j k s)
    have hL := length_updateChoice d i j k s
    have hP : ((updateChoice d i j k s).commands.map cmdParamCount).sum
        = (d.commands.map cmdParamCount).sum := by
      rw [paramCounts_updateChoice]
    have hS := stringLiteralsMem_updateChoice s h
    refine ⟨?_, ?_, ?_, rfl, rfl, hS, ?_⟩
    · show TrieStatsR.mk ((buildTrieT (updateChoice d i j k s).commands).countNodes)
        ((buildTrieT (updateChoice d i j k s).commands).countArrays)
        ((buildTrieT (updateChoice d i j k s).commands).countChildren) 8
        = TrieStatsR.mk ((buildTrieT d.commands).countNodes)
          ((buildTrieT d.commands).countArrays)
          ((buildTrieT d.commands).countChildren) 8
      rw [hN, hA, hC]
    · show (updateChoice d i j k s).commands.length * 12 = d.commands.length * 12
      rw [hL]
    · show ((updateChoice d i j k s).commands.map cmdParamCount).sum * (4 + 4 + 4 + 4)
        = (d.commands.map cmdParamCount).sum * (4 + 4 + 4 + 4)
      rw [hP]
    · show (buildTrieT (updateChoice d i j k s).commands).countNodes * 8
          + ((updateChoice d i j k s).commands.map cmdParamCount).sum * (4 + 4 + 4 + 4)
          + (updateChoice d i j k s).commands.length * 12
          + stringLiteralsMem (updateChoice d i j k s).commands + cold.length
        = (buildTrieT d.commands).countNodes * 8
          + (d.commands.map cmdParamCount).sum * (4 + 4 + 4 + 4)
          + d.commands.length * 12 + stringLiteralsMem d.commands + s.length
      rw [hN, hP, hL]
      omega

/-- A command carrying the enum parameter. -/
def rangeCmd : SCPIDefinitionCommand :=
  { syntaxStr := "RANGe", description := "Set range", handler := some "setRange",
    parameters := some [enumRangeParam] }

/-- A one-command definition with one enum parameter. -/
def defnEnum : SCPIDefinition :=
  { namespaceStr := "T76", className := "Src", outputFile := "src.cpp",
    commands := [rangeCmd] }

/-- C8 witness: the memory-arithmetic theorem instantiated on a concrete
enum definition, replacing the choice `LOW` by the longer `MEDIUM`. -/
theorem c8_memory_arithmetic_witness :
    getChoice defnEnum 0 0 0 = some "LOW"
    ∧ ((calculateMemoryUsage (buildTrieT (updateChoice defnEnum 0 0 0 "MEDIUM").commands)
        (updateChoice defnEnum 0 0 0 "MEDIUM")).trieStats
      = (calculateMemoryUsage (buildTrieT defnEnum.commands) defnEnum).trieStats) :=
  ⟨by decide, (c8_memory_arithmetic.2 defnEnum 0 0 0 "MEDIUM" "LOW" (by decide)).1⟩

/-! ## Claim C4: the expander on valid syntaxes -/

/-- Tail of a valid segment after its first character: an `[A-Z_0-9]`
run followed by an `[a-z_0-9]` run. -/
def validSegTail : List Char → Bool
  | [] => true
  | c :: cs => if isUpperCls c then validSegTail cs else isLowerCls c && cs.all isLowerCls

/-- A valid alpha segment: `[A-Z_0-9]+[a-z_0-9]*`. -/
def validSegB (seg : List Char) : Bool :=
  match seg with
  | [] => false
  | c :: cs => isUpperCls c && validSegTail cs

/-- Render the trailing `(':' SEG)* '?'?` part of a syntax. -/
def renderMore (segs : List (List Char)) (q : Bool) : List Char :=
  segs.flatMap (fun s => ':' :: s) ++ (if q then ['?'] else [])

/-- Render a full syntax from its decomposition: optional star, head
segment, further colon-prefixed segments, optional query mark. -/
def render (star : Bool) (s0 : List Char) (segs : List (List Char)) (q : Bool) : List Char :=
  (if star then ['*'] else []) ++ s0 ++ renderMore segs q

theorem isUpperCls_not_special {c : Char} (h : isUpperCls c = true) :
    isSpecialChar c = false := by
  cases hs : isSpecialChar c
  · rfl
  · exfalso
    unfold isSpecialChar at hs
    simp only [Bool.or_eq_true, beq_iff_eq] at hs
    rcases hs with (hs | hs) | hs <;> (subst hs; exact absurd h (by decide))

theorem isLowerCls_not_special {c : Char} (h : isLowerCls c = true) :
    isSpecialChar c = false := by
  cases hs : isSpecialChar c
  · rfl
  · exfalso
    unfold isSpecialChar at hs
    simp only [Bool.or_eq_true, beq_iff_eq] at hs
    rcases hs with (hs | hs) | hs <;> (subst hs; exact absurd h (by decide))

theorem validSegTail_all {cs : List Char} (h : validSegTail cs = true) :
    cs.all (fun c => isUpperCls c || isLowerCls c) = true := by
  induction cs with
  | nil => rfl
  | cons c rest ih =>
    unfold validSegTail at h
    by_cases hc : isUpperCls c = true
    · rw [if_pos hc] at h
      simp [hc, ih h]
    · rw [if_neg hc] at h
      simp only [Bool.and_eq_true] at h
      simp only [List.all_cons, Bool.or_eq_true, Bool.and_eq_true]
      refine ⟨Or.inr h.1, ?_⟩
      rw [List.all_eq_true] at h ⊢
      intro x hx
      simp [h.2 x hx]

theorem validSegB_props {s : List Char} (h : validSegB s = true) :
    s ≠ [] ∧ s.all (fun c => !(isSpecialChar c)) = true := by
  cases s with
  | nil => cases h
  | cons c cs =>
    unfold validSegB at h
    simp only [Bool.and_eq_true] at h
    refine ⟨by simp, ?_⟩
    simp only [List.all_cons, Bool.and_eq_true]
    constructor
    · rw [isUpperCls_not_special h.1]
      rfl
    · have := validSegTail_all h.2
      rw [List.all_eq_true] at this ⊢
      intro x hx
      rcases Bool.or_eq_true_iff.mp (this x hx) with hh | hh
      · rw [isUpperCls_not_special hh]
        rfl
      · rw [isLowerCls_not_special hh]
        rfl

/-- Soundness of the syntax matcher in each state: an accepted suffix
decomposes into the remainder of the current segment followed by
rendered further segments and an optional query mark. -/
theorem synRun_sound : ∀ cs : List Char,
    ((synRun cs .segStart = true →
      ∃ s0 segs q, validSegB s0 = true ∧ (∀ s ∈ segs, validSegB s = true)
        ∧ cs = s0 ++ renderMore segs q)
    ∧ (synRun cs .inUpper = true →
      ∃ tail segs q, validSegTail tail = true ∧ (∀ s ∈ segs, validSegB s = true)
        ∧ cs = tail ++ renderMore segs q)
    ∧ (synRun cs .inLower = true →
      ∃ tail segs q, tail.all isLowerCls = true ∧ (∀ s ∈ segs, validSegB s = true)
        ∧ cs = tail ++ renderMore segs q)) := by
  intro cs
  induction cs with
  | nil =>
    refine ⟨?_, ?_, ?_⟩
    · intro h
      cases h
    · intro _
      refine ⟨[], [], false, ?_, ?_, ?_⟩
      · rfl
      · simp
      · rfl
    · intro _
      refine ⟨[], [], false, ?_, ?_, ?_⟩
      · rfl
      · simp
      · rfl
  | cons c rest ih =>
    obtain ⟨ihS, ihU, ihL⟩ := ih
    refine ⟨?_, ?_, ?_⟩
    · intro h
      simp only [synRun, Bool.and_eq_true] at h
      obtain ⟨tail, segs, q, h1, h2, h3⟩ := ihU h.2
      refine ⟨c :: tail, segs, q, ?_, h2, by simp [h3]⟩
      unfold validSegB
      simp [h.1, h1]
    · intro h
      simp only [synRun] at h
      by_cases hc1 : isUpperCls c = true
      · rw [if_pos hc1] at h
        obtain ⟨tail, segs, q, h1, h2, h3⟩ := ihU h
        refine ⟨c :: tail, segs, q, ?_, h2, by simp [h3]⟩
        unfold validSegTail
        rw [if_pos hc1]
        exact h1
      · rw [if_neg hc1] at h
        by_cases hc2 : isLowerCls c = true
        · rw [if_pos hc2] at h
          obtain ⟨tail, segs, q, h1, h2, h3⟩ := ihL h
          refine ⟨c :: tail, segs, q, ?_, h2, by simp [h3]⟩
          unfold validSegTail
          rw [if_neg hc1]
          simp [hc2, h1]
        · rw [if_neg hc2] at h
          by_cases hc3 : (c == ':') = true
          · rw [if_pos hc3] at h
            obtain ⟨s0, segs, q, h1, h2, h3⟩ := ihS h
            refine ⟨[], s0 :: segs, q, rfl, ?_, ?_⟩
            · intro s hs
              rcases List.mem_cons.mp hs with hs | hs
              · rw [hs]; exact h1
              · exact h2 s hs
            · rw [beq_iff_eq] at hc3
              subst hc3
              simp [renderMore, h3]
          · rw [if_neg hc3] at h
            by_cases hc4 : (c == '?') = true
            · rw [if_pos hc4] at h
              rw [List.isEmpty_iff] at h
              subst h
              rw [beq_iff_eq] at hc4
              subst hc4
              refine ⟨[], [], true, rfl, by simp, ?_⟩
              rfl
            · rw [if_neg hc4] at h
              cases h
    · intro h
      simp only [synRun] at h
      by_cases hc2 : isLowerCls c = true
      · rw [if_pos hc2] at h
        obtain ⟨tail, segs, q, h1, h2, h3⟩ := ihL h
        refine ⟨c :: tail, segs, q, ?_, h2, by simp [h3]⟩
        simp [hc2, h1]
      · rw [if_neg hc2] at h
        by_cases hc3 : (c == ':') = true
        · rw [if_pos hc3] at h
          obtain ⟨s0, segs, q, h1, h2, h3⟩ := ihS h
          refine ⟨[], s0 :: segs, q, rfl, ?_, ?_⟩
          · intro s hs
            rcases List.mem_cons.mp hs with hs | hs
            · rw [hs]; exact h1
            · exact h2 s hs
          · rw [beq_iff_eq] at hc3
            subst hc3
            simp [renderMore, h3]
        · rw [if_neg hc3] at h
          by_cases hc4 : (c == '?') = true
          · rw [if_pos hc4] at h
            rw [List.isEmpty_iff] at h
            subst h
            rw [beq_iff_eq] at hc4
            subst hc4
            refine ⟨[], [], true, rfl, by simp, ?_⟩
            rfl
          · rw [if_neg hc4] at h
            cases h

/-- A string accepted by the syntax regex decomposes into star flag, head
segment, further segments and query flag. -/
theorem syntaxOK_decompose {str : String} (h : syntaxOK str = true) :
    ∃ star s0 segs q, validSegB s0 = true ∧ (∀ s ∈ segs, validSegB s = true)
      ∧ str.data = render star s0 segs q := by
  unfold syntaxOK at h
  cases hd : str.data with
  | nil => rw [hd] at h; cases h
  | cons c rest =>
    rw [hd] at h
    have h2 : (if c = '*' then synRun rest SynState.segStart
        else synRun (c :: rest) SynState.segStart) = true := h
    by_cases hc : c = '*'
    · rw [if_pos hc] at h2
      subst hc
      obtain ⟨s0, segs, q, h1, hsegs, h3⟩ := (synRun_sound rest).1 h2
      exact ⟨true, s0, segs, q, h1, hsegs, by simp [render, h3]⟩
    · rw [if_neg hc] at h2
      obtain ⟨s0, segs, q, h1, hsegs, h3⟩ := (synRun_sound (c :: rest)).1 h2
      exact ⟨false, s0, segs, q, h1, hsegs, by simp [render, h3]⟩

theorem tokensAux_special {c : Char} (h : isSpecialChar c = true) (rest acc : List Char) :
    tokensAux (c :: rest) acc
      = (if acc.isEmpty then [] else [acc.reverse]) ++ [c] :: tokensAux rest [] := by
  simp only [tokensAux, h, if_true]

theorem tokensAux_nonspecial :
    ∀ (seg rest acc : List Char), seg.all (fun c => !(isSpecialChar c)) = true →
      tokensAux (seg ++ rest) acc = tokensAux rest (seg.reverse ++ acc) := by
  intro seg
  induction seg with
  | nil =>
    intro rest acc _
    simp
  | cons c seg2 ih =>
    intro rest acc hall
    simp only [List.all_cons, Bool.and_eq_true, Bool.not_eq_true'] at hall
    have hstep : tokensAux (c :: (seg2 ++ rest)) acc = tokensAux (seg2 ++ rest) (c :: acc) := by
      simp only [tokensAux, hall.1, Bool.false_eq_true, if_false]
    rw [List.cons_append, hstep, ih rest (c :: acc) hall.2]
    congr 1
    simp

theorem tokenize_renderMore :
    ∀ (segs : List (List Char)) (q : Bool) (acc : List Char), acc ≠ [] →
      (∀ s ∈ segs, validSegB s = true) →
      tokensAux (renderMore segs q) acc
        = [acc.reverse] ++ segs.flatMap (fun s => [[':'], s])
          ++ (if q then [['?']] else []) := by
  intro segs
  induction segs with
  | nil =>
    intro q acc hacc _
    have hflush : (if acc.isEmpty then ([] : List (List Char)) else [acc.reverse])
        = [acc.reverse] := by
      rw [if_neg (by simpa using hacc)]
    cases q with
    | false =>
      show tokensAux [] acc = _
      simp only [tokensAux]
      simp [hflush, hacc]
    | true =>
      show tokensAux ['?'] acc = _
      rw [tokensAux_special (by decide)]
      simp [hflush, hacc, tokensAux]
  | cons s rest ih =>
    intro q acc hacc hval
    have hs := hval s (by simp)
    obtain ⟨hne, hchars⟩ := validSegB_props hs
    have hflush : (if acc.isEmpty then ([] : List (List Char)) else [acc.reverse])
        = [acc.reverse] := by
      rw [if_neg (by simpa using hacc)]
    have hrm : renderMore (s :: rest) q = ':' :: (s ++ renderMore rest q) := by
      simp [renderMore]
    rw [hrm, tokensAux_special (by decide), hflush,
      tokensAux_nonspecial s (renderMore rest q) [] hchars]
    rw [show s.reverse ++ ([] : List Char) = s.reverse from by simp]
    rw [ih q s.reverse (by simpa using hne) (fun x hx => hval x (by simp [hx]))]
    simp

/-- Tokenizing a rendered syntax yields the star, the segments and the
separators as individual tokens in order. -/
theorem tokenize_render (star : Bool) (s0 : List Char) (segs : List (List Char)) (q : Bool)
    (h0 : validSegB s0 = true) (hsegs : ∀ s ∈ segs, validSegB s = true) :
    tokenize (render star s0 segs q)
      = (if star then [['*']] else []) ++ [s0] ++ segs.flatMap (fun s => [[':'], s])
        ++ (if q then [['?']] else []) := by
  obtain ⟨hne, hchars⟩ := validSegB_props h0
  unfold tokenize render
  cases star with
  | false =>
    simp only [if_false, List.nil_append, Bool.false_eq_true]
    rw [tokensAux_nonspecial s0 (renderMore segs q) [] hchars]
    rw [show s0.reverse ++ ([] : List Char) = s0.reverse from by simp]
    rw [tokenize_renderMore segs q s0.reverse (by simpa using hne) hsegs]
    simp
  | true =>
    simp only [if_true, List.cons_append, List.nil_append]
    rw [tokensAux_special (by decide)]
    simp only [List.isEmpty_nil, if_true, List.nil_append]
    rw [tokensAux_nonspecial s0 (renderMore segs q) [] hchars]
    rw [show s0.reverse ++ ([] : List Char) = s0.reverse from by simp]
    rw [tokenize_renderMore segs q s0.reverse (by simpa using hne) hsegs]
    simp

theorem takeWhile_all_eq {p : Char → Bool} :
    ∀ l : List Char, l.all p = true → l.takeWhile p = l := by
  intro l
  induction l with
  | nil => intro _; rfl
  | cons c cs ih =>
    intro h
    simp only [List.all_cons, Bool.and_eq_true] at h
    simp [List.takeWhile, h.1, ih h.2]

theorem dropWhile_lower {s : List Char} (h : validSegB s = true) :
    (s.dropWhile isUpperCls).all isLowerCls = true := by
  cases s with
  | nil => cases h
  | cons c cs =>
    unfold validSegB at h
    simp only [Bool.and_eq_true] at h
    rw [List.dropWhile_cons_of_pos h.1]
    have htail := h.2
    clear h
    induction cs with
    | nil => rfl
    | cons d ds ih =>
      unfold validSegTail at htail
      by_cases hd : isUpperCls d = true
      · rw [if_pos hd] at htail
        rw [List.dropWhile_cons_of_pos hd]
        exact ih htail
      · rw [if_neg hd] at htail
        simp only [Bool.and_eq_true] at htail
        rw [List.dropWhile_cons_of_neg (by simp [hd])]
        simp [htail.1, htail.2]

theorem validSeg_not_special_token {s : List Char} (h : validSegB s = true) :
    (s == ['*'] || s == [':'] || s == ['?']) = false := by
  cases hs : (s == ['*'] || s == [':'] || s == ['?'])
  · rfl
  · exfalso
    simp only [Bool.or_eq_true, beq_iff_eq] at hs
    rcases hs with (hs | hs) | hs <;> (subst hs; exact absurd h (by decide))

/-- On a valid segment the expander's per-segment alternatives are the
greedy stem, or the stem and the stem-plus-suffix when the suffix is
non-empty. -/
theorem segmentVariations_valid {s : List Char} (h : validSegB s = true) :
    segmentVariations s
      = if s.dropWhile isUpperCls = [] then [s.takeWhile isUpperCls]
        else [s.takeWhile isUpperCls, s.takeWhile isUpperCls ++ s.dropWhile isUpperCls] := by
  cases s with
  | nil => cases h
  | cons c cs =>
    have hvalid : validSegB (c :: cs) = true := h
    unfold validSegB at h
    simp only [Bool.and_eq_true] at h
    have hlow : ((c :: cs).dropWhile isUpperCls).all isLowerCls = true := dropWhile_lower hvalid
    have htake : ((c :: cs).dropWhile isUpperCls).takeWhile isLowerCls
        = (c :: cs).dropWhile isUpperCls := takeWhile_all_eq _ hlow
    unfold segmentVariations
    rw [if_neg (show ¬(((c :: cs) == ['*'] || (c :: cs) == [':'] || (c :: cs) == ['?']) = true) by
      simp only [validSeg_not_special_token hvalid]
      exact Bool.false_ne_true)]
    simp only [h.1, if_true, htake]
    by_cases hd : (c :: cs).dropWhile isUpperCls = []
    · rw [if_pos hd]
      simp [hd]
    · rw [if_neg hd]
      simp [hd]

/-- The two accepted spellings of a segment, uppercased, as the spec
describes them: the stem alone, or stem and stem-plus-suffix (a single
spelling when there is no suffix). -/
def specSpellings (seg : List Char) : List (List Char) :=
  if seg.dropWhile isUpperCls = [] then [upperList (seg.takeWhile isUpperCls)]
  else [upperList (seg.takeWhile isUpperCls),
    upperList (seg.takeWhile isUpperCls ++ seg.dropWhile isUpperCls)]

/-- All choice vectors of a list of per-segment alternative lists (the
Cartesian product, keeping each segment's choice separate). -/
def choiceVectors : List (List (List Char)) → List (List (List Char))
  | [] => [[]]
  | alts :: rest => alts.flatMap (fun a => (choiceVectors rest).map (fun v => a :: v))

/-- The spec's expander: choose one spelling per segment, hold the
literal tokens fixed, and concatenate (`render`) each combination. -/
def specExpand (star : Bool) (s0 : List Char) (segs : List (List Char)) (q : Bool) :
    List (List Char) :=
  (specSpellings s0).flatMap (fun a0 =>
    (choiceVectors (segs.map specSpellings)).map (fun v => render star a0 v q))

theorem listProd_singleton_cons (x : List Char) (rest : List (List (List Char))) :
    listProd ([x] :: rest) = (listProd rest).map (fun t => x ++ t) := by
  simp [listProd]

theorem choiceVectors_map (g : List Char → List Char) :
    ∀ alts : List (List (List Char)),
      choiceVectors (alts.map (fun alt => alt.map g))
        = (choiceVectors alts).map (fun v => v.map g) := by
  intro alts
  induction alts with
  | nil => rfl
  | cons a rest ih =>
    simp only [List.map_cons, choiceVectors, ih, List.flatMap_map, List.map_flatMap]
    congr 1
    funext x
    simp [List.map_map]

theorem upperList_append (a b : List Char) :
    upperList (a ++ b) = upperList a ++ upperList b := by
  simp [upperList]

theorem upperList_renderMore (v : List (List Char)) (q : Bool) :
    upperList (renderMore v q) = renderMore (v.map upperList) q := by
  induction v with
  | nil =>
    cases q <;> simp [renderMore, upperList]
  | cons a rest ih =>
    have h1 : renderMore (a :: rest) q = ':' :: (a ++ renderMore rest q) := by
      simp [renderMore]
    have h2 : renderMore (a.map Char.toUpper :: rest.map upperList) q
        = ':' :: (a.map Char.toUpper ++ renderMore (rest.map upperList) q) := by
      simp [renderMore]
    rw [h1, List.map_cons, show upperList a = a.map Char.toUpper from rfl, h2]
    show Char.toUpper ':' :: upperList (a ++ renderMore rest q) = _
    rw [upperList_append, ih]
    rfl

/-- The Cartesian product over the tokens after the head segment: one
colon-prefixed block per segment choice, with the query mark fixed. -/
theorem listProd_mid :
    ∀ (segs : List (List Char)) (q : Bool), (∀ s ∈ segs, validSegB s = true) →
      listProd ((segs.flatMap (fun s => [[':'], s])
          ++ (if q then [['?']] else [])).map segmentVariations)
        = (choiceVectors (segs.map segmentVariations)).map (fun v => renderMore v q) := by
  intro segs
  induction segs with
  | nil =>
    intro q _
    cases q with
    | false => rfl
    | true => rfl
  | cons s rest ih =>
    intro q hval
    have hs := hval s (by simp)
    simp only [List.flatMap_cons, List.cons_append, List.append_assoc, List.map_cons]
    rw [show segmentVariations [':'] = [[':']] from rfl]
    rw [listProd_singleton_cons]
    show ((segmentVariations s).flatMap (fun a =>
        (listProd ((rest.flatMap (fun s => [[':'], s])
          ++ (if q then [['?']] else [])).map segmentVariations)).map
            (fun tail => a ++ tail))).map (fun t => [':'] ++ t) = _
    rw [ih q (fun x hx => hval x (by simp [hx]))]
    simp only [choiceVectors, List.map_cons, List.map_flatMap, List.flatMap_map, List.map_map]
    congr 1
    funext a
    congr 1
    funext v
    show [':'] ++ (a ++ renderMore v q) = renderMore (a :: v) q
    simp [renderMore]

theorem spellings_upper {s : List Char} (h : validSegB s = true) :
    specSpellings s = (segmentVariations s).map upperList := by
  rw [segmentVariations_valid h]
  unfold specSpellings
  by_cases hd : s.dropWhile isUpperCls = []
  · rw [if_pos hd, if_pos hd]
    rfl
  · rw [if_neg hd, if_neg hd]
    rfl

theorem choiceVectors_spec {segs : List (List Char)} (h : ∀ s ∈ segs, validSegB s = true) :
    choiceVectors (segs.map specSpellings)
      = (choiceVectors (segs.map segmentVariations)).map (fun v => v.map upperList) := by
  rw [← choiceVectors_map]
  congr 1
  rw [List.map_map]
  exact List.map_congr_left (fun s hs => spellings_upper (h s hs))

/-- The expander on a rendered valid syntax equals the spec's
per-segment-choice expander. -/
theorem generateVariationsChars_render (star : Bool) (s0 : List Char)
    (segs : List (List Char)) (q : Bool)
    (h0 : validSegB s0 = true) (hsegs : ∀ s ∈ segs, validSegB s = true) :
    generateVariationsChars (render star s0 segs q) = specExpand star s0 segs q := by
  unfold generateVariationsChars
  rw [tokenize_render star s0 segs q h0 hsegs]
  unfold specExpand
  rw [spellings_upper h0, choiceVectors_spec hsegs]
  cases star with
  | false =>
    show (listProd (segmentVariations s0 ::
        (segs.flatMap (fun s => [[':'], s])
          ++ (if q then [['?']] else [])).map segmentVariations)).map upperList = _
    rw [show listProd (segmentVariations s0 ::
        (segs.flatMap (fun s => [[':'], s])
          ++ (if q then [['?']] else [])).map segmentVariations)
      = (segmentVariations s0).flatMap (fun a =>
          (listProd ((segs.flatMap (fun s => [[':'], s])
            ++ (if q then [['?']] else [])).map segmentVariations)).map
              (fun t => a ++ t)) from rfl]
    rw [listProd_mid segs q hsegs]
    simp only [List.map_flatMap, List.flatMap_map, List.map_map]
    congr 1
    funext a
    congr 1
    funext v
    show upperList (a ++ renderMore v q) = render false (upperList a) (v.map upperList) q
    rw [upperList_append, upperList_renderMore]
    simp [render]
  | true =>
    show (listProd ([['*']] :: segmentVariations s0 ::
        (segs.flatMap (fun s => [[':'], s])
          ++ (if q then [['?']] else [])).map segmentVariations)).map upperList = _
    rw [listProd_singleton_cons]
    rw [show listProd (segmentVariations s0 ::
        (segs.flatMap (fun s => [[':'], s])
          ++ (if q then [['?']] else [])).map segmentVariations)
      = (segmentVariations s0).flatMap (fun a =>
          (listProd ((segs.flatMap (fun s => [[':'], s])
            ++ (if q then [['?']] else [])).map segmentVariations)).map
              (fun t => a ++ t)) from rfl]
    rw [listProd_mid segs q hsegs]
    simp only [List.map_flatMap, List.flatMap_map, List.map_map]
    congr 1
    funext a
    congr 1
    funext v
    show upperList (['*'] ++ (a ++ renderMore v q))
      = render true (upperList a) (v.map upperList) q
    rw [upperList_append, upperList_append, upperList_renderMore]
    simp [render, upperList]

/-! ## No-duplicates: character-level facts -/

theorem charOfNat_toNat {k : Nat} (h : k < 55296) : (Char.ofNat k).toNat = k := by
  unfold Char.ofNat
  rw [dif_pos (Or.inl h)]
  rfl

theorem upperCls_toNat {c : Char} (h : isUpperCls c = true) :
    (65 ≤ c.toNat ∧ c.toNat ≤ 90) ∨ c.toNat = 95 ∨ (48 ≤ c.toNat ∧ c.toNat ≤ 57) := by
  unfold isUpperCls at h
  simp only [Bool.or_eq_true, beq_iff_eq] at h
  rcases h with (h | h) | h
  · unfold Char.isUpper at h
    simp only [Bool.and_eq_true, decide_eq_true_eq] at h
    exact Or.inl ⟨h.1, h.2⟩
  · subst h
    exact Or.inr (Or.inl rfl)
  · unfold Char.isDigit at h
    simp only [Bool.and_eq_true, decide_eq_true_eq] at h
    exact Or.inr (Or.inr ⟨h.1, h.2⟩)

theorem lowerCls_toNat {c : Char} (h : isLowerCls c = true) :
    (97 ≤ c.toNat ∧ c.toNat ≤ 122) ∨ c.toNat = 95 ∨ (48 ≤ c.toNat ∧ c.toNat ≤ 57) := by
  unfold isLowerCls at h
  simp only [Bool.or_eq_true, beq_iff_eq] at h
  rcases h with (h | h) | h
  · unfold Char.isLower at h
    simp only [Bool.and_eq_true, decide_eq_true_eq] at h
    exact Or.inl ⟨h.1, h.2⟩
  · subst h
    exact Or.inr (Or.inl rfl)
  · unfold Char.isDigit at h
    simp only [Bool.and_eq_true, decide_eq_true_eq] at h
    exact Or.inr (Or.inr ⟨h.1, h.2⟩)

/-- After uppercasing, a stem-class or suffix-class character is still
none of the literal tokens `*`, `:`, `?`. -/
theorem toUpper_not_special {c : Char}
    (h : isUpperCls c = true ∨ isLowerCls c = true) :
    isSpecialChar (Char.toUpper c) = false := by
  have hbounds : (65 ≤ (Char.toUpper c).toNat ∧ (Char.toUpper c).toNat ≤ 90)
      ∨ (Char.toUpper c).toNat = 95 ∨ (48 ≤ (Char.toUpper c).toNat ∧ (Char.toUpper c).toNat ≤ 57) := by
    by_cases hl : 97 ≤ c.toNat ∧ c.toNat ≤ 122
    · have hup : (Char.toUpper c).toNat = c.toNat - 32 := by
        unfold Char.toUpper
        rw [if_pos hl]
        exact charOfNat_toNat (by omega)
      rw [hup]
      left
      omega
    · have hup : Char.toUpper c = c := by
        unfold Char.toUpper
        rw [if_neg hl]
      rw [hup]
      rcases h with h | h
      · exact upperCls_toNat h
      · rcases lowerCls_toNat h with h2 | h2
        · exact absurd h2 hl
        · exact Or.inr h2
  cases hs : isSpecialChar (Char.toUpper c)
  · rfl
  · exfalso
    unfold isSpecialChar at hs
    simp only [Bool.or_eq_true, beq_iff_eq] at hs
    rcases hs with (hs | hs) | hs <;>
      (rw [hs] at hbounds; revert hbounds; decide)

/-- A "block": a non-empty run of non-special characters (any spelling
of any segment, after uppercasing). -/
def goodBlock (x : List Char) : Prop :=
  x ≠ [] ∧ x.all (fun c => !(isSpecialChar c)) = true

/-- The continuation after a block: empty, or starting with a literal
token. -/
def headSpecialOrNil : List Char → Prop
  | [] => True
  | c :: _ => isSpecialChar c = true

theorem block_eq : ∀ (a b r s : List Char),
    a.all (fun c => !(isSpecialChar c)) = true →
    b.all (fun c => !(isSpecialChar c)) = true →
    headSpecialOrNil r → headSpecialOrNil s →
    a ++ r = b ++ s → a = b ∧ r = s := by
  intro a
  induction a with
  | nil =>
    intro b r s _ hb hr _ heq
    cases b with
    | nil => exact ⟨rfl, heq⟩
    | cons d b2 =>
      exfalso
      simp only [List.nil_append] at heq
      subst heq
      simp only [List.all_cons, Bool.and_eq_true, Bool.not_eq_true'] at hb
      have hd : isSpecialChar d = true := hr
      rw [hb.1] at hd
      cases hd
  | cons c a2 ih =>
    intro b r s ha hb hr hs heq
    cases b with
    | nil =>
      exfalso
      simp only [List.nil_append] at heq
      rw [← heq] at hs
      simp only [List.all_cons, Bool.and_eq_true, Bool.not_eq_true'] at ha
      have hc : isSpecialChar c = true := hs
      rw [ha.1] at hc
      cases hc
    | cons d b2 =>
      simp only [List.cons_append, List.cons.injEq] at heq
      simp only [List.all_cons, Bool.and_eq_true] at ha hb
      obtain ⟨h1, h2⟩ := ih b2 r s ha.2 hb.2 hr hs heq.2
      exact ⟨by rw [heq.1, h1], h2⟩

theorem headSpecialOrNil_renderMore (v : List (List Char)) (q : Bool) :
    headSpecialOrNil (renderMore v q) := by
  cases v with
  | nil =>
    cases q with
    | false => trivial
    | true =>
      show isSpecialChar '?' = true
      decide
  | cons x rest =>
    show headSpecialOrNil (renderMore (x :: rest) q)
    rw [show renderMore (x :: rest) q = ':' :: (x ++ renderMore rest q) from by simp [renderMore]]
    show isSpecialChar ':' = true
    decide

theorem renderMore_inj (q : Bool) : ∀ (v w : List (List Char)),
    (∀ x ∈ v, goodBlock x) → (∀ x ∈ w, goodBlock x) → v.length = w.length →
    renderMore v q = renderMore w q → v = w := by
  intro v
  induction v with
  | nil =>
    intro w _ _ hlen _
    cases w with
    | nil => rfl
    | cons y w2 => cases hlen
  | cons x v2 ih =>
    intro w hv hw hlen heq
    cases w with
    | nil => cases hlen
    | cons y w2 =>
      rw [show renderMore (x :: v2) q = ':' :: (x ++ renderMore v2 q) from by simp [renderMore],
        show renderMore (y :: w2) q = ':' :: (y ++ renderMore w2 q) from by simp [renderMore]] at heq
      simp only [List.cons.injEq, true_and] at heq
      have hx := hv x (by simp)
      have hy := hw y (by simp)
      obtain ⟨hxy, hrest⟩ := block_eq x y _ _ hx.2 hy.2
        (headSpecialOrNil_renderMore v2 q) (headSpecialOrNil_renderMore w2 q) heq
      have := ih w2 (fun z hz => hv z (by simp [hz])) (fun z hz => hw z (by simp [hz]))
        (by simpa using hlen) hrest
      rw [hxy, this]

theorem render_inj (star : Bool) (q : Bool) (a0 b0 : List Char) (v w : List (List Char))
    (ha : goodBlock a0) (hb : goodBlock b0)
    (hv : ∀ x ∈ v, goodBlock x) (hw : ∀ x ∈ w, goodBlock x)
    (hlen : v.length = w.length)
    (heq : render star a0 v q = render star b0 w q) : a0 = b0 ∧ v = w := by
  unfold render at heq
  have heq2 : a0 ++ renderMore v q = b0 ++ renderMore w q := by
    cases star with
    | false => simpa using heq
    | true =>
      simp only [if_true, List.append_assoc] at heq
      exact List.append_cancel_left heq
  obtain ⟨h1, h2⟩ := block_eq a0 b0 _ _ ha.2 hb.2
    (headSpecialOrNil_renderMore v q) (headSpecialOrNil_renderMore w q) heq2
  exact ⟨h1, renderMore_inj q v w hv hw hlen h2⟩

theorem specSpellings_good {s : List Char} (h : validSegB s = true) :
    ∀ x ∈ specSpellings s, goodBlock x := by
  intro x hx
  have hne : s.takeWhile isUpperCls ≠ [] := by
    cases s with
    | nil => cases h
    | cons c cs =>
      unfold validSegB at h
      simp only [Bool.and_eq_true] at h
      rw [List.takeWhile_cons_of_pos h.1]
      simp
  have hupper : ∀ c ∈ s.takeWhile isUpperCls, isUpperCls c = true :=
    fun c hc => List.mem_takeWhile_imp hc
  have hlower : ∀ c ∈ s.dropWhile isUpperCls, isLowerCls c = true := by
    have h2 := dropWhile_lower h
    rw [List.all_eq_true] at h2
    intro c hc
    simpa using h2 c hc
  have hstemgood : goodBlock (upperList (s.takeWhile isUpperCls)) := by
    constructor
    · simpa [upperList] using hne
    · rw [List.all_eq_true]
      intro y hy
      rcases List.mem_map.mp hy with ⟨c, hc, hcy⟩
      rw [← hcy]
      simp [toUpper_not_special (Or.inl (hupper c hc))]
  unfold specSpellings at hx
  by_cases hd : s.dropWhile isUpperCls = []
  · rw [if_pos hd] at hx
    simp only [List.mem_singleton] at hx
    subst hx
    exact hstemgood
  · rw [if_neg hd] at hx
    simp at hx
    rcases hx with hx | hx
    · subst hx
      exact hstemgood
    · subst hx
      constructor
      · cases s with
        | nil => cases h
        | cons c cs => simp [upperList]
      · rw [List.all_eq_true]
        intro y hy
        rcases List.mem_map.mp hy with ⟨c, hc, hcy⟩
        rw [← hcy]
        have hcls : isUpperCls c = true ∨ isLowerCls c = true := by
          cases s with
          | nil => cases h
          | cons c0 cs =>
            unfold validSegB at h
            simp only [Bool.and_eq_true] at h
            rcases List.mem_cons.mp hc with hc2 | hc2
            · subst hc2
              exact Or.inl h.1
            · have h4 := validSegTail_all h.2
              rw [List.all_eq_true] at h4
              simpa using h4 c hc2
        simp [toUpper_not_special hcls]

theorem specSpellings_nodup {s : List Char} (h : validSegB s = true) :
    (specSpellings s).Nodup := by
  unfold specSpellings
  by_cases hd : s.dropWhile isUpperCls = []
  · rw [if_pos hd]
    simp
  · rw [if_neg hd]
    have hlen : (upperList (s.takeWhile isUpperCls)).length
        < (upperList (s.takeWhile isUpperCls ++ s.dropWhile isUpperCls)).length := by
      simp only [upperList, List.length_map, List.length_append]
      have hdl : (s.dropWhile isUpperCls).length ≠ 0 := by
        intro hzero
        exact hd (List.length_eq_zero.mp hzero)
      omega
    simp only [List.nodup_cons, List.mem_singleton, List.not_mem_nil,
      List.nodup_nil, and_true, not_false_eq_true]
    intro heq
    rw [heq] at hlen
    exact Nat.lt_irrefl _ hlen

theorem mem_choiceVectors : ∀ (alts : List (List (List Char))) (v : List (List Char)),
    v ∈ choiceVectors alts ↔ List.Forall₂ (fun x alt => x ∈ alt) v alts := by
  intro alts
  induction alts with
  | nil =>
    intro v
    simp only [choiceVectors, List.mem_singleton, List.forall₂_nil_right_iff]
  | cons alt rest ih =>
    intro v
    simp only [choiceVectors, List.mem_flatMap, List.mem_map, List.forall₂_cons_right_iff]
    constructor
    · rintro ⟨a, ha, t, ht, rfl⟩
      exact ⟨a, t, ha, (ih t).mp ht, rfl⟩
    · rintro ⟨a, t, ha, ht, rfl⟩
      exact ⟨a, ha, t, (ih t).mpr ht, rfl⟩

theorem forall₂_mem_left {R : List Char → List (List Char) → Prop}
    {v : List (List Char)} {l : List (List (List Char))}
    (h : List.Forall₂ R v l) {x : List Char} (hx : x ∈ v) : ∃ y ∈ l, R x y := by
  induction h with
  | nil => cases hx
  | cons hr _ ih =>
    rcases List.mem_cons.mp hx with hx | hx
    · subst hx
      exact ⟨_, by simp, hr⟩
    · rcases ih hx with ⟨y, hy, hr2⟩
      exact ⟨y, by simp [hy], hr2⟩

theorem choiceVectors_nodup : ∀ alts : List (List (List Char)),
    (∀ alt ∈ alts, alt.Nodup) → (choiceVectors alts).Nodup := by
  intro alts
  induction alts with
  | nil => intro _; simp [choiceVectors]
  | cons alt rest ih =>
    intro h
    show (alt.flatMap (fun a => (choiceVectors rest).map (fun v => a :: v))).Nodup
    rw [List.nodup_flatMap]
    constructor
    · intro a _
      apply List.Nodup.map
      · intro x y hxy
        simpa using hxy
      · exact ih (fun z hz => h z (by simp [hz]))
    · have halt : alt.Nodup := h alt (by simp)
      refine List.Pairwise.imp_of_mem ?_ halt
      intro a b _ _ hne
      intro y hy1 hy2
      rcases List.mem_map.mp hy1 with ⟨v1, _, hv1⟩
      rcases List.mem_map.mp hy2 with ⟨v2, _, hv2⟩
      rw [← hv2] at hv1
      simp only [List.cons.injEq] at hv1
      exact hne hv1.1

theorem specExpand_nodup (star : Bool) (s0 : List Char) (segs : List (List Char)) (q : Bool)
    (h0 : validSegB s0 = true) (hsegs : ∀ s ∈ segs, validSegB s = true) :
    (specExpand star s0 segs q).Nodup := by
  have hmemgood : ∀ v ∈ choiceVectors (segs.map specSpellings),
      (∀ x ∈ v, goodBlock x) ∧ v.length = segs.length := by
    intro v hv
    have h2 := (mem_choiceVectors _ v).mp hv
    constructor
    · intro x hx
      rcases forall₂_mem_left h2 hx with ⟨alt, halt, hxalt⟩
      rcases List.mem_map.mp halt with ⟨s, hs, hsalt⟩
      exact specSpellings_good (hsegs s hs) x (hsalt ▸ hxalt)
    · have h3 := List.Forall₂.length_eq h2
      simpa using h3
  unfold specExpand
  rw [List.nodup_flatMap]
  constructor
  · intro a0 ha0
    apply List.Nodup.map_on
    · intro v1 hv1 v2 hv2 heq
      have hg1 := hmemgood v1 hv1
      have hg2 := hmemgood v2 hv2
      exact (render_inj star q a0 a0 v1 v2 (specSpellings_good h0 a0 ha0)
        (specSpellings_good h0 a0 ha0) hg1.1 hg2.1 (hg1.2.trans hg2.2.symm) heq).2
    · refine choiceVectors_nodup _ ?_
      intro alt halt
      rcases List.mem_map.mp halt with ⟨s, hs, hsalt⟩
      exact hsalt ▸ specSpellings_nodup (hsegs s hs)
  · have hnd := specSpellings_nodup h0
    refine List.Pairwise.imp_of_mem ?_ hnd
    intro a b ha hb hne
    intro y hy1 hy2
    rcases List.mem_map.mp hy1 with ⟨v1, hv1, hy1e⟩
    rcases List.mem_map.mp hy2 with ⟨v2, hv2, hy2e⟩
    have heq : render star b v2 q = render star a v1 q := by rw [hy2e, ← hy1e]
    have hg1 := hmemgood v1 hv1
    have hg2 := hmemgood v2 hv2
    exact hne (render_inj star q b a v2 v1 (specSpellings_good h0 b hb)
      (specSpellings_good h0 a ha) hg2.1 hg1.1 (hg2.2.trans hg1.2.symm) heq).1.symm

theorem generateCommandVariations_nodup {str : String} (h : syntaxOK str = true) :
    (generateCommandVariations str).Nodup := by
  obtain ⟨star, s0, segs, q, h0, hsegs, hdata⟩ := syntaxOK_decompose h
  unfold generateCommandVariations
  apply List.Nodup.map
  · intro a b hab
    exact congrArg String.data hab
  · rw [hdata, generateVariationsChars_render star s0 segs q h0 hsegs]
    exact specExpand_nodup star s0 segs q h0 hsegs

/-- C4: every string accepted by the syntax validator decomposes into an
optional star, a head segment, colon-prefixed segments and an optional
query mark, and on it the expander yields exactly the spec's Cartesian
product of per-segment spellings (stem, or stem plus lowercase suffix)
uppercased with the literal tokens held fixed, without duplicates; in
particular "LED:STATe?" expands to exactly ["LED:STAT?", "LED:STATE?"],
both resolve in the built trie to command index 0, and "LED:STATX?"
reaches no terminal. -/
theorem c4_expander (str : String) (h : syntaxOK str = true) :
    (∃ star s0 segs q, validSegB s0 = true ∧ (∀ s ∈ segs, validSegB s = true)
        ∧ str.data = render star s0 segs q
        ∧ generateVariationsChars str.data = specExpand star s0 segs q)
    ∧ (generateCommandVariations str).Nodup
    ∧ generateCommandVariations "LED:STATe?" = ["LED:STAT?", "LED:STATE?"]
    ∧ lookupCmd (buildTrieT [ledCmd]) "LED:STAT?" = some 0
    ∧ lookupCmd (buildTrieT [ledCmd]) "LED:STATE?" = some 0
    ∧ lookupCmd (buildTrieT [ledCmd]) "LED:STATX?" = none := by
  refine ⟨?_, generateCommandVariations_nodup h, by decide, by decide, by decide, by decide⟩
  obtain ⟨star, s0, segs, q, h0, hsegs, hdata⟩ := syntaxOK_decompose h
  exact ⟨star, s0, segs, q, h0, hsegs, hdata,
    by rw [hdata]; exact generateVariationsChars_render star s0 segs q h0 hsegs⟩

theorem c4_expander_witness :
    syntaxOK "LED:STATe?" = true ∧ (generateCommandVariations "LED:STATe?").Nodup :=
  ⟨by decide, (c4_expander "LED:STATe?" (by decide)).2.1⟩

/-! ## Claim C9: the emitted C++ trie structure

`_collect_node_definitions` renders a node by first recursing through its
children in ascending character order (`sorted(node.children.values(),
key=lambda n: n.character)`), collecting every descendant's children
array into a shared list, then appending this node's own children array
and returning this node's rendered entry.  Since the recursion into each
child is independent of its siblings, recursing in stored order and then
sorting the tagged per-child results by the same key yields the same
entries and the same definition order; that reformulation keeps the
recursion structural. -/

/-- The nodes of a child list, in stored order. -/
def ChildList.toList : ChildList → List SCPITrieNode
  | .nil => []
  | .cons n rest => n :: rest.toList

/-- Stable insertion of a node into a child list already sorted by
character. -/
def sortedInsertCL (n : SCPITrieNode) : ChildList → ChildList
  | .nil => .cons n .nil
  | .cons m rest =>
    if n.character ≤ m.character then .cons n (.cons m rest)
    else .cons m (sortedInsertCL n rest)

/-- Stable sort of a child list by character
(`sorted(node.children.values(), key=lambda n: n.character)`). -/
def sortCL : ChildList → ChildList
  | .nil => .nil
  | .cons n rest => sortedInsertCL n (sortCL rest)

mutual
/-- The canonical form of a trie: every node's children sorted by
character, recursively.  Two tries carry the same dictionary content
exactly when their canonical forms coincide. -/
def canonT : SCPITrieNode → SCPITrieNode
  | .mk c t i cs => .mk c t i (sortCL (canonL cs))

/-- `canonT` applied to every node of a child list. -/
def canonL : ChildList → ChildList
  | .nil => .nil
  | .cons n rest => .cons (canonT n) (canonL rest)
end

/-- A single-quote character, by code point (the emitter quotes C
character literals with it). -/
def squote : String := String.mk [Char.ofNat 39]

/-- A backslash character, by code point. -/
def bslash : String := String.mk [Char.ofNat 92]

/-- The C character literal emitted for a node's character: NUL (the
root; its Python character is the empty string) prints escaped, as do a
quote and a backslash; every other character prints verbatim. -/
def charLiteral (c : Char) : String :=
  if c = Char.ofNat 0 then squote ++ bslash ++ "0" ++ squote
  else if c = Char.ofNat 39 then squote ++ bslash ++ squote ++ squote
  else if c = Char.ofNat 92 then squote ++ bslash ++ bslash ++ squote
  else squote ++ String.mk [c] ++ squote

/-- One path character of `_generate_node_name`: alphanumerics kept,
`*`, `:` and `?` mapped to named markers, anything else to an `_ord`
escape. -/
def safePathChar (c : Char) : String :=
  if c.isAlphanum then String.mk [c]
  else if c = '*' then "_star"
  else if c = ':' then "_colon"
  else if c = '?' then "_question"
  else "_" ++ toString c.toNat

/-- `_generate_node_name`: the root (empty path) is `_root`, any other
node is named after its path from the root. -/
def generateNodeName (path : List Char) : String :=
  if path.isEmpty then "_root"
  else "_node_" ++ String.join (path.map safePathChar)

/-- Split a rendered child entry at the first `" // "`, if present
(`child_name.split(" // ", 1)` in the source). -/
def splitSep : List Char → Option (List Char × List Char)
  | [] => none
  | c :: rest =>
    if (c :: rest).take 4 = [' ', '/', '/', ' '] then some ([], (c :: rest).drop 4)
    else
      match splitSep rest with
      | some (a, b) => some (c :: a, b)
      | none => none

/-- One row of a children array: the entry, a comma unless it is the
last row, and any terminal comment moved after the comma. -/
def childRow (isLast : Bool) (name : String) : String :=
  match splitSep name.data with
  | some (np, cp) =>
    "        " ++ String.mk np ++ (if isLast then "" else ",") ++ " // " ++ String.mk cp ++ "\n"
  | none => "        " ++ name ++ (if isLast then "" else ",") ++ "\n"

/-- All rows of a children array. -/
def childRows : List String → String
  | [] => ""
  | [n] => childRow true n
  | n :: rest => childRow false n ++ childRows rest

/-- The children-array definition emitted for a node with children. -/
def childrenArrayDef (arrName : String) (names : List String) : String :=
  "    const TrieNode " ++ arrName ++ "[] = \x7b\n" ++ childRows names ++ "    \x7d;"

/-- `self.commands[idx].syntax`, for the terminal comment.  Python
raises `IndexError` when the stored index is out of range of the command
list; the total model returns `""` there.  Every concrete instantiation
below keeps all stored terminal indices within range, so the emitted
strings agree with the source. -/
def commandSyntaxAt (cmds : List SCPIDefinitionCommand) (i : Nat) : String :=
  match cmds.get? i with
  | some c => c.syntaxStr
  | none => ""

/-- Insertion of one tagged per-child emission result into a list
ordered by the child's character. -/
def sortedInsertTag (x : Char × String × List String) :
    List (Char × String × List String) → List (Char × String × List String)
  | [] => [x]
  | y :: rest => if x.1 ≤ y.1 then x :: y :: rest else y :: sortedInsertTag x rest

/-- Sort the tagged per-child emission results by character (the
`sorted` call of the emitter, applied to the independent per-child
results). -/
def sortTags (l : List (Char × String × List String)) : List (Char × String × List String) :=
  l.foldr sortedInsertTag []

/-- The straight-line tail of `_collect_node_definitions`, applied to
the sorted per-child results: build the children array (when there are
children), then this node's own entry with character literal, flags,
child count, children reference, command index and terminal comment.
Returns the node's rendered entry together with the collected array
definitions, the children's arrays first and this node's own array last
(the append order of the Python `definitions` list). -/
def nodeAssemble (cmds : List SCPIDefinitionCommand) (ch : Char) (term : Bool)
    (ci : Option Nat) (path : List Char)
    (recs : List (Char × String × List String)) : String × List String :=
  let childNames := recs.map (fun r => r.2.1)
  let childDefs := (recs.map (fun r => r.2.2)).flatten
  let refAndDefs :=
    if childNames.isEmpty then ("nullptr", childDefs)
    else
      let arrName := generateNodeName path ++ "_children"
      (arrName, childDefs ++ [childrenArrayDef arrName childNames])
  let flagsStr := if term then "uint8_t(TrieNodeFlags::Terminal)" else "0"
  let nodeDef0 := "\x7b " ++ charLiteral ch ++ ", " ++ flagsStr ++ ", "
      ++ toString childNames.length ++ ", " ++ refAndDefs.1 ++ ", "
      ++ toString (ci.getD 0) ++ " \x7d"
  let nodeDef :=
    if term && ci.isSome then nodeDef0 ++ " // Terminal: " ++ commandSyntaxAt cmds (ci.getD 0)
    else nodeDef0
  (nodeDef, refAndDefs.2)

mutual
/-- `_collect_node_definitions` on a node: render the children in
ascending character order, then assemble this node's entry and the
collected definitions. -/
def collectNodeDefs (cmds : List SCPIDefinitionCommand) :
    SCPITrieNode → List Char → String × List String
  | .mk ch term ci cs, path =>
    nodeAssemble cmds ch term ci path (sortTags (collectChildDefs cmds cs path))

/-- The per-child emission results, tagged by each child's character, in
stored order; each child's path extends the node's path by the child's
own character. -/
def collectChildDefs (cmds : List SCPIDefinitionCommand) :
    ChildList → List Char → List (Char × String × List String)
  | .nil, _ => []
  | .cons n rest, path =>
    (n.character, collectNodeDefs cmds n (path ++ [n.character]))
      :: collectChildDefs cmds rest path
end

/-- `_generate_trie_structure`: the header comment, every collected node
definition on its own line, then the templated root entry. -/
def generateTrieStructure (cmds : List SCPIDefinitionCommand)
    (namespaceStr className : String) (root : SCPITrieNode) : String :=
  let r := collectNodeDefs cmds root []
  "    // Trie structure\n"
    ++ String.join (r.2.map (fun d => d ++ "\n"))
    ++ "    template<>\n"
    ++ "    const TrieNode T76::SCPI::Interpreter<" ++ namespaceStr ++ "::" ++ className
    ++ ">::_trie = " ++ r.1 ++ ";\n"
    ++ "\n"

theorem ChildList.toList_inj : ∀ (cl₁ : ChildList) {cl₂ : ChildList},
    cl₁.toList = cl₂.toList → cl₁ = cl₂ := by
  intro cl₁
  induction cl₁ using ChildList.recSimple with
  | nil =>
    intro cl₂ h
    cases cl₂ with
    | nil => rfl
    | cons m rest => cases h
  | cons m rest ih =>
    intro cl₂ h
    cases cl₂ with
    | nil => cases h
    | cons m2 rest2 =>
      simp only [ChildList.toList, List.cons.injEq] at h
      rw [h.1, ih h.2]

theorem ChildList.toList_append (cl : ChildList) (n : SCPITrieNode) :
    (cl.append n).toList = cl.toList ++ [n] := by
  induction cl using ChildList.recSimple with
  | nil => rfl
  | cons m rest ih => simp [ChildList.append, ChildList.toList, ih]

theorem canonT_character (n : SCPITrieNode) : (canonT n).character = n.character := by
  cases n
  rfl

theorem canonL_toList (cl : ChildList) : (canonL cl).toList = cl.toList.map canonT := by
  induction cl using ChildList.recSimple with
  | nil => rfl
  | cons m rest ih => simp [canonL, ChildList.toList, ih]

theorem canonL_replace (cl : ChildList) (d : Char) (X : SCPITrieNode) :
    canonL (cl.replace d X) = (canonL cl).replace d (canonT X) := by
  induction cl using ChildList.recSimple with
  | nil => rfl
  | cons m rest ih =>
    by_cases hm : m.character == d
    · have hm2 : (canonT m).character == d := by rw [canonT_character]; exact hm
      simp [ChildList.replace, canonL, hm, hm2]
    · have hm2 : ¬((canonT m).character == d) := by rw [canonT_character]; exact hm
      simp [ChildList.replace, canonL, hm, hm2, ih]

theorem canonL_append (cl : ChildList) (X : SCPITrieNode) :
    canonL (cl.append X) = (canonL cl).append (canonT X) := by
  induction cl using ChildList.recSimple with
  | nil => rfl
  | cons m rest ih => simp [ChildList.append, canonL, ih]

theorem lookup_canonL (cl : ChildList) (d : Char) :
    (canonL cl).lookup d = Option.map canonT (cl.lookup d) := by
  induction cl using ChildList.recSimple with
  | nil => rfl
  | cons m rest ih =>
    by_cases hm : m.character == d
    · have hm2 : (canonT m).character == d := by rw [canonT_character]; exact hm
      simp [ChildList.lookup, canonL, hm, hm2]
    · have hm2 : ¬((canonT m).character == d) := by rw [canonT_character]; exact hm
      simp [ChildList.lookup, canonL, hm, hm2, ih]

theorem ChildList.lookup_none_iff (cl : ChildList) (c : Char) :
    cl.lookup c = none ↔ c ∉ cl.toList.map SCPITrieNode.character := by
  induction cl using ChildList.recSimple with
  | nil => simp [ChildList.lookup, ChildList.toList]
  | cons m rest ih =>
    by_cases hm : m.character == c
    · simp only [beq_iff_eq] at hm
      simp [ChildList.lookup, ChildList.toList, hm]
    · simp only [beq_iff_eq] at hm
      have hm2 : (m.character == c) = false := by simp [hm]
      simp only [ChildList.lookup, hm2, Bool.false_eq_true, if_false, ChildList.toList,
        List.map_cons, List.mem_cons, not_or, ih]
      constructor
      · intro h
        exact ⟨fun hh => hm hh.symm, h⟩
      · intro h
        exact h.2

theorem keysNodup_iff (cl : ChildList) :
    keysNodup cl = true ↔ (cl.toList.map SCPITrieNode.character).Nodup := by
  induction cl using ChildList.recSimple with
  | nil => simp [keysNodup, ChildList.toList]
  | cons m rest ih =>
    simp only [keysNodup, Bool.and_eq_true, Bool.not_eq_true', ChildList.toList, List.map_cons,
      List.nodup_cons, ih]
    constructor
    · intro h
      refine ⟨?_, h.2⟩
      have : rest.lookup m.character = none := by
        unfold ChildList.containsChar at h
        cases hl : rest.lookup m.character with
        | none => rfl
        | some x => rw [hl] at h; cases h.1
      exact (ChildList.lookup_none_iff rest m.character).mp this
    · intro h
      refine ⟨?_, h.2⟩
      have : rest.lookup m.character = none :=
        (ChildList.lookup_none_iff rest m.character).mpr h.1
      unfold ChildList.containsChar
      rw [this]
      rfl

theorem ChildList.lookup_mem {cl : ChildList} {c : Char} {n : SCPITrieNode}
    (h : cl.lookup c = some n) : n ∈ cl.toList := by
  induction cl using ChildList.recSimple with
  | nil => cases h
  | cons m rest ih =>
    by_cases hm : m.character == c
    · simp [ChildList.lookup, hm] at h
      simp [ChildList.toList, h]
    · simp only [ChildList.lookup, hm, Bool.false_eq_true, if_false] at h
      simp [ChildList.toList, ih h]

theorem ChildList.lookup_of_mem {cl : ChildList} {n : SCPITrieNode}
    (hk : keysNodup cl = true) (h : n ∈ cl.toList) : cl.lookup n.character = some n := by
  induction cl using ChildList.recSimple with
  | nil => cases h
  | cons m rest ih =>
    simp only [keysNodup, Bool.and_eq_true, Bool.not_eq_true'] at hk
    rcases List.mem_cons.mp h with h | h
    · subst h
      simp [ChildList.lookup]
    · by_cases hm : m.character == n.character
      · exfalso
        have hmem : m.character ∈ rest.toList.map SCPITrieNode.character := by
          simp only [beq_iff_eq] at hm
          rw [hm]
          exact List.mem_map_of_mem _ h
        have hnone : rest.lookup m.character = none := by
          unfold ChildList.containsChar at hk
          cases hl : rest.lookup m.character with
          | none => rfl
          | some x => rw [hl] at hk; cases hk.1
        exact (ChildList.lookup_none_iff rest m.character).mp hnone hmem
      · simp only [ChildList.lookup, hm, Bool.false_eq_true, if_false]
        exact ih hk.2 h

theorem ChildList.replace_toList_split {cl : ChildList} {d : Char} {n : SCPITrieNode}
    (h : cl.lookup d = some n) (Y : SCPITrieNode) :
    ∃ u w, cl.toList = u ++ n :: w ∧ (cl.replace d Y).toList = u ++ Y :: w := by
  induction cl using ChildList.recSimple with
  | nil => cases h
  | cons m rest ih =>
    by_cases hm : m.character == d
    · simp only [ChildList.lookup, hm, if_true, Option.some.injEq] at h
      subst h
      exact ⟨[], rest.toList, rfl, by simp [ChildList.replace, hm, ChildList.toList]⟩
    · simp only [ChildList.lookup, hm, Bool.false_eq_true, if_false] at h
      obtain ⟨u, w, h1, h2⟩ := ih h
      refine ⟨m :: u, w, by simp [ChildList.toList, h1], ?_⟩
      simp [ChildList.replace, hm, ChildList.toList, h2]

theorem perm_replace_mid {α : Type} {u₁ w₁ u₂ w₂ : List α} (a b : α)
    (h : (u₁ ++ a :: w₁).Perm (u₂ ++ a :: w₂)) :
    (u₁ ++ b :: w₁).Perm (u₂ ++ b :: w₂) := by
  have h1 : (a :: (u₁ ++ w₁)).Perm (a :: (u₂ ++ w₂)) :=
    (List.perm_middle.symm.trans h).trans List.perm_middle
  have h2 := h1.cons_inv
  exact List.perm_middle.trans ((h2.cons b).trans List.perm_middle.symm)

theorem sortedInsertCL_toList_perm (n : SCPITrieNode) (cl : ChildList) :
    (sortedInsertCL n cl).toList.Perm (n :: cl.toList) := by
  induction cl using ChildList.recSimple with
  | nil => exact List.Perm.refl _
  | cons m rest ih =>
    by_cases hle : n.character ≤ m.character
    · simp only [sortedInsertCL, hle, if_true]
      exact List.Perm.refl _
    · simp only [sortedInsertCL, hle, if_false]
      show (m :: (sortedInsertCL n rest).toList).Perm (n :: m :: rest.toList)
      exact (ih.cons m).trans (List.Perm.swap n m rest.toList)

theorem sortCL_toList_perm (cl : ChildList) : (sortCL cl).toList.Perm cl.toList := by
  induction cl using ChildList.recSimple with
  | nil => exact List.Perm.refl _
  | cons m rest ih =>
    exact (sortedInsertCL_toList_perm m (sortCL rest)).trans (ih.cons m)

theorem sortedInsertCL_sorted {cl : ChildList} (n : SCPITrieNode)
    (h : cl.toList.Pairwise (fun a b => a.character ≤ b.character)) :
    (sortedInsertCL n cl).toList.Pairwise (fun a b => a.character ≤ b.character) := by
  induction cl using ChildList.recSimple with
  | nil => simp [sortedInsertCL, ChildList.toList]
  | cons m rest ih =>
    have h2 : (∀ x ∈ rest.toList, m.character ≤ x.character)
        ∧ rest.toList.Pairwise (fun a b => a.character ≤ b.character) := by
      have := h
      rw [show (ChildList.cons m rest).toList = m :: rest.toList from rfl,
        List.pairwise_cons] at this
      exact this
    by_cases hle : n.character ≤ m.character
    · simp only [sortedInsertCL, hle, if_true]
      show ((n :: m :: rest.toList) : List SCPITrieNode).Pairwise _
      refine List.pairwise_cons.mpr ⟨?_, h⟩
      intro x hx
      rcases List.mem_cons.mp hx with hx | hx
      · rw [hx]
        exact hle
      · exact le_trans hle (h2.1 x hx)
    · have hlt : m.character ≤ n.character := le_of_not_le hle
      simp only [sortedInsertCL, hle, if_false]
      show ((m :: (sortedInsertCL n rest).toList) : List SCPITrieNode).Pairwise _
      refine List.pairwise_cons.mpr ⟨?_, ih h2.2⟩
      intro x hx
      rcases List.mem_cons.mp ((sortedInsertCL_toList_perm n rest).mem_iff.mp hx) with hx | hx
      · rw [hx]
        exact hlt
      · exact h2.1 x hx

theorem sortCL_sorted (cl : ChildList) :
    (sortCL cl).toList.Pairwise (fun a b => a.character ≤ b.character) := by
  induction cl using ChildList.recSimple with
  | nil => simp [sortCL, ChildList.toList]
  | cons m rest ih => exact sortedInsertCL_sorted m ih

theorem sortCL_eq_of_perm {cl₁ cl₂ : ChildList}
    (hp : cl₁.toList.Perm cl₂.toList)
    (hn : (cl₁.toList.map SCPITrieNode.character).Nodup) :
    sortCL cl₁ = sortCL cl₂ := by
  have hperm : (sortCL cl₁).toList.Perm (sortCL cl₂).toList :=
    ((sortCL_toList_perm cl₁).trans hp).trans (sortCL_toList_perm cl₂).symm
  have hchars : ∀ cl : ChildList, (cl.toList.map SCPITrieNode.character).Nodup →
      (sortCL cl).toList.Pairwise (fun a b => a.character < b.character) := by
    intro cl hcl
    have h1 := sortCL_sorted cl
    have h2 : ((sortCL cl).toList.map SCPITrieNode.character).Nodup :=
      (((sortCL_toList_perm cl).map SCPITrieNode.character).nodup_iff).mpr hcl
    rw [List.Nodup, List.pairwise_map] at h2
    refine (h1.and h2).imp ?_
    intro a b hab
    exact lt_of_le_of_ne hab.1 hab.2
  have hs₁ := hchars cl₁ hn
  have hs₂ := hchars cl₂ ((hp.map SCPITrieNode.character).nodup_iff.mp hn)
  haveI : IsAntisymm SCPITrieNode (fun a b => a.character < b.character) :=
    ⟨fun a b h1 h2 => absurd (lt_trans h1 h2) (lt_irrefl _)⟩
  exact ChildList.toList_inj _ (List.eq_of_perm_of_sorted hperm hs₁ hs₂)

theorem sortedInsertTag_perm (x : Char × String × List String)
    (l : List (Char × String × List String)) :
    (sortedInsertTag x l).Perm (x :: l) := by
  induction l with
  | nil => exact List.Perm.refl _
  | cons y rest ih =>
    by_cases hle : x.1 ≤ y.1
    · simp only [sortedInsertTag, hle, if_true]
      exact List.Perm.refl _
    · simp only [sortedInsertTag, hle, if_false]
      exact (ih.cons y).trans (List.Perm.swap x y rest)

theorem sortTags_perm (l : List (Char × String × List String)) : (sortTags l).Perm l := by
  induction l with
  | nil => exact List.Perm.refl _
  | cons x rest ih =>
    exact (sortedInsertTag_perm x (sortTags rest)).trans (ih.cons x)

theorem sortedInsertTag_sorted {l : List (Char × String × List String)}
    (x : Char × String × List String)
    (h : l.Pairwise (fun a b => a.1 ≤ b.1)) :
    (sortedInsertTag x l).Pairwise (fun a b => a.1 ≤ b.1) := by
  induction l with
  | nil => simp [sortedInsertTag]
  | cons y rest ih =>
    have h2 := List.pairwise_cons.mp h
    by_cases hle : x.1 ≤ y.1
    · simp only [sortedInsertTag, hle, if_true]
      refine List.pairwise_cons.mpr ⟨?_, h⟩
      intro z hz
      rcases List.mem_cons.mp hz with hz | hz
      · rw [hz]
        exact hle
      · exact le_trans hle (h2.1 z hz)
    · have hlt : y.1 ≤ x.1 := le_of_not_le hle
      simp only [sortedInsertTag, hle, if_false]
      refine List.pairwise_cons.mpr ⟨?_, ih h2.2⟩
      intro z hz
      rcases List.mem_cons.mp ((sortedInsertTag_perm x rest).mem_iff.mp hz) with hz | hz
      · rw [hz]
        exact hlt
      · exact h2.1 z hz

theorem sortTags_sorted (l : List (Char × String × List String)) :
    (sortTags l).Pairwise (fun a b => a.1 ≤ b.1) := by
  induction l with
  | nil => simp [sortTags]
  | cons x rest ih => exact sortedInsertTag_sorted x ih

theorem sortTags_eq_of_perm {l₁ l₂ : List (Char × String × List String)}
    (hp : l₁.Perm l₂) (hn : (l₁.map Prod.fst).Nodup) :
    sortTags l₁ = sortTags l₂ := by
  have hperm : (sortTags l₁).Perm (sortTags l₂) :=
    ((sortTags_perm l₁).trans hp).trans (sortTags_perm l₂).symm
  have hchars : ∀ l : List (Char × String × List String), (l.map Prod.fst).Nodup →
      (sortTags l).Pairwise (fun a b => a.1 < b.1) := by
    intro l hl
    have h1 := sortTags_sorted l
    have h2 : ((sortTags l).map Prod.fst).Nodup :=
      (((sortTags_perm l).map Prod.fst).nodup_iff).mpr hl
    rw [List.Nodup, List.pairwise_map] at h2
    refine (h1.and h2).imp ?_
    intro a b hab
    exact lt_of_le_of_ne hab.1 hab.2
  have hs₁ := hchars l₁ hn
  have hs₂ := hchars l₂ ((hp.map Prod.fst).nodup_iff.mp hn)
  haveI : IsAntisymm (Char × String × List String) (fun a b => a.1 < b.1) :=
    ⟨fun a b h1 h2 => absurd (lt_trans h1 h2) (lt_irrefl _)⟩
  exact List.eq_of_perm_of_sorted hperm hs₁ hs₂

theorem ChildList.replace_replace_same {cl : ChildList} {c : Char} {A B : SCPITrieNode}
    (hA : A.character = c) : (cl.replace c A).replace c B = cl.replace c B := by
  induction cl using ChildList.recSimple with
  | nil => rfl
  | cons m rest ih =>
    by_cases hm : m.character == c
    · have hA2 : A.character == c := by rw [hA]; exact beq_self_eq_true c
      simp [ChildList.replace, hm, hA2]
    · simp [ChildList.replace, hm, ih]

theorem ChildList.replace_replace_comm {cl : ChildList} {c d : Char} {A B : SCPITrieNode}
    (hcd : c ≠ d) (hA : A.character = c) (hB : B.character = d) :
    (cl.replace c A).replace d B = (cl.replace d B).replace c A := by
  induction cl using ChildList.recSimple with
  | nil => rfl
  | cons m rest ih =>
    by_cases hmc : m.character == c
    · have hmd : ¬(m.character == d) := by
        simp only [beq_iff_eq] at hmc ⊢
        rw [hmc]
        exact hcd
      have hAd : ¬(A.character == d) := by
        simp only [beq_iff_eq]
        rw [hA]
        exact hcd
      simp [ChildList.replace, hmc, hmd, hAd]
    · by_cases hmd : m.character == d
      · have hBc : ¬(B.character == c) := by
          simp only [beq_iff_eq]
          rw [hB]
          exact fun hh => hcd hh.symm
        simp [ChildList.replace, hmc, hmd, hBc]
      · simp [ChildList.replace, hmc, hmd, ih]

theorem ChildList.replace_append_comm {cl : ChildList} {c : Char} {A B : SCPITrieNode}
    (hB : B.character ≠ c) : (cl.replace c A).append B = (cl.append B).replace c A := by
  induction cl using ChildList.recSimple with
  | nil =>
    have hB2 : ¬(B.character == c) := by simp only [beq_iff_eq]; exact hB
    simp [ChildList.replace, ChildList.append, hB2]
  | cons m rest ih =>
    by_cases hm : m.character == c
    · simp [ChildList.replace, ChildList.append, hm]
    · simp [ChildList.replace, ChildList.append, hm, ih]

theorem chars_perm_of_sortCanon_eq {cs₁ cs₂ : ChildList}
    (h : sortCL (canonL cs₁) = sortCL (canonL cs₂)) :
    (cs₁.toList.map SCPITrieNode.character).Perm (cs₂.toList.map SCPITrieNode.character) := by
  have h1 : (canonL cs₁).toList.Perm ((canonL cs₂).toList) := by
    have h2 : (sortCL (canonL cs₁)).toList = (sortCL (canonL cs₂)).toList := by rw [h]
    exact ((sortCL_toList_perm (canonL cs₁)).symm.trans (h2 ▸ List.Perm.refl _)).trans
      (sortCL_toList_perm (canonL cs₂))
  have h3 := h1.map SCPITrieNode.character
  rw [canonL_toList, canonL_toList, List.map_map, List.map_map] at h3
  have hfun : SCPITrieNode.character ∘ canonT = SCPITrieNode.character := by
    funext n
    exact canonT_character n
  rw [hfun] at h3
  exact h3

theorem lookup_none_of_sortCanon_eq {cs₁ cs₂ : ChildList} {d : Char}
    (h : sortCL (canonL cs₁) = sortCL (canonL cs₂)) (hl : cs₁.lookup d = none) :
    cs₂.lookup d = none := by
  rw [ChildList.lookup_none_iff] at hl ⊢
  intro hmem
  exact hl ((chars_perm_of_sortCanon_eq h).mem_iff.mpr hmem)

theorem lookup_some_of_sortCanon_eq {cs₁ cs₂ : ChildList} {d : Char} {n₁ : SCPITrieNode}
    (hk₂ : keysNodup cs₂ = true)
    (h : sortCL (canonL cs₁) = sortCL (canonL cs₂)) (hl : cs₁.lookup d = some n₁) :
    ∃ n₂, cs₂.lookup d = some n₂ ∧ canonT n₂ = canonT n₁ := by
  have h1 : (canonL cs₁).toList.Perm ((canonL cs₂).toList) := by
    have h2 : (sortCL (canonL cs₁)).toList = (sortCL (canonL cs₂)).toList := by rw [h]
    exact ((sortCL_toList_perm (canonL cs₁)).symm.trans (h2 ▸ List.Perm.refl _)).trans
      (sortCL_toList_perm (canonL cs₂))
  have hmem1 : canonT n₁ ∈ (canonL cs₁).toList := by
    rw [canonL_toList]
    exact List.mem_map_of_mem canonT (ChildList.lookup_mem hl)
  have hmem2 : canonT n₁ ∈ (canonL cs₂).toList := h1.mem_iff.mp hmem1
  rw [canonL_toList] at hmem2
  rcases List.mem_map.mp hmem2 with ⟨n₂, hn₂, hceq⟩
  refine ⟨n₂, ?_, hceq⟩
  have hchar : n₂.character = d := by
    have e1 : n₂.character = (canonT n₂).character := (canonT_character n₂).symm
    rw [e1, hceq, canonT_character]
    exact ChildList.lookup_character hl
  rw [← hchar]
  exact ChildList.lookup_of_mem hk₂ hn₂

theorem character_comp_canonT :
    SCPITrieNode.character ∘ canonT = SCPITrieNode.character := by
  funext n
  exact canonT_character n

theorem canonL_perm_of_sortCanon_eq {cs₁ cs₂ : ChildList}
    (h : sortCL (canonL cs₁) = sortCL (canonL cs₂)) :
    (canonL cs₁).toList.Perm ((canonL cs₂).toList) := by
  have h2 : (sortCL (canonL cs₁)).toList = (sortCL (canonL cs₂)).toList := by rw [h]
  exact ((sortCL_toList_perm (canonL cs₁)).symm.trans (h2 ▸ List.Perm.refl _)).trans
    (sortCL_toList_perm (canonL cs₂))

/-- Inserting the same variation into two tries with the same canonical
form (and distinct child keys everywhere) yields tries with the same
canonical form. -/
theorem canonT_insert_congr : ∀ (v : List Char) (t₁ t₂ : SCPITrieNode) (i : Nat),
    wellKeysT t₁ = true → wellKeysT t₂ = true → canonT t₁ = canonT t₂ →
    canonT (t₁.insertVarT v i) = canonT (t₂.insertVarT v i) := by
  intro v
  induction v with
  | nil =>
    intro t₁ t₂ i h₁ h₂ hc
    cases t₁ with
    | mk c tm ci cs₁ =>
      cases t₂ with
      | mk c2 tm2 ci2 cs₂ =>
        simp only [canonT, SCPITrieNode.mk.injEq] at hc
        show canonT (.mk c true (some i) cs₁) = canonT (.mk c2 true (some i) cs₂)
        simp only [canonT, SCPITrieNode.mk.injEq]
        exact ⟨hc.1, trivial, trivial, hc.2.2.2⟩
  | cons d r ih =>
    intro t₁ t₂ i h₁ h₂ hc
    cases t₁ with
    | mk c tm ci cs₁ =>
      cases t₂ with
      | mk c2 tm2 ci2 cs₂ =>
        simp only [canonT, SCPITrieNode.mk.injEq] at hc
        obtain ⟨hcc, htm, hci, S⟩ := hc
        simp only [wellKeysT, Bool.and_eq_true] at h₁ h₂
        rw [SCPITrieNode.insertVarT_cons, SCPITrieNode.insertVarT_cons]
        have hpermL := canonL_perm_of_sortCanon_eq S
        cases hl₁ : cs₁.lookup d with
        | some n₁ =>
          obtain ⟨n₂, hl₂, hcn⟩ := lookup_some_of_sortCanon_eq h₂.1 S hl₁
          rw [hl₂]
          have hIH : canonT (n₁.insertVarT r i) = canonT (n₂.insertVarT r i) :=
            ih n₁ n₂ i (wellKeysL_lookup h₁.2 hl₁) (wellKeysL_lookup h₂.2 hl₂) hcn.symm
          simp only [canonT, SCPITrieNode.mk.injEq]
          refine ⟨hcc, htm, hci, ?_⟩
          rw [canonL_replace, canonL_replace, hIH]
          have hZc : (canonT (n₂.insertVarT r i)).character = d := by
            rw [canonT_character, SCPITrieNode.insertVarT_character]
            exact ChildList.lookup_character hl₂
          have hncc : (canonT n₁).character = d := by
            rw [canonT_character]
            exact ChildList.lookup_character hl₁
          have hlc₁ : (canonL cs₁).lookup d = some (canonT n₁) := by
            rw [lookup_canonL, hl₁]
            rfl
          have hlc₂ : (canonL cs₂).lookup d = some (canonT n₁) := by
            rw [lookup_canonL, hl₂]
            simp [hcn]
          obtain ⟨u₁, w₁, hsp₁, hrp₁⟩ :=
            ChildList.replace_toList_split hlc₁ (canonT (n₂.insertVarT r i))
          obtain ⟨u₂, w₂, hsp₂, hrp₂⟩ :=
            ChildList.replace_toList_split hlc₂ (canonT (n₂.insertVarT r i))
          have hpermR : (((canonL cs₁).replace d (canonT (n₂.insertVarT r i))).toList).Perm
              (((canonL cs₂).replace d (canonT (n₂.insertVarT r i))).toList) := by
            rw [hrp₁, hrp₂]
            refine perm_replace_mid (canonT n₁) _ ?_
            rw [← hsp₁, ← hsp₂]
            exact hpermL
          have hchars : ((((canonL cs₁).replace d
              (canonT (n₂.insertVarT r i))).toList).map SCPITrieNode.character).Nodup := by
            have he : ((((canonL cs₁).replace d
                (canonT (n₂.insertVarT r i))).toList).map SCPITrieNode.character)
                = ((canonL cs₁).toList.map SCPITrieNode.character) := by
              rw [hrp₁, hsp₁, List.map_append, List.map_append, List.map_cons, List.map_cons,
                hZc, hncc]
            rw [he, canonL_toList, List.map_map, character_comp_canonT]
            exact (keysNodup_iff cs₁).mp h₁.1
          exact sortCL_eq_of_perm hpermR hchars
        | none =>
          have hl₂ : cs₂.lookup d = none := lookup_none_of_sortCanon_eq S hl₁
          rw [hl₂]
          simp only [canonT, SCPITrieNode.mk.injEq]
          refine ⟨hcc, htm, hci, ?_⟩
          rw [canonL_append, canonL_append]
          have hperm2 : (((canonL cs₁).append
              (canonT ((SCPITrieNode.mk d false none ChildList.nil).insertVarT r i))).toList).Perm
              (((canonL cs₂).append
              (canonT ((SCPITrieNode.mk d false none ChildList.nil).insertVarT r i))).toList) := by
            rw [ChildList.toList_append, ChildList.toList_append]
            exact hpermL.append (List.Perm.refl _)
          have hchars2 : ((((canonL cs₁).append
              (canonT ((SCPITrieNode.mk d false none ChildList.nil).insertVarT r i))).toList).map
                SCPITrieNode.character).Nodup := by
            rw [ChildList.toList_append, List.map_append, canonL_toList, List.map_map,
              character_comp_canonT]
            have hXc : ([canonT ((SCPITrieNode.mk d false none ChildList.nil).insertVarT r i)].map
                SCPITrieNode.character) = [d] := by
              simp only [List.map_cons, List.map_nil]
              rw [canonT_character, SCPITrieNode.insertVarT_character]
              rfl
            rw [hXc, List.nodup_append]
            refine ⟨(keysNodup_iff cs₁).mp h₁.1, List.nodup_singleton d, ?_⟩
            intro x hx hx2
            rw [List.mem_singleton] at hx2
            subst hx2
            exact (ChildList.lookup_none_iff cs₁ x).mp hl₁ hx
          exact sortCL_eq_of_perm hperm2 hchars2

theorem insertVarT_cons_some {cs : ChildList} {c : Char} {n : SCPITrieNode}
    (hl : cs.lookup c = some n) (ch : Char) (term : Bool) (ci : Option Nat)
    (rest : List Char) (i : Nat) :
    (SCPITrieNode.mk ch term ci cs).insertVarT (c :: rest) i
      = .mk ch term ci (cs.replace c (n.insertVarT rest i)) := by
  rw [SCPITrieNode.insertVarT_cons, hl]

theorem insertVarT_cons_none {cs : ChildList} {c : Char}
    (hl : cs.lookup c = none) (ch : Char) (term : Bool) (ci : Option Nat)
    (rest : List Char) (i : Nat) :
    (SCPITrieNode.mk ch term ci cs).insertVarT (c :: rest) i
      = .mk ch term ci
          (cs.append ((SCPITrieNode.mk c false none .nil).insertVarT rest i)) := by
  rw [SCPITrieNode.insertVarT_cons, hl]

theorem nodup_chars_append2 {cs : ChildList} {c₁ c₂ : Char}
    (hk : keysNodup cs = true) (h₁ : cs.lookup c₁ = none) (h₂ : cs.lookup c₂ = none)
    (hne : c₁ ≠ c₂) :
    ((cs.toList.map SCPITrieNode.character) ++ [c₁, c₂]).Nodup := by
  rw [List.nodup_append]
  refine ⟨(keysNodup_iff cs).mp hk, by simp [hne], ?_⟩
  intro x hx hx2
  rcases List.mem_cons.mp hx2 with hx2 | hx2
  · subst hx2
    exact (ChildList.lookup_none_iff cs x).mp h₁ hx
  · rw [List.mem_singleton] at hx2
    subst hx2
    exact (ChildList.lookup_none_iff cs x).mp h₂ hx

/-- Two insertions of distinct variations commute up to canonical form. -/
theorem canonT_insert_comm : ∀ (v₁ v₂ : List Char) (t : SCPITrieNode) (i₁ i₂ : Nat),
    wellKeysT t = true → v₁ ≠ v₂ →
    canonT ((t.insertVarT v₁ i₁).insertVarT v₂ i₂)
      = canonT ((t.insertVarT v₂ i₂).insertVarT v₁ i₁) := by
  intro v₁
  induction v₁ with
  | nil =>
    intro v₂ t i₁ i₂ hw hne
    cases v₂ with
    | nil => exact absurd rfl hne
    | cons d r₂ =>
      cases t with
      | mk c tm ci cs =>
        have e1 : (SCPITrieNode.mk c tm ci cs).insertVarT [] i₁
            = .mk c true (some i₁) cs := rfl
        rw [e1, SCPITrieNode.insertVarT_cons, SCPITrieNode.insertVarT_cons]
        cases hl : cs.lookup d <;> rfl
  | cons c₁ r₁ ih =>
    intro v₂ t i₁ i₂ hw hne
    cases v₂ with
    | nil =>
      cases t with
      | mk c tm ci cs =>
        have e1 : (SCPITrieNode.mk c tm ci cs).insertVarT [] i₂
            = .mk c true (some i₂) cs := rfl
        rw [e1, SCPITrieNode.insertVarT_cons, SCPITrieNode.insertVarT_cons]
        cases hl : cs.lookup c₁ <;> rfl
    | cons c₂ r₂ =>
      cases t with
      | mk c tm ci cs =>
        simp only [wellKeysT, Bool.and_eq_true] at hw
        by_cases hc : c₁ = c₂
        · subst hc
          have hr : r₁ ≠ r₂ := fun hh => hne (by rw [hh])
          cases hl : cs.lookup c₁ with
          | some n =>
            have hcn := ChildList.lookup_character hl
            have hcX₁ : (n.insertVarT r₁ i₁).character = c₁ := by
              rw [SCPITrieNode.insertVarT_character]; exact hcn
            have hcX₂ : (n.insertVarT r₂ i₂).character = c₁ := by
              rw [SCPITrieNode.insertVarT_character]; exact hcn
            rw [insertVarT_cons_some hl, insertVarT_cons_some hl,
              insertVarT_cons_some (ChildList.lookup_replace_self (by rw [hl]; rfl) hcX₁),
              insertVarT_cons_some (ChildList.lookup_replace_self (by rw [hl]; rfl) hcX₂),
              ChildList.replace_replace_same hcX₁, ChildList.replace_replace_same hcX₂]
            simp only [canonT, SCPITrieNode.mk.injEq, true_and]
            rw [canonL_replace, canonL_replace,
              ih r₂ n i₁ i₂ (wellKeysL_lookup hw.2 hl) hr]
          | none =>
            have hcX₁ : ((SCPITrieNode.mk c₁ false none ChildList.nil).insertVarT r₁ i₁).character
                = c₁ := by
              rw [SCPITrieNode.insertVarT_character]; rfl
            have hcX₂ : ((SCPITrieNode.mk c₁ false none ChildList.nil).insertVarT r₂ i₂).character
                = c₁ := by
              rw [SCPITrieNode.insertVarT_character]; rfl
            rw [insertVarT_cons_none hl, insertVarT_cons_none hl,
              insertVarT_cons_some (ChildList.lookup_append_self_key hl hcX₁),
              insertVarT_cons_some (ChildList.lookup_append_self_key hl hcX₂),
              ChildList.replace_append_fresh hl hcX₁,
              ChildList.replace_append_fresh hl hcX₂]
            simp only [canonT, SCPITrieNode.mk.injEq, true_and]
            rw [canonL_append, canonL_append,
              ih r₂ (SCPITrieNode.mk c₁ false none ChildList.nil) i₁ i₂ rfl hr]
        · cases hl₁ : cs.lookup c₁ with
          | some n₁ =>
            have hcA : (n₁.insertVarT r₁ i₁).character = c₁ := by
              rw [SCPITrieNode.insertVarT_character]
              exact ChildList.lookup_character hl₁
            cases hl₂ : cs.lookup c₂ with
            | some n₂ =>
              have hcB : (n₂.insertVarT r₂ i₂).character = c₂ := by
                rw [SCPITrieNode.insertVarT_character]
                exact ChildList.lookup_character hl₂
              rw [insertVarT_cons_some hl₁, insertVarT_cons_some hl₂,
                insertVarT_cons_some (show (cs.replace c₁ (n₁.insertVarT r₁ i₁)).lookup c₂
                  = some n₂ from by
                    rw [ChildList.lookup_replace_ne (fun hh => hc hh.symm) hcA]; exact hl₂),
                insertVarT_cons_some (show (cs.replace c₂ (n₂.insertVarT r₂ i₂)).lookup c₁
                  = some n₁ from by
                    rw [ChildList.lookup_replace_ne hc hcB]; exact hl₁),
                ChildList.replace_replace_comm hc hcA hcB]
            | none =>
              have hcB : ((SCPITrieNode.mk c₂ false none ChildList.nil).insertVarT r₂ i₂).character
                  = c₂ := by
                rw [SCPITrieNode.insertVarT_character]; rfl
              rw [insertVarT_cons_some hl₁, insertVarT_cons_none hl₂,
                insertVarT_cons_none (show (cs.replace c₁ (n₁.insertVarT r₁ i₁)).lookup c₂
                  = none from by
                    rw [ChildList.lookup_replace_ne (fun hh => hc hh.symm) hcA]; exact hl₂),
                insertVarT_cons_some (show (cs.append
                    ((SCPITrieNode.mk c₂ false none ChildList.nil).insertVarT r₂ i₂)).lookup c₁
                  = some n₁ from by
                    rw [ChildList.lookup_append_ne (by rw [hcB]; exact hc)]; exact hl₁),
                ChildList.replace_append_comm (by rw [hcB]; exact fun hh => hc hh.symm)]
          | none =>
            have hcA : ((SCPITrieNode.mk c₁ false none ChildList.nil).insertVarT r₁ i₁).character
                = c₁ := by
              rw [SCPITrieNode.insertVarT_character]; rfl
            cases hl₂ : cs.lookup c₂ with
            | some n₂ =>
              have hcB : (n₂.insertVarT r₂ i₂).character = c₂ := by
                rw [SCPITrieNode.insertVarT_character]
                exact ChildList.lookup_character hl₂
              rw [insertVarT_cons_none hl₁, insertVarT_cons_some hl₂,
                insertVarT_cons_some (show (cs.append
                    ((SCPITrieNode.mk c₁ false none ChildList.nil).insertVarT r₁ i₁)).lookup c₂
                  = some n₂ from by
                    rw [ChildList.lookup_append_ne (by rw [hcA]; exact fun hh => hc hh.symm)]
                    exact hl₂),
                insertVarT_cons_none (show (cs.replace c₂ (n₂.insertVarT r₂ i₂)).lookup c₁
                  = none from by
                    rw [ChildList.lookup_replace_ne hc hcB]; exact hl₁),
                ChildList.replace_append_comm (by rw [hcA]; exact hc)]
            | none =>
              have hcB : ((SCPITrieNode.mk c₂ false none ChildList.nil).insertVarT r₂ i₂).character
                  = c₂ := by
                rw [SCPITrieNode.insertVarT_character]; rfl
              rw [insertVarT_cons_none hl₁, insertVarT_cons_none hl₂,
                insertVarT_cons_none (show (cs.append
                    ((SCPITrieNode.mk c₁ false none ChildList.nil).insertVarT r₁ i₁)).lookup c₂
                  = none from by
                    rw [ChildList.lookup_append_ne (by rw [hcA]; exact fun hh => hc hh.symm)]
                    exact hl₂),
                insertVarT_cons_none (show (cs.append
                    ((SCPITrieNode.mk c₂ false none ChildList.nil).insertVarT r₂ i₂)).lookup c₁
                  = none from by
                    rw [ChildList.lookup_append_ne (by rw [hcB]; exact hc)]; exact hl₁)]
              simp only [canonT, SCPITrieNode.mk.injEq, true_and]
              rw [canonL_append, canonL_append, canonL_append, canonL_append]
              have hsplit : ∀ (A B : SCPITrieNode),
                  (((canonL cs).append A).append B).toList
                    = (canonL cs).toList ++ [A, B] := by
                intro A B
                rw [ChildList.toList_append, ChildList.toList_append, List.append_assoc]
                rfl
              apply sortCL_eq_of_perm
              · rw [hsplit, hsplit]
                exact List.Perm.append_left _ (List.Perm.swap _ _ _)
              · rw [hsplit, List.map_append, canonL_toList, List.map_map,
                  character_comp_canonT]
                have hAB : ([canonT ((SCPITrieNode.mk c₁ false none ChildList.nil).insertVarT r₁ i₁),
                    canonT ((SCPITrieNode.mk c₂ false none ChildList.nil).insertVarT r₂ i₂)].map
                      SCPITrieNode.character) = [c₁, c₂] := by
                  simp only [List.map_cons, List.map_nil]
                  rw [canonT_character, canonT_character, hcA, hcB]
                rw [hAB]
                exact nodup_chars_append2 hw.1 hl₁ hl₂ hc

theorem canonT_insertPairs_congr : ∀ (l : List (List Char × Nat)) (t₁ t₂ : SCPITrieNode),
    wellKeysT t₁ = true → wellKeysT t₂ = true → canonT t₁ = canonT t₂ →
    canonT (insertPairsT t₁ l) = canonT (insertPairsT t₂ l) := by
  intro l
  induction l with
  | nil => intro t₁ t₂ _ _ hc; exact hc
  | cons p rest ih =>
    intro t₁ t₂ h₁ h₂ hc
    show canonT (insertPairsT (t₁.insertVarT p.1 p.2) rest)
      = canonT (insertPairsT (t₂.insertVarT p.1 p.2) rest)
    exact ih _ _ (wellKeysT_insertVarT p.1 t₁ p.2 h₁) (wellKeysT_insertVarT p.1 t₂ p.2 h₂)
      (canonT_insert_congr p.1 t₁ t₂ p.2 h₁ h₂ hc)

/-- With pairwise distinct variation strings, any two insertion orders of
the same (variation, index) pairs build tries with the same canonical
form. -/
theorem canonT_insertPairs_perm {l₁ l₂ : List (List Char × Nat)} (hperm : l₁.Perm l₂) :
    (l₁.map Prod.fst).Nodup → ∀ t : SCPITrieNode, wellKeysT t = true →
    canonT (insertPairsT t l₁) = canonT (insertPairsT t l₂) := by
  induction hperm with
  | nil => intro _ t _; rfl
  | cons x h ih =>
    intro hn t hw
    show canonT (insertPairsT (t.insertVarT x.1 x.2) _)
      = canonT (insertPairsT (t.insertVarT x.1 x.2) _)
    exact ih (by simpa using (List.nodup_cons.mp (by simpa using hn)).2)
      _ (wellKeysT_insertVarT x.1 t x.2 hw)
  | swap x y l =>
    intro hn t hw
    show canonT (insertPairsT ((t.insertVarT y.1 y.2).insertVarT x.1 x.2) l)
      = canonT (insertPairsT ((t.insertVarT x.1 x.2).insertVarT y.1 y.2) l)
    have hxy : y.1 ≠ x.1 := by
      simp only [List.map_cons, List.nodup_cons, List.mem_cons] at hn
      exact fun hh => hn.1 (Or.inl hh)
    have hw₁ : wellKeysT ((t.insertVarT y.1 y.2).insertVarT x.1 x.2) = true :=
      wellKeysT_insertVarT _ _ _ (wellKeysT_insertVarT _ _ _ hw)
    have hw₂ : wellKeysT ((t.insertVarT x.1 x.2).insertVarT y.1 y.2) = true :=
      wellKeysT_insertVarT _ _ _ (wellKeysT_insertVarT _ _ _ hw)
    exact canonT_insertPairs_congr l _ _ hw₁ hw₂
      (canonT_insert_comm y.1 x.1 t y.2 x.2 hw hxy)
  | trans h₁₂ h₂₃ ih₁ ih₂ =>
    intro hn t hw
    exact (ih₁ hn t hw).trans
      (ih₂ ((h₁₂.map Prod.fst).nodup_iff.mp hn) t hw)

theorem collectChildDefs_eq_map (cmds : List SCPIDefinitionCommand) :
    ∀ (cl : ChildList) (path : List Char),
    collectChildDefs cmds cl path
      = cl.toList.map (fun n =>
          (n.character, collectNodeDefs cmds n (path ++ [n.character]))) := by
  intro cl
  induction cl using ChildList.recSimple with
  | nil => intro path; rfl
  | cons n rest ih =>
    intro path
    simp only [collectChildDefs, ChildList.toList, List.map_cons, ih]

/-- Pre-sorting the whole trie does not change the emitted structure:
the emitter already renders every node's children in ascending character
order. -/
theorem collectNodeDefs_canon (cmds : List SCPIDefinitionCommand) (t : SCPITrieNode) :
    ∀ (path : List Char), wellKeysT t = true →
    collectNodeDefs cmds t path = collectNodeDefs cmds (canonT t) path := by
  refine SCPITrieNode.recTwo
    (fun t => ∀ (path : List Char), wellKeysT t = true →
      collectNodeDefs cmds t path = collectNodeDefs cmds (canonT t) path)
    (fun cl => ∀ (path : List Char), wellKeysL cl = true →
      collectChildDefs cmds (canonL cl) path = collectChildDefs cmds cl path)
    ?_ ?_ ?_ t
  · intro ch term ci cs hml path hw
    simp only [wellKeysT, Bool.and_eq_true] at hw
    show nodeAssemble cmds ch term ci path (sortTags (collectChildDefs cmds cs path))
      = collectNodeDefs cmds (.mk ch term ci (sortCL (canonL cs))) path
    show nodeAssemble cmds ch term ci path (sortTags (collectChildDefs cmds cs path))
      = nodeAssemble cmds ch term ci path
          (sortTags (collectChildDefs cmds (sortCL (canonL cs)) path))
    have hstep : sortTags (collectChildDefs cmds (sortCL (canonL cs)) path)
        = sortTags (collectChildDefs cmds cs path) := by
      have hp1 : (collectChildDefs cmds (sortCL (canonL cs)) path).Perm
          (collectChildDefs cmds (canonL cs) path) := by
        rw [collectChildDefs_eq_map, collectChildDefs_eq_map]
        exact (sortCL_toList_perm (canonL cs)).map _
      have hp2 : (collectChildDefs cmds (sortCL (canonL cs)) path).Perm
          (collectChildDefs cmds cs path) := by
        rw [hml path hw.2] at hp1
        exact hp1
      have hfst : ∀ (cl : ChildList),
          (collectChildDefs cmds cl path).map Prod.fst
            = cl.toList.map SCPITrieNode.character := by
        intro cl
        rw [collectChildDefs_eq_map, List.map_map]
        rfl
      refine sortTags_eq_of_perm hp2 ?_
      rw [hfst]
      have hchars : ((sortCL (canonL cs)).toList.map SCPITrieNode.character).Nodup := by
        have hp3 := (sortCL_toList_perm (canonL cs)).map SCPITrieNode.character
        refine hp3.nodup_iff.mpr ?_
        rw [canonL_toList, List.map_map, character_comp_canonT]
        exact (keysNodup_iff cs).mp hw.1
      exact hchars
    rw [hstep]
  · intro path _
    rfl
  · intro n rest hmt hml path hwl
    simp only [wellKeysL, Bool.and_eq_true] at hwl
    show (((canonT n).character, collectNodeDefs cmds (canonT n) (path ++ [(canonT n).character]))
        :: collectChildDefs cmds (canonL rest) path)
      = ((n.character, collectNodeDefs cmds n (path ++ [n.character]))
        :: collectChildDefs cmds rest path)
    rw [canonT_character, hml path hwl.2, ← hmt (path ++ [n.character]) hwl.1]

theorem collectNodeDefs_congr {cmds : List SCPIDefinitionCommand} {t₁ t₂ : SCPITrieNode}
    (h₁ : wellKeysT t₁ = true) (h₂ : wellKeysT t₂ = true) (hc : canonT t₁ = canonT t₂)
    (path : List Char) :
    collectNodeDefs cmds t₁ path = collectNodeDefs cmds t₂ path := by
  rw [collectNodeDefs_canon cmds t₁ path h₁, collectNodeDefs_canon cmds t₂ path h₂, hc]

/-- C9: the emitted C++ trie structure is insensitive to the order in
which the (variation, command index) pairs are inserted, provided the
variation strings are pairwise distinct: for any permutation of the
insertion order the collected node definitions and the templated root
coincide, because every node's children are rendered in ascending
character order and child arrays are emitted bottom-up before they are
referenced.  (Distinctness is necessary — see the counterexample: for a
repeated variation the later insertion overwrites the stored command
index, so two orders of the same pair set can emit different output.) -/
theorem c9_emission_order_insensitive (cmds : List SCPIDefinitionCommand)
    (ns cls : String) (l₁ l₂ : List (List Char × Nat))
    (hperm : l₁.Perm l₂) (hnodup : (l₁.map Prod.fst).Nodup) :
    generateTrieStructure cmds ns cls (insertPairsT emptyRoot l₁)
      = generateTrieStructure cmds ns cls (insertPairsT emptyRoot l₂) := by
  have hw : wellKeysT emptyRoot = true := rfl
  have hcol : collectNodeDefs cmds (insertPairsT emptyRoot l₁) []
      = collectNodeDefs cmds (insertPairsT emptyRoot l₂) [] :=
    collectNodeDefs_congr (wellKeysT_insertPairs l₁ emptyRoot hw)
      (wellKeysT_insertPairs l₂ emptyRoot hw)
      (canonT_insertPairs_perm hperm hnodup emptyRoot hw) []
  simp only [generateTrieStructure]
  rw [hcol]

theorem c9_emission_order_insensitive_witness :
    generateTrieStructure [idnCmd, ledCmd] "NS" "Cls"
        (insertPairsT emptyRoot (allPairs [idnCmd, ledCmd]))
      = generateTrieStructure [idnCmd, ledCmd] "NS" "Cls"
        (insertPairsT emptyRoot (allPairs [idnCmd, ledCmd]).reverse) :=
  c9_emission_order_insensitive [idnCmd, ledCmd] "NS" "Cls" _ _
    (List.reverse_perm _).symm (by decide)

/-- C9 counterexample, against the claim as stated (any two insertion
orders producing the same set of pairs emit identically): the validating
duplicate-syntax schema expands to the pair list `[("*IDN?", 0),
("*IDN?", 1)]`, whose two orders carry the same pair set; both stored
terminal indices lie within the two-command list, yet the emitted
structures differ — the later insertion silently overwrites the
terminal's stored command index. -/
theorem c9_counterexample :
    allPairs defnDupSyntax.commands = [("*IDN?".data, 0), ("*IDN?".data, 1)]
    ∧ defnDupSyntax.commands.length = 2
    ∧ (allPairs defnDupSyntax.commands ⊆ [("*IDN?".data, 1), ("*IDN?".data, 0)])
    ∧ (([("*IDN?".data, 1), ("*IDN?".data, 0)] : List (List Char × Nat))
        ⊆ allPairs defnDupSyntax.commands)
    ∧ generateTrieStructure defnDupSyntax.commands "NS" "Cls"
        (insertPairsT emptyRoot (allPairs defnDupSyntax.commands))
      ≠ generateTrieStructure defnDupSyntax.commands "NS" "Cls"
        (insertPairsT emptyRoot [("*IDN?".data, 1), ("*IDN?".data, 0)]) :=
  ⟨by decide, rfl, by decide, by decide, by decide⟩
